import Mathlib

/-!
Verification of the geometric core of the `pdfplumber_tablefinder` table
extraction engine, as a shallow embedding in Lean 4.

Coordinates (floats in the Python source) are modelled as rationals.
Because Mathlib marks the arithmetic of `ℚ` irreducible, the embedding
computes with small `mkRat`-based wrappers (`qadd`, `qsub`, `qmul`,
`qdivn`); the bridge lemmas `qadd_eq`, `qsub_eq`, `qmul_eq`, `qdivn_eq`
identify them with the ordinary field operations, so proofs reason about
`+`, `-`, `*`, `/` while concrete runs still reduce inside the kernel.

Python's stable `sort` is modelled by the insertion sort `sortBy`;
`itertools.groupby` by `pyGroupBy`; `list.remove` (which raises on a
missing element) by `removeFirst` into `Option`; raised exceptions by
`Option`/`Except` results.
-/

/-! ### Rational arithmetic wrappers -/

def qadd (a b : ℚ) : ℚ := mkRat (a.num * b.den + b.num * a.den) (a.den * b.den)

def qneg (a : ℚ) : ℚ := mkRat (-a.num) a.den

def qsub (a b : ℚ) : ℚ := qadd a (qneg b)

def qmul (a b : ℚ) : ℚ := mkRat (a.num * b.num) (a.den * b.den)

/-- Division of a rational by a natural number (used for cluster means and
midpoints; Python divides floats, the divisor is always a positive count). -/
def qdivn (a : ℚ) (n : ℕ) : ℚ := mkRat a.num (a.den * n)

def qhalf (a : ℚ) : ℚ := qdivn a 2

theorem qadd_eq (a b : ℚ) : qadd a b = a + b := by
  have ha : ((a.den : ℚ)) ≠ 0 := Nat.cast_ne_zero.mpr a.den_nz
  have hb : ((b.den : ℚ)) ≠ 0 := Nat.cast_ne_zero.mpr b.den_nz
  rw [qadd, Rat.mkRat_eq_div]
  conv_rhs => rw [← Rat.num_div_den a, ← Rat.num_div_den b, div_add_div _ _ ha hb]
  push_cast
  ring_nf

theorem qneg_eq (a : ℚ) : qneg a = -a := by
  have ha : ((a.den : ℚ)) ≠ 0 := Nat.cast_ne_zero.mpr a.den_nz
  rw [qneg, Rat.mkRat_eq_div]
  conv_rhs => rw [← Rat.num_div_den a]
  push_cast
  ring_nf

theorem qsub_eq (a b : ℚ) : qsub a b = a - b := by
  rw [qsub, qadd_eq, qneg_eq, sub_eq_add_neg]

theorem qmul_eq (a b : ℚ) : qmul a b = a * b := by
  have ha : ((a.den : ℚ)) ≠ 0 := Nat.cast_ne_zero.mpr a.den_nz
  have hb : ((b.den : ℚ)) ≠ 0 := Nat.cast_ne_zero.mpr b.den_nz
  rw [qmul, Rat.mkRat_eq_div]
  conv_rhs => rw [← Rat.num_div_den a, ← Rat.num_div_den b, div_mul_div_comm]
  push_cast
  ring_nf

theorem qdivn_eq (a : ℚ) (n : ℕ) : qdivn a n = a / (n : ℚ) := by
  rcases Nat.eq_zero_or_pos n with h0 | hpos
  · subst h0
    rw [qdivn, Nat.cast_zero, div_zero, mul_zero]
    exact Rat.mkRat_zero a.num
  · have ha : ((a.den : ℚ)) ≠ 0 := Nat.cast_ne_zero.mpr a.den_nz
    have hn : ((n : ℚ)) ≠ 0 := Nat.cast_ne_zero.mpr hpos.ne'
    rw [qdivn, Rat.mkRat_eq_div]
    conv_rhs => rw [← Rat.num_div_den a]
    push_cast
    rw [div_div]

theorem qhalf_eq (a : ℚ) : qhalf a = a / 2 := by
  rw [qhalf, qdivn_eq]
  norm_num

/-! ### A stable insertion sort, modelling Python's `sorted`

Python's `sorted` is a stable sort.  For the proofs below only three facts
about it are ever used: the output is a permutation of the input, the output
is sorted (weakly, by the given boolean order), and sorting an
already-sorted list returns it unchanged.  Insertion sort, inserting each
element after all elements that compare `le` to it, has all three (and is
stable, matching Python). -/

def insertSorted {α : Type} (le : α → α → Bool) (x : α) : List α → List α
  | [] => [x]
  | y :: ys => if le y x then y :: insertSorted le x ys else x :: y :: ys

def sortBy {α : Type} (le : α → α → Bool) (l : List α) : List α :=
  l.foldl (fun acc x => insertSorted le x acc) []

theorem insertSorted_perm {α : Type} (le : α → α → Bool) (x : α) (l : List α) :
    (insertSorted le x l).Perm (x :: l) := by
  induction l with
  | nil => simp [insertSorted]
  | cons y ys ih =>
    rw [insertSorted]
    by_cases h : le y x = true
    · simp only [h, if_true]
      exact (ih.cons y).trans (List.Perm.swap x y ys)
    · simp [h]

theorem foldl_insertSorted_perm {α : Type} (le : α → α → Bool) :
    ∀ (l acc : List α), (l.foldl (fun acc x => insertSorted le x acc) acc).Perm (acc ++ l) := by
  intro l
  induction l with
  | nil => intro acc; simp
  | cons x xs ih =>
    intro acc
    rw [List.foldl_cons]
    refine (ih (insertSorted le x acc)).trans ?_
    have h1 : (insertSorted le x acc ++ xs).Perm ((x :: acc) ++ xs) :=
      (insertSorted_perm le x acc).append_right xs
    refine h1.trans ?_
    simp only [List.cons_append]
    exact List.perm_middle.symm

theorem sortBy_perm {α : Type} (le : α → α → Bool) (l : List α) :
    (sortBy le l).Perm l := by
  simpa [sortBy] using foldl_insertSorted_perm le l []

theorem mem_sortBy {α : Type} {le : α → α → Bool} {l : List α} {a : α} :
    a ∈ sortBy le l ↔ a ∈ l :=
  (sortBy_perm le l).mem_iff

theorem sortBy_nodup {α : Type} {le : α → α → Bool} {l : List α} (h : l.Nodup) :
    (sortBy le l).Nodup :=
  (sortBy_perm le l).nodup_iff.mpr h

theorem mem_insertSorted {α : Type} {le : α → α → Bool} {x a : α} {l : List α} :
    a ∈ insertSorted le x l ↔ a = x ∨ a ∈ l := by
  rw [(insertSorted_perm le x l).mem_iff]
  simp

theorem insertSorted_pairwise {α : Type} {le : α → α → Bool}
    (htrans : ∀ a b c, le a b = true → le b c = true → le a c = true)
    (htot : ∀ a b, le a b = true ∨ le b a = true)
    {x : α} {l : List α} (h : l.Pairwise (fun a b => le a b = true)) :
    (insertSorted le x l).Pairwise (fun a b => le a b = true) := by
  induction l with
  | nil => simp [insertSorted]
  | cons y ys ih =>
    rw [List.pairwise_cons] at h
    rw [insertSorted]
    by_cases hyx : le y x = true
    · simp only [hyx, if_true, List.pairwise_cons]
      refine ⟨?_, ih h.2⟩
      intro z hz
      rcases mem_insertSorted.mp hz with rfl | hz'
      · exact hyx
      · exact h.1 z hz'
    · have hxy : le x y = true := (htot x y).resolve_right (by simpa using hyx)
      simp only [if_neg hyx, List.pairwise_cons]
      refine ⟨?_, ?_⟩
      · intro z hz
        rcases List.mem_cons.mp hz with rfl | hz'
        · exact hxy
        · exact htrans x y z hxy (h.1 z hz')
      · exact ⟨h.1, h.2⟩

theorem sortBy_pairwise {α : Type} {le : α → α → Bool}
    (htrans : ∀ a b c, le a b = true → le b c = true → le a c = true)
    (htot : ∀ a b, le a b = true ∨ le b a = true) (l : List α) :
    (sortBy le l).Pairwise (fun a b => le a b = true) := by
  have main : ∀ (l acc : List α), acc.Pairwise (fun a b => le a b = true) →
      (l.foldl (fun acc x => insertSorted le x acc) acc).Pairwise (fun a b => le a b = true) := by
    intro l
    induction l with
    | nil => intro acc h; simpa using h
    | cons x xs ih =>
      intro acc h
      rw [List.foldl_cons]
      exact ih _ (insertSorted_pairwise htrans htot h)
  exact main l [] (by simp)

theorem insertSorted_append_mid {α : Type} {le : α → α → Bool} {x : α} {P Q : List α}
    (h1 : ∀ p ∈ P, le p x = true)
    (h2 : ∀ q qs, Q = q :: qs → le q x = false) :
    insertSorted le x (P ++ Q) = P ++ x :: Q := by
  induction P with
  | nil =>
    cases Q with
    | nil => simp [insertSorted]
    | cons q qs =>
      simp only [List.nil_append]
      rw [insertSorted, h2 q qs rfl]
      simp
  | cons p ps ih =>
    simp only [List.cons_append]
    rw [insertSorted, h1 p (by simp)]
    simp only [if_true, List.cons_append]
    rw [ih (fun p' hp' => h1 p' (by simp [hp']))]

theorem insertSorted_append_of_all_le {α : Type} {le : α → α → Bool} {x : α} {l : List α}
    (h : ∀ p ∈ l, le p x = true) :
    insertSorted le x l = l ++ [x] := by
  have := @insertSorted_append_mid _ le x l []
    h (by intro q qs hq; cases hq)
  simpa using this

theorem foldl_insertSorted_eq_append {α : Type} {le : α → α → Bool} :
    ∀ {l acc : List α}, (acc ++ l).Pairwise (fun a b => le a b = true) →
      l.foldl (fun acc x => insertSorted le x acc) acc = acc ++ l := by
  intro l
  induction l with
  | nil => intro acc _; simp
  | cons x xs ih =>
    intro acc h
    rw [List.foldl_cons]
    have hle : ∀ p ∈ acc, le p x = true := by
      rw [List.pairwise_append] at h
      intro p hp
      exact h.2.2 p hp x (by simp)
    rw [insertSorted_append_of_all_le hle]
    have h' : ((acc ++ [x]) ++ xs).Pairwise (fun a b => le a b = true) := by
      simpa [List.append_assoc] using h
    rw [ih h']
    simp

theorem sortBy_eq_self {α : Type} {le : α → α → Bool} {l : List α}
    (h : l.Pairwise (fun a b => le a b = true)) : sortBy le l = l := by
  have := @foldl_insertSorted_eq_append _ le l [] (by simpa using h)
  simpa [sortBy] using this

theorem sortBy_append_swap {α : Type} {le : α → α → Bool} {A B : List α}
    (hA : A.Pairwise (fun a b => le a b = true))
    (hB : B.Pairwise (fun a b => le a b = true))
    (hAB : ∀ a ∈ A, ∀ b ∈ B, le a b = false) :
    sortBy le (A ++ B) = B ++ A := by
  have main : ∀ (B' B0 : List α), B'.Pairwise (fun a b => le a b = true) →
      (∀ p ∈ B0, ∀ b ∈ B', le p b = true) →
      (∀ a ∈ A, ∀ b ∈ B', le a b = false) →
      B'.foldl (fun acc x => insertSorted le x acc) (B0 ++ A) = (B0 ++ B') ++ A := by
    intro B'
    induction B' with
    | nil => intro B0 _ _ _; simp
    | cons b bs ih =>
      intro B0 hpw hB0 hAB'
      rw [List.foldl_cons]
      have key : insertSorted le b (B0 ++ A) = B0 ++ b :: A := by
        refine insertSorted_append_mid ?_ ?_
        · intro p hp; exact hB0 p hp b (by simp)
        · intro q qs hq
          have hqA : q ∈ A := by rw [hq]; simp
          exact hAB' q hqA b (by simp)
      rw [key]
      have : B0 ++ b :: A = (B0 ++ [b]) ++ A := by simp
      rw [this]
      rw [List.pairwise_cons] at hpw
      have := ih (B0 ++ [b]) hpw.2
        (by
          intro p hp b' hb'
          rcases List.mem_append.mp hp with hp' | hp'
          · exact hB0 p hp' b' (by simp [hb'])
          · have : p = b := by simpa using hp'
            subst this
            exact hpw.1 b' hb')
        (by intro a ha b' hb'; exact hAB' a ha b' (by simp [hb']))
      rw [this]
      simp
  have h0 : sortBy le (A ++ B) = B.foldl (fun acc x => insertSorted le x acc) A := by
    rw [sortBy, List.foldl_append]
    congr 1
    exact foldl_insertSorted_eq_append (by simpa using hA)
  rw [h0]
  have := main B [] hB (by simp) hAB
  simpa using this

/-- Minimum of two rationals, written out so that it reduces in the kernel. -/
def qmin (a b : ℚ) : ℚ := if a ≤ b then a else b

theorem qmin_eq (a b : ℚ) : qmin a b = min a b := by
  rw [qmin, min_def]

/-! ### Geometric records

A bounding box `(x0, top, x1, bottom)`: `top` increases downward, `x0`
rightward.  Characters, pages and edges are value records carrying the
fields the verified functions read. -/

structure Bbox where
  x0 : ℚ
  top : ℚ
  x1 : ℚ
  bottom : ℚ
deriving DecidableEq, Inhabited

/-- A bounding box is valid when its intervals are ordered (the data-model
invariant `x0 ≤ x1`, `top ≤ bottom`). -/
def Bbox.Valid (b : Bbox) : Prop := b.x0 ≤ b.x1 ∧ b.top ≤ b.bottom

/-- Strictly positive extent on both axes. -/
def Bbox.Nondeg (b : Bbox) : Prop := b.x0 < b.x1 ∧ b.top < b.bottom

instance (b : Bbox) : Decidable b.Valid := by unfold Bbox.Valid; infer_instance

instance (b : Bbox) : Decidable b.Nondeg := by unfold Bbox.Nondeg; infer_instance

structure PChar where
  x0 : ℚ
  top : ℚ
  x1 : ℚ
  bottom : ℚ
  width : ℚ
  height : ℚ
  doctop : ℚ
  text : String
deriving DecidableEq, Inhabited

structure Page where
  width : ℚ
  height : ℚ
  chars : List PChar
deriving Inhabited

structure Edge where
  x0 : ℚ
  top : ℚ
  x1 : ℚ
  bottom : ℚ
  width : ℚ
  height : ℚ
  orientation : String
  doctop : Option ℚ
  y0 : Option ℚ
  y1 : Option ℚ
deriving DecidableEq, Inhabited

/-! ### The terminal-edge filter (claim C5)

`TableFinder2.remove_terminal_edges` in `table.py` drops an edge when it
reaches within 3% of a page boundary; note that its `x0` test compares
against `page.height * 0.03`, while the standalone `is_terminal_edge` of
`table_filtering.py` uses `page.width * 0.03` on both x tests. -/

def tf2_remove_terminal_edges (page : Page) (edges : List Edge) : List Edge :=
  edges.filter fun edge =>
    !(decide (edge.x0 ≤ qmul page.height (mkRat 3 100))
      || decide (edge.x1 ≥ qmul page.width (mkRat 97 100))
      || decide (edge.top ≤ qmul page.height (mkRat 3 100))
      || decide (edge.bottom ≥ qmul page.height (mkRat 97 100)))

def is_terminal_edge (page : Page) (edge : Edge) : Bool :=
  decide (edge.x0 ≤ qmul page.width (mkRat 3 100))
    || decide (edge.x1 ≥ qmul page.width (mkRat 97 100))
    || decide (edge.top ≤ qmul page.height (mkRat 3 100))
    || decide (edge.bottom ≥ qmul page.height (mkRat 97 100))

/-! ### The too-small-cell filter (claim C6) -/

/-- `get_min_char_size` of `table.py`: the pair (min width, min height) over
the page's characters, starting from the page dimensions. -/
def get_min_char_size (page : Page) : ℚ × ℚ :=
  page.chars.foldl (fun m c => (qmin m.1 c.width, qmin m.2 c.height))
    (page.width, page.height)

/-- `get_cell_size` of `table.py`: (width, height) of a cell bbox. -/
def table_get_cell_size (cell : Bbox) : ℚ × ℚ :=
  (qsub cell.x1 cell.x0, qsub cell.bottom cell.top)

/-- `TableFinder2.remove_too_small_cells`: keep a cell only when its width
strictly exceeds the minimum character width AND its height strictly
exceeds the minimum character height. -/
def tf2_remove_too_small_cells (page : Page) (cells : List Bbox) : List Bbox :=
  let m := get_min_char_size page
  cells.filter fun cell =>
    let s := table_get_cell_size cell
    decide (s.1 > m.1) && decide (s.2 > m.2)

/-- `get_min_char_size` of `table_filtering_utils.py`: the same minima but
returned as (min height, min width). -/
def tfu_get_min_char_size (page : Page) : ℚ × ℚ :=
  page.chars.foldl (fun m c => (qmin m.1 c.height, qmin m.2 c.width))
    (page.height, page.width)

/-- `get_cell_size` of `table_filtering_utils.py`: (height, width). -/
def tfu_get_cell_size (cell : Bbox) : ℚ × ℚ :=
  (qsub cell.bottom cell.top, qsub cell.x1 cell.x0)

/-- `is_too_small_cell_for_chars` of `table_filtering.py`: drop only when
both dimensions are strictly below the minimum character size. -/
def is_too_small_cell_for_chars (page : Page) (cell : Bbox) : Bool :=
  let m := tfu_get_min_char_size page
  let s := tfu_get_cell_size cell
  decide (s.2 < m.2) && decide (s.1 < m.1)

theorem foldl_pair_min (f g : PChar → ℚ) :
    ∀ (l : List PChar) (a b : ℚ),
      l.foldl (fun m c => (qmin m.1 (f c), qmin m.2 (g c))) (a, b)
        = (l.foldl (fun m c => qmin m (f c)) a, l.foldl (fun m c => qmin m (g c)) b) := by
  intro l
  induction l with
  | nil => intro a b; rfl
  | cons c cs ih => intro a b; simpa using ih (qmin a (f c)) (qmin b (g c))

theorem tfu_get_min_char_size_swap (page : Page) :
    tfu_get_min_char_size page = ((get_min_char_size page).2, (get_min_char_size page).1) := by
  rw [tfu_get_min_char_size, get_min_char_size, foldl_pair_min, foldl_pair_min]

theorem bool_gt_and_gt_eq_not_le_or_le (x a y b : ℚ) :
    (decide (x > a) && decide (y > b)) = !(decide (x ≤ a) || decide (y ≤ b)) := by
  rcases le_or_lt x a with h1 | h1
  · simp [h1, not_lt.mpr h1]
  · rcases le_or_lt y b with h2 | h2
    · simp [h2, not_lt.mpr h2]
    · simp [h1, h2, not_le.mpr h1, not_le.mpr h2]

/-- C5: the terminal-edge filter actually used by the pipeline
(`TableFinder2.remove_terminal_edges`) compares `x0` against
`page.height * 0.03`, not `page.width * 0.03` as the specification states.
On a 100x200 page, the edge with `x0 = 5` is dropped by the pipeline filter
even though the width-based predicate `is_terminal_edge` (the spec's
canonical form, implemented in `table_filtering.py`) classifies it as
non-terminal: with width 100, the left threshold should be 3, but the code
uses 0.03 x height = 6. -/
theorem C5_terminal_edge_divergence :
    tf2_remove_terminal_edges ⟨100, 200, []⟩
        [⟨5, 50, 50, 60, 45, 0, "h", none, none, none⟩] = []
      ∧ is_terminal_edge ⟨100, 200, []⟩ ⟨5, 50, 50, 60, 45, 0, "h", none, none, none⟩ = false := by
  constructor
  · rfl
  · rfl

/-- C6 counterexample: on a page whose smallest character is 10 x 10, the
cell `(0, 0, 5, 30)` is below the minimum character size in width only
(5 ≤ 10, but 30 > 10).  The claim says such a cell is kept, yet the
pipeline's `remove_too_small_cells` drops it: the kept-condition requires
BOTH dimensions to strictly exceed the minimum. -/
theorem C6_pipeline_drops_single_dimension :
    tf2_remove_too_small_cells ⟨100, 100, [⟨0, 0, 10, 10, 10, 10, 0, "a"⟩]⟩
        [⟨0, 0, 5, 30⟩] = []
      ∧ ¬(qsub (5 : ℚ) 0 < (get_min_char_size ⟨100, 100, [⟨0, 0, 10, 10, 10, 10, 0, "a"⟩]⟩).1
          ∧ qsub (30 : ℚ) 0 < (get_min_char_size ⟨100, 100, [⟨0, 0, 10, 10, 10, 10, 0, "a"⟩]⟩).2) := by
  constructor
  · rfl
  · decide

/-- C6 (amended): the pipeline's too-small-cell filter drops a cell as soon
as EITHER its width is at most the page's minimum-observed character width
OR its height is at most the minimum character height (keeping exactly the
cells that strictly exceed the minimum in both dimensions), while the
standalone predicate `is_too_small_cell_for_chars` of `table_filtering.py`
(not called by the pipeline) holds only when BOTH dimensions are strictly
below the minimum. -/
theorem C6_too_small_cell_filter (page : Page) (cells : List Bbox) :
    (tf2_remove_too_small_cells page cells
      = cells.filter (fun c =>
          !(decide (qsub c.x1 c.x0 ≤ (get_min_char_size page).1)
            || decide (qsub c.bottom c.top ≤ (get_min_char_size page).2))))
    ∧ (∀ cell : Bbox, is_too_small_cell_for_chars page cell = true ↔
        (qsub cell.x1 cell.x0 < (get_min_char_size page).1
          ∧ qsub cell.bottom cell.top < (get_min_char_size page).2)) := by
  constructor
  · unfold tf2_remove_too_small_cells
    apply List.filter_congr
    intro c _
    rw [table_get_cell_size]
    exact bool_gt_and_gt_eq_not_le_or_le _ _ _ _
  · intro cell
    rw [is_too_small_cell_for_chars, tfu_get_min_char_size_swap, tfu_get_cell_size]
    simp only [Bool.and_eq_true, decide_eq_true_eq]

/-! ### The sweep-line overlap engine (claims C1, C2)

`get_overlapped_bboxes_pairs` (`table_filtering_utils.py`) and the
pipeline's `overlap_bboxes` (`table.py`) are the same sweep over x-events,
differing only in what each stores for an active box and in the predicate
applied when a box enters while another is active:

  - `get_overlapped_bboxes_pairs` stores the whole bbox and tests
    `bbox2_y1 < y2 and bbox2_y2 > y1 and (bbox2_x1-x2)*(bbox2_x2-x1) != 0`;
  - `overlap_bboxes` stores `(idx, y1, y2)` and tests
    `bbox2_y1 <= y2 and bbox2_y2 >= y1`.

Both are obtained from the generic `sweepPairs` below, parameterised by the
payload extractor and by a single relation `cond payload1 payload2` between
an A-box payload and a B-box payload; in the Python source each of the two
enter branches spells this relation out with its own (mirrored) formula,
and both spellings denote the same relation.

Events are `(tag, x, idx, kind)`, sorted by `(x, kind)` ascending exactly
as `bbox_events.sort(key=lambda x: (x[1], x[3]))` does; `list.remove`
raises on a missing element, modelled by `removeFirst` into `Option`, and
the final `assert len(bbox1_sweeping) == 0` by the final guard. -/

inductive BoxTag
  | box1
  | box2
deriving DecidableEq

structure SweepEvent where
  tag : BoxTag
  x : ℚ
  idx : ℕ
  kind : ℕ
deriving DecidableEq

def eventLe (e1 e2 : SweepEvent) : Bool :=
  decide (e1.x < e2.x) || (decide (e1.x = e2.x) && decide (e1.kind ≤ e2.kind))

def enterEv1 (A : List Bbox) (i : ℕ) : SweepEvent := ⟨.box1, (A.getD i default).x0, i, 0⟩

def exitEv1 (A : List Bbox) (i : ℕ) : SweepEvent := ⟨.box1, (A.getD i default).x1, i, 1⟩

def enterEv2 (B : List Bbox) (j : ℕ) : SweepEvent := ⟨.box2, (B.getD j default).x0, j, 0⟩

def exitEv2 (B : List Bbox) (j : ℕ) : SweepEvent := ⟨.box2, (B.getD j default).x1, j, 1⟩

def sweepEvents (A B : List Bbox) : List SweepEvent :=
  ((List.range A.length).flatMap fun i => [enterEv1 A i, exitEv1 A i])
    ++ ((List.range B.length).flatMap fun j => [enterEv2 B j, exitEv2 B j])

structure SweepState (α : Type) where
  sweeping1 : List (ℕ × α)
  sweeping2 : List (ℕ × α)
  overlaps : List (ℕ × ℕ)

/-- Python's `list.remove`: delete the first occurrence, fail (raise
`ValueError`) when the element is absent. -/
def removeFirst {β : Type} [DecidableEq β] (l : List β) (x : β) : Option (List β) :=
  if x ∈ l then some (l.erase x) else none

def sweepStep {α : Type} [DecidableEq α] (pay : Bbox → α) (cond : α → α → Bool)
    (A B : List Bbox) (s : SweepState α) (e : SweepEvent) : Option (SweepState α) :=
  match e.tag with
  | .box1 =>
    let p := pay (A.getD e.idx default)
    if e.kind = 0 then
      some { s with
        sweeping1 := s.sweeping1 ++ [(e.idx, p)]
        overlaps := s.overlaps ++ s.sweeping2.filterMap
          (fun jq => if cond p jq.2 then some (e.idx, jq.1) else none) }
    else if e.kind = 1 then
      (removeFirst s.sweeping1 (e.idx, p)).map fun l => { s with sweeping1 := l }
    else some s
  | .box2 =>
    let q := pay (B.getD e.idx default)
    if e.kind = 0 then
      some { s with
        sweeping2 := s.sweeping2 ++ [(e.idx, q)]
        overlaps := s.overlaps ++ s.sweeping1.filterMap
          (fun ip => if cond ip.2 q then some (ip.1, e.idx) else none) }
    else if e.kind = 1 then
      (removeFirst s.sweeping2 (e.idx, q)).map fun l => { s with sweeping2 := l }
    else some s

def sweepPairs {α : Type} [DecidableEq α] (pay : Bbox → α) (cond : α → α → Bool)
    (A B : List Bbox) : Option (List (ℕ × ℕ)) :=
  (List.foldlM (sweepStep pay cond A B) ⟨[], [], []⟩
      (sortBy eventLe (sweepEvents A B))).bind
    fun s => if s.sweeping1 = [] then some s.overlaps else none

/-- The strict overlap test of `get_overlapped_bboxes_pairs`
(`table_filtering_utils.py`), `p` the A-box, `q` the B-box. -/
def sweepStrictCond (p q : Bbox) : Bool :=
  decide (q.top < p.bottom) && decide (q.bottom > p.top)
    && decide (qmul (qsub q.x0 p.x1) (qsub q.x1 p.x0) ≠ 0)

def get_overlapped_bboxes_pairs (A B : List Bbox) : Option (List (ℕ × ℕ)) :=
  sweepPairs id sweepStrictCond A B

/-- The closed overlap test of `overlap_bboxes` (`table.py`); payloads are
the stored `(y1, y2)` pairs. -/
def sweepClosedCond (p q : ℚ × ℚ) : Bool :=
  decide (q.1 ≤ p.2) && decide (q.2 ≥ p.1)

def overlap_bboxes (A B : List Bbox) : Option (List (ℕ × ℕ)) :=
  sweepPairs (fun b => (b.top, b.bottom)) sweepClosedCond A B

/-- The naive quadratic check of `naive_get_overlapped_bboxes_pairs`
(`table_filtering_utils.py`). -/
def naiveCond (b1 b2 : Bbox) : Bool :=
  (decide (b1.x0 < b2.x1) && decide (b1.x1 > b2.x0))
    && (decide (b1.top < b2.bottom) && decide (b1.bottom > b2.top))

def naive_get_overlapped_bboxes_pairs (A B : List Bbox) : List (ℕ × ℕ) :=
  (List.range A.length).flatMap fun i =>
    (List.range B.length).filterMap fun j =>
      if naiveCond (A.getD i default) (B.getD j default) then some (i, j) else none

/-! Order and distinctness facts about the event list. -/

theorem eventLe_iff (e1 e2 : SweepEvent) :
    eventLe e1 e2 = true ↔ e1.x < e2.x ∨ (e1.x = e2.x ∧ e1.kind ≤ e2.kind) := by
  simp [eventLe]

theorem eventLe_total (e1 e2 : SweepEvent) :
    eventLe e1 e2 = true ∨ eventLe e2 e1 = true := by
  rw [eventLe_iff, eventLe_iff]
  rcases lt_trichotomy e1.x e2.x with h | h | h
  · exact Or.inl (Or.inl h)
  · rcases Nat.le_total e1.kind e2.kind with hk | hk
    · exact Or.inl (Or.inr ⟨h, hk⟩)
    · exact Or.inr (Or.inr ⟨h.symm, hk⟩)
  · exact Or.inr (Or.inl h)

theorem eventLe_trans (e1 e2 e3 : SweepEvent)
    (h12 : eventLe e1 e2 = true) (h23 : eventLe e2 e3 = true) :
    eventLe e1 e3 = true := by
  rw [eventLe_iff] at h12 h23 ⊢
  rcases h12 with h12 | ⟨h12, k12⟩
  · rcases h23 with h23 | ⟨h23, _⟩
    · exact Or.inl (h12.trans h23)
    · exact Or.inl (h23 ▸ h12)
  · rcases h23 with h23 | ⟨h23, k23⟩
    · exact Or.inl (h12 ▸ h23)
    · exact Or.inr ⟨h12.trans h23, k12.trans k23⟩

theorem not_eventLe (e1 e2 : SweepEvent) :
    eventLe e1 e2 = false ↔ (e2.x < e1.x ∨ (e2.x = e1.x ∧ e2.kind < e1.kind)) := by
  rw [← Bool.not_eq_true, eventLe_iff]
  constructor
  · intro h
    push_neg at h
    rcases lt_trichotomy e2.x e1.x with hx | hx | hx
    · exact Or.inl hx
    · refine Or.inr ⟨hx, ?_⟩
      have := h.2 hx.symm
      omega
    · exact absurd h.1 (not_le.mpr hx)
  · rintro (hx | ⟨hx, hk⟩) <;> rintro (h | ⟨heq, hkk⟩)
    · exact absurd (h.trans hx) (lt_irrefl _)
    · rw [heq] at hx; exact absurd hx (lt_irrefl _)
    · rw [hx] at h; exact absurd h (lt_irrefl _)
    · omega

theorem mem_bind_range_pair {n : ℕ} {f g : ℕ → SweepEvent} {e : SweepEvent} :
    e ∈ (List.range n).flatMap (fun i => [f i, g i]) ↔ ∃ i < n, e = f i ∨ e = g i := by
  simp only [List.mem_flatMap, List.mem_range, List.mem_cons, List.mem_singleton,
    List.not_mem_nil, or_false]

theorem nodup_bind_range_pair {n : ℕ} {f g : ℕ → SweepEvent}
    (hf : ∀ i, (f i).idx = i) (hg : ∀ i, (g i).idx = i) (hfg : ∀ i, f i ≠ g i) :
    ((List.range n).flatMap (fun i => [f i, g i])).Nodup := by
  induction n with
  | zero => simp
  | succ m ih =>
    rw [List.range_succ, List.flatMap_append]
    refine List.Nodup.append ih ?_ ?_
    · simp [hfg m]
    · intro e he1 he2
      rcases mem_bind_range_pair.mp he1 with ⟨i, hi, hcase⟩
      have hidx : e.idx = i := by rcases hcase with rfl | rfl; exacts [hf i, hg i]
      have : e ∈ [f m, g m] := by simpa using he2
      have hidx2 : e.idx = m := by
        rcases (by simpa using this : e = f m ∨ e = g m) with rfl | rfl
        exacts [hf m, hg m]
      omega

theorem sweepEvents_nodup (A B : List Bbox) : (sweepEvents A B).Nodup := by
  rw [sweepEvents]
  refine List.Nodup.append ?_ ?_ ?_
  · exact nodup_bind_range_pair (fun i => rfl) (fun i => rfl) (fun i => by
      intro h
      have : (0 : ℕ) = 1 := congrArg SweepEvent.kind h
      omega)
  · exact nodup_bind_range_pair (fun i => rfl) (fun i => rfl) (fun i => by
      intro h
      have : (0 : ℕ) = 1 := congrArg SweepEvent.kind h
      omega)
  · intro e he1 he2
    rcases mem_bind_range_pair.mp he1 with ⟨i, _, hcase1⟩
    rcases mem_bind_range_pair.mp he2 with ⟨j, _, hcase2⟩
    have h1 : e.tag = BoxTag.box1 := by rcases hcase1 with rfl | rfl <;> rfl
    have h2 : e.tag = BoxTag.box2 := by rcases hcase2 with rfl | rfl <;> rfl
    rw [h1] at h2
    exact BoxTag.noConfusion h2

theorem mem_sweepEvents {A B : List Bbox} {e : SweepEvent} :
    e ∈ sweepEvents A B ↔
      (∃ i < A.length, e = enterEv1 A i ∨ e = exitEv1 A i)
        ∨ (∃ j < B.length, e = enterEv2 B j ∨ e = exitEv2 B j) := by
  rw [sweepEvents, List.mem_append, mem_bind_range_pair, mem_bind_range_pair]

theorem getD_mem {β : Type} [Inhabited β] {l : List β} {i : ℕ} (h : i < l.length) :
    l.getD i default ∈ l := by
  rw [List.getD_eq_getElem l default h]
  exact List.getElem_mem h

theorem enterEv1_inj {A : List Bbox} {i i' : ℕ} (h : enterEv1 A i = enterEv1 A i') : i = i' :=
  congrArg SweepEvent.idx h

theorem exitEv1_inj {A : List Bbox} {i i' : ℕ} (h : exitEv1 A i = exitEv1 A i') : i = i' :=
  congrArg SweepEvent.idx h

theorem enterEv2_inj {B : List Bbox} {j j' : ℕ} (h : enterEv2 B j = enterEv2 B j') : j = j' :=
  congrArg SweepEvent.idx h

theorem exitEv2_inj {B : List Bbox} {j j' : ℕ} (h : exitEv2 B j = exitEv2 B j') : j = j' :=
  congrArg SweepEvent.idx h

theorem enterEv1_ne_exitEv1 {A A' : List Bbox} {i i' : ℕ} : enterEv1 A i ≠ exitEv1 A' i' := by
  intro h
  have hk : (0 : ℕ) = 1 := congrArg SweepEvent.kind h
  omega

theorem enterEv2_ne_exitEv2 {B B' : List Bbox} {j j' : ℕ} : enterEv2 B j ≠ exitEv2 B' j' := by
  intro h
  have hk : (0 : ℕ) = 1 := congrArg SweepEvent.kind h
  omega

theorem enterEv1_ne_enterEv2 {A B : List Bbox} {i j : ℕ} : enterEv1 A i ≠ enterEv2 B j := by
  intro h
  exact BoxTag.noConfusion (congrArg SweepEvent.tag h)

theorem enterEv1_ne_exitEv2 {A B : List Bbox} {i j : ℕ} : enterEv1 A i ≠ exitEv2 B j := by
  intro h
  exact BoxTag.noConfusion (congrArg SweepEvent.tag h)

theorem exitEv1_ne_enterEv2 {A B : List Bbox} {i j : ℕ} : exitEv1 A i ≠ enterEv2 B j := by
  intro h
  exact BoxTag.noConfusion (congrArg SweepEvent.tag h)

theorem exitEv1_ne_exitEv2 {A B : List Bbox} {i j : ℕ} : exitEv1 A i ≠ exitEv2 B j := by
  intro h
  exact BoxTag.noConfusion (congrArg SweepEvent.tag h)

/-- Closed overlap of the x-extents: exactly the circumstance in which the
sweep checks a pair (the later `enter` is processed while the other box is
still active). -/
def closedX (a b : Bbox) : Prop := a.x0 ≤ b.x1 ∧ b.x0 ≤ a.x1

instance (a b : Bbox) : Decidable (closedX a b) := by unfold closedX; infer_instance

theorem mem_filterMap_pair_left {α : Type} {l : List (ℕ × α)} {k i j : ℕ} {c : ℕ × α → Bool} :
    (i, j) ∈ (l.filterMap fun jq => if c jq then some (k, jq.1) else none)
      ↔ i = k ∧ ∃ q, (j, q) ∈ l ∧ c (j, q) = true := by
  rw [List.mem_filterMap]
  constructor
  · rintro ⟨⟨j', q⟩, hmem, heq⟩
    by_cases hc : c (j', q) = true
    · rw [if_pos hc] at heq
      have h1 : k = i := congrArg Prod.fst (Option.some.inj heq)
      have h2 : j' = j := congrArg Prod.snd (Option.some.inj heq)
      subst h1
      subst h2
      exact ⟨rfl, q, hmem, hc⟩
    · rw [if_neg hc] at heq
      exact Option.noConfusion heq
  · rintro ⟨rfl, q, hmem, hc⟩
    exact ⟨(j, q), hmem, by rw [hc]; rfl⟩

theorem mem_filterMap_pair_right {α : Type} {l : List (ℕ × α)} {k i j : ℕ} {c : ℕ × α → Bool} :
    (i, j) ∈ (l.filterMap fun ip => if c ip then some (ip.1, k) else none)
      ↔ j = k ∧ ∃ p, (i, p) ∈ l ∧ c (i, p) = true := by
  rw [List.mem_filterMap]
  constructor
  · rintro ⟨⟨i', p⟩, hmem, heq⟩
    by_cases hc : c (i', p) = true
    · rw [if_pos hc] at heq
      have h1 : i' = i := congrArg Prod.fst (Option.some.inj heq)
      have h2 : k = j := congrArg Prod.snd (Option.some.inj heq)
      subst h1
      subst h2
      exact ⟨rfl, p, hmem, hc⟩
    · rw [if_neg hc] at heq
      exact Option.noConfusion heq
  · rintro ⟨rfl, p, hmem, hc⟩
    exact ⟨(i, p), hmem, by rw [hc]; rfl⟩

theorem filterMap_pair_left_nodup {α : Type} {l : List (ℕ × α)}
    (h : (l.map Prod.fst).Nodup) (k : ℕ) (c : ℕ × α → Bool) :
    (l.filterMap fun jq => if c jq then some (k, jq.1) else none).Nodup := by
  induction l with
  | nil => simp
  | cons hd tl ih =>
    rw [List.map_cons, List.nodup_cons] at h
    rw [List.filterMap_cons]
    by_cases hc : c hd = true
    · rw [if_pos hc]
      rw [List.nodup_cons]
      refine ⟨?_, ih h.2⟩
      intro hmem
      rcases mem_filterMap_pair_left.mp hmem with ⟨_, q, hq, _⟩
      exact h.1 (List.mem_map.mpr ⟨(hd.1, q), hq, rfl⟩)
    · rw [if_neg hc]
      exact ih h.2

theorem filterMap_pair_right_nodup {α : Type} {l : List (ℕ × α)}
    (h : (l.map Prod.fst).Nodup) (k : ℕ) (c : ℕ × α → Bool) :
    (l.filterMap fun ip => if c ip then some (ip.1, k) else none).Nodup := by
  induction l with
  | nil => simp
  | cons hd tl ih =>
    rw [List.map_cons, List.nodup_cons] at h
    rw [List.filterMap_cons]
    by_cases hc : c hd = true
    · rw [if_pos hc]
      rw [List.nodup_cons]
      refine ⟨?_, ih h.2⟩
      intro hmem
      rcases mem_filterMap_pair_right.mp hmem with ⟨_, p, hp, _⟩
      exact h.1 (List.mem_map.mpr ⟨(hd.1, p), hp, rfl⟩)
    · rw [if_neg hc]
      exact ih h.2

/-- The invariant carried through the sweep: after processing the events in
`done`, the active lists hold exactly the boxes whose enter event was
processed but whose exit was not, and `overlaps` holds exactly the pairs
whose later enter has been processed, whose x-extents overlap in the closed
sense, and which satisfy the check predicate. -/
structure SweepInv {α : Type} (pay : Bbox → α) (cond : α → α → Bool) (A B : List Bbox)
    (done : List SweepEvent) (s : SweepState α) : Prop where
  mem1 : ∀ p : ℕ × α, p ∈ s.sweeping1 ↔ ∃ i, i < A.length ∧ p = (i, pay (A.getD i default))
      ∧ enterEv1 A i ∈ done ∧ exitEv1 A i ∉ done
  nd1 : (s.sweeping1.map Prod.fst).Nodup
  mem2 : ∀ q : ℕ × α, q ∈ s.sweeping2 ↔ ∃ j, j < B.length ∧ q = (j, pay (B.getD j default))
      ∧ enterEv2 B j ∈ done ∧ exitEv2 B j ∉ done
  nd2 : (s.sweeping2.map Prod.fst).Nodup
  memov : ∀ i j : ℕ, (i, j) ∈ s.overlaps ↔ i < A.length ∧ j < B.length
      ∧ enterEv1 A i ∈ done ∧ enterEv2 B j ∈ done
      ∧ closedX (A.getD i default) (B.getD j default)
      ∧ cond (pay (A.getD i default)) (pay (B.getD j default)) = true
  ndov : s.overlaps.Nodup

theorem sorted_split_facts {A B : List Bbox} {done rest : List SweepEvent} {e : SweepEvent}
    (hdq : done ++ e :: rest = sortBy eventLe (sweepEvents A B)) :
    (∀ u ∈ done, eventLe u e = true) ∧ (∀ v ∈ rest, eventLe e v = true)
      ∧ e ∉ done ∧ e ∉ rest ∧ e ∈ sweepEvents A B
      ∧ (∀ ev, ev ∈ sweepEvents A B → ev ≠ e → (ev ∈ done ↔ ev ∉ rest)) := by
  have hpw : (done ++ e :: rest).Pairwise (fun a b => eventLe a b = true) := by
    rw [hdq]
    exact sortBy_pairwise eventLe_trans eventLe_total _
  have hnd : (done ++ e :: rest).Nodup := by
    rw [hdq]
    exact sortBy_nodup (sweepEvents_nodup A B)
  have hperm : ∀ ev : SweepEvent, ev ∈ done ++ e :: rest ↔ ev ∈ sweepEvents A B := by
    intro ev
    rw [hdq]
    exact mem_sortBy
  rw [List.pairwise_append] at hpw
  rw [List.nodup_append] at hnd
  have hrest : (e :: rest).Nodup := hnd.2.1
  rw [List.nodup_cons] at hrest
  refine ⟨?_, ?_, ?_, hrest.1, ?_, ?_⟩
  · intro u hu
    exact hpw.2.2 u hu e (by simp)
  · intro v hv
    exact (List.pairwise_cons.mp hpw.2.1).1 v hv
  · intro hed
    exact hnd.2.2 hed (by simp)
  · rw [← hperm e]
    simp
  · intro ev hev hne
    have : ev ∈ done ++ e :: rest := (hperm ev).mpr hev
    rw [List.mem_append, List.mem_cons] at this
    constructor
    · intro hdone hrest'
      exact hnd.2.2 hdone (by simp [hrest'])
    · intro hnotr
      rcases this with h | h | h
      · exact h
      · exact absurd h hne
      · exact absurd h hnotr

theorem sweepStep_inv {α : Type} [DecidableEq α] {pay : Bbox → α} {cond : α → α → Bool}
    {A B : List Bbox}
    (hA : ∀ b ∈ A, b.x0 ≤ b.x1) (hB : ∀ b ∈ B, b.x0 ≤ b.x1)
    {done rest : List SweepEvent} {e : SweepEvent} {s : SweepState α}
    (hdq : done ++ e :: rest = sortBy eventLe (sweepEvents A B))
    (hinv : SweepInv pay cond A B done s) :
    ∃ s', sweepStep pay cond A B s e = some s'
      ∧ SweepInv pay cond A B (done ++ [e]) s' := by
  obtain ⟨hled, hler, hnd, hnr, hee, hiff⟩ := sorted_split_facts hdq
  have hmem_rest : ∀ ev : SweepEvent, ev ∈ sweepEvents A B → ev ≠ e → ev ∉ done → ev ∈ rest := by
    intro ev h1 h2 h3
    by_contra hr
    exact h3 ((hiff ev h1 h2).mpr hr)
  rcases mem_sweepEvents.mp hee with ⟨i, hi, hcase⟩ | ⟨j, hj, hcase⟩
  · have hvalid : (A.getD i default).x0 ≤ (A.getD i default).x1 := hA _ (getD_mem hi)
    rcases hcase with rfl | rfl
    · -- e = enterEv1 A i
      have hexit_notin : exitEv1 A i ∉ done := by
        intro hmem
        have hle := hled _ hmem
        rw [eventLe_iff] at hle
        simp only [exitEv1, enterEv1] at hle
        rcases hle with hx | ⟨hx, hk⟩
        · exact absurd hvalid (not_le.mpr hx)
        · omega
      have hle_enter2 : ∀ j', enterEv2 B j' ∈ done →
          (B.getD j' default).x0 ≤ (A.getD i default).x0 := by
        intro j' hmem
        have hle := hled _ hmem
        rw [eventLe_iff] at hle
        simp only [exitEv1, enterEv1, enterEv2] at hle
        rcases hle with hx | ⟨hx, _⟩
        · exact le_of_lt hx
        · exact le_of_eq hx
      have hexit2_notin_le : ∀ j', j' < B.length → exitEv2 B j' ∉ done →
          (A.getD i default).x0 ≤ (B.getD j' default).x1 := by
        intro j' hj' hnot
        have hev : exitEv2 B j' ∈ sweepEvents A B :=
          mem_sweepEvents.mpr (Or.inr ⟨j', hj', Or.inr rfl⟩)
        have hmr : exitEv2 B j' ∈ rest :=
          hmem_rest _ hev (Ne.symm enterEv1_ne_exitEv2) hnot
        have hle := hler _ hmr
        rw [eventLe_iff] at hle
        simp only [enterEv1, exitEv2] at hle
        rcases hle with hx | ⟨hx, _⟩
        · exact le_of_lt hx
        · exact le_of_eq hx
      have hexit2_in_lt : ∀ j', exitEv2 B j' ∈ done →
          (B.getD j' default).x1 < (A.getD i default).x0 := by
        intro j' hmem
        have hle := hled _ hmem
        rw [eventLe_iff] at hle
        simp only [enterEv1, exitEv2] at hle
        rcases hle with hx | ⟨hx, hk⟩
        · exact hx
        · omega
      refine ⟨_, rfl, ?_⟩
      constructor
      · -- mem1
        intro p
        rw [List.mem_append, List.mem_singleton, hinv.mem1]
        constructor
        · rintro (⟨i', hi', rfl, hent, hex⟩ | rfl)
          · refine ⟨i', hi', rfl, List.mem_append_left _ hent, ?_⟩
            intro hmem
            rcases List.mem_append.mp hmem with h | h
            · exact hex h
            · exact enterEv1_ne_exitEv1 (List.mem_singleton.mp h).symm
          · refine ⟨i, hi, rfl, List.mem_append_right _ (by simp), ?_⟩
            intro hmem
            rcases List.mem_append.mp hmem with h | h
            · exact hexit_notin h
            · exact enterEv1_ne_exitEv1 (List.mem_singleton.mp h).symm
        · rintro ⟨i', hi', rfl, hent, hex⟩
          rcases List.mem_append.mp hent with hd | he1
          · exact Or.inl ⟨i', hi', rfl, hd, fun hx => hex (List.mem_append_left _ hx)⟩
          · have hii : i' = i := enterEv1_inj (List.mem_singleton.mp he1)
            subst hii
            exact Or.inr rfl
      · -- nd1
        simp only [List.map_append]
        refine List.Nodup.append hinv.nd1 (by simp) ?_
        intro x hx hx2
        have hxi : x = i := by simpa using hx2
        subst hxi
        rcases List.mem_map.mp hx with ⟨⟨i2, q⟩, hmem, hfst⟩
        rcases (hinv.mem1 _).mp hmem with ⟨i', hi', heq, hent, _⟩
        have h1 : i2 = i' := congrArg Prod.fst heq
        have h2 : i2 = x := hfst
        subst h1
        rw [h2] at hent
        exact hnd hent
      · -- mem2
        intro q
        rw [hinv.mem2]
        constructor
        · rintro ⟨j', hj', rfl, hent, hex⟩
          refine ⟨j', hj', rfl, List.mem_append_left _ hent, ?_⟩
          intro hmem
          rcases List.mem_append.mp hmem with h | h
          · exact hex h
          · exact enterEv1_ne_exitEv2 (List.mem_singleton.mp h).symm
        · rintro ⟨j', hj', rfl, hent, hex⟩
          rcases List.mem_append.mp hent with hd | he1
          · exact ⟨j', hj', rfl, hd, fun hx => hex (List.mem_append_left _ hx)⟩
          · exact absurd (List.mem_singleton.mp he1).symm enterEv1_ne_enterEv2
      · -- nd2
        exact hinv.nd2
      · -- memov
        intro i' j'
        rw [List.mem_append]
        constructor
        · rintro (hold | hnew)
          · obtain ⟨h1, h2, h3, h4, h5, h6⟩ := (hinv.memov i' j').mp hold
            exact ⟨h1, h2, List.mem_append_left _ h3, List.mem_append_left _ h4, h5, h6⟩
          · obtain ⟨rfl, q, hq, hcond⟩ := mem_filterMap_pair_left.mp hnew
            obtain ⟨j2, hj2, heq, hent2, hex2⟩ := (hinv.mem2 _).mp hq
            have hj2e : j' = j2 := congrArg Prod.fst heq
            have hqe : q = pay (B.getD j2 default) := congrArg Prod.snd heq
            subst hj2e
            subst hqe
            refine ⟨hi, hj2, List.mem_append_right _ (by simp),
              List.mem_append_left _ hent2, ?_, hcond⟩
            exact ⟨hexit2_notin_le j' hj2 hex2, le_trans (hle_enter2 j' hent2) hvalid⟩
        · rintro ⟨h1, h2, h3, h4, h5, h6⟩
          have h4' : enterEv2 B j' ∈ done := by
            rcases List.mem_append.mp h4 with h | h
            · exact h
            · exact absurd (List.mem_singleton.mp h).symm enterEv1_ne_enterEv2
          rcases List.mem_append.mp h3 with hd | he1
          · exact Or.inl ((hinv.memov i' j').mpr ⟨h1, h2, hd, h4', h5, h6⟩)
          · have hii : i' = i := enterEv1_inj (List.mem_singleton.mp he1)
            subst hii
            refine Or.inr (mem_filterMap_pair_left.mpr ⟨rfl, pay (B.getD j' default), ?_, h6⟩)
            refine (hinv.mem2 _).mpr ⟨j', h2, rfl, h4', ?_⟩
            intro hmem
            exact absurd h5.1 (not_le.mpr (hexit2_in_lt j' hmem))
      · -- ndov
        refine List.Nodup.append hinv.ndov
          (filterMap_pair_left_nodup hinv.nd2 _ _) ?_
        rintro ⟨x, y⟩ hold hnew
        obtain ⟨rfl, _, _, _⟩ := mem_filterMap_pair_left.mp hnew
        obtain ⟨_, _, h3, _, _, _⟩ := (hinv.memov x y).mp hold
        exact hnd h3
    · -- e = exitEv1 A i
      have henter_in : enterEv1 A i ∈ done := by
        have hev : enterEv1 A i ∈ sweepEvents A B :=
          mem_sweepEvents.mpr (Or.inl ⟨i, hi, Or.inl rfl⟩)
        by_contra hnot
        have hmr : enterEv1 A i ∈ rest := hmem_rest _ hev enterEv1_ne_exitEv1 hnot
        have hle := hler _ hmr
        rw [eventLe_iff] at hle
        simp only [enterEv1, exitEv1] at hle
        rcases hle with hx | ⟨hx, hk⟩
        · exact absurd hvalid (not_le.mpr hx)
        · omega
      have hentry : (i, pay (A.getD i default)) ∈ s.sweeping1 :=
        (hinv.mem1 _).mpr ⟨i, hi, rfl, henter_in, hnd⟩
      have hval_nodup : s.sweeping1.Nodup := List.Nodup.of_map Prod.fst hinv.nd1
      obtain ⟨l, hrem⟩ : ∃ l, removeFirst s.sweeping1 (i, pay (A.getD i default)) = some l :=
        ⟨_, by rw [removeFirst, if_pos hentry]⟩
      have hl_sub : l.Sublist s.sweeping1 := by
        rw [removeFirst, if_pos hentry] at hrem
        rw [← Option.some.inj hrem]
        exact @List.erase_sublist _ instBEqOfDecidableEq _ _
      have hmem_l : ∀ p : ℕ × α, p ∈ l ↔ ¬p = (i, pay (A.getD i default)) ∧ p ∈ s.sweeping1 := by
        intro p
        rw [removeFirst, if_pos hentry] at hrem
        rw [← Option.some.inj hrem]
        exact @List.Nodup.mem_erase_iff _ instBEqOfDecidableEq _ _ instLawfulBEq _ hval_nodup
      have hstep : sweepStep pay cond A B s (exitEv1 A i)
          = some { s with sweeping1 := l } := by
        have hred : sweepStep pay cond A B s (exitEv1 A i)
            = (removeFirst s.sweeping1 (i, pay (A.getD i default))).map
                (fun l2 => { s with sweeping1 := l2 }) := rfl
        rw [hred, hrem, Option.map_some']
      refine ⟨_, hstep, ?_⟩
      constructor
      · -- mem1
        intro p
        rw [hmem_l]
        constructor
        · rintro ⟨hne, hmem⟩
          obtain ⟨i', hi', rfl, hent, hex⟩ := (hinv.mem1 _).mp hmem
          have hii : i' ≠ i := by
            intro h
            subst h
            exact hne rfl
          refine ⟨i', hi', rfl, List.mem_append_left _ hent, ?_⟩
          intro hmem2
          rcases List.mem_append.mp hmem2 with h | h
          · exact hex h
          · exact hii (exitEv1_inj (List.mem_singleton.mp h))
        · rintro ⟨i', hi', rfl, hent, hex⟩
          have hent' : enterEv1 A i' ∈ done := by
            rcases List.mem_append.mp hent with h | h
            · exact h
            · exact absurd (List.mem_singleton.mp h) enterEv1_ne_exitEv1
          have hii : i' ≠ i := by
            intro h
            subst h
            exact hex (List.mem_append_right _ (by simp))
          refine ⟨?_, (hinv.mem1 _).mpr ⟨i', hi', rfl, hent', ?_⟩⟩
          · intro h
            exact hii (congrArg Prod.fst h)
          · intro h
            exact hex (List.mem_append_left _ h)
      · -- nd1
        exact ((hl_sub).map Prod.fst).nodup hinv.nd1
      · -- mem2
        intro q
        rw [hinv.mem2]
        constructor
        · rintro ⟨j', hj', rfl, hent, hex⟩
          refine ⟨j', hj', rfl, List.mem_append_left _ hent, ?_⟩
          intro hmem
          rcases List.mem_append.mp hmem with h | h
          · exact hex h
          · exact exitEv1_ne_exitEv2 (List.mem_singleton.mp h).symm
        · rintro ⟨j', hj', rfl, hent, hex⟩
          rcases List.mem_append.mp hent with hd | he1
          · exact ⟨j', hj', rfl, hd, fun hx => hex (List.mem_append_left _ hx)⟩
          · exact absurd (List.mem_singleton.mp he1).symm exitEv1_ne_enterEv2
      · -- nd2
        exact hinv.nd2
      · -- memov
        intro i' j'
        rw [hinv.memov]
        constructor
        · rintro ⟨h1, h2, h3, h4, h5, h6⟩
          exact ⟨h1, h2, List.mem_append_left _ h3, List.mem_append_left _ h4, h5, h6⟩
        · rintro ⟨h1, h2, h3, h4, h5, h6⟩
          have h3' : enterEv1 A i' ∈ done := by
            rcases List.mem_append.mp h3 with h | h
            · exact h
            · exact absurd (List.mem_singleton.mp h) enterEv1_ne_exitEv1
          have h4' : enterEv2 B j' ∈ done := by
            rcases List.mem_append.mp h4 with h | h
            · exact h
            · exact absurd (List.mem_singleton.mp h).symm exitEv1_ne_enterEv2
          exact ⟨h1, h2, h3', h4', h5, h6⟩
      · -- ndov
        exact hinv.ndov
  · have hvalid : (B.getD j default).x0 ≤ (B.getD j default).x1 := hB _ (getD_mem hj)
    rcases hcase with rfl | rfl
    · -- e = enterEv2 B j
      have hexit_notin : exitEv2 B j ∉ done := by
        intro hmem
        have hle := hled _ hmem
        rw [eventLe_iff] at hle
        simp only [exitEv2, enterEv2] at hle
        rcases hle with hx | ⟨hx, hk⟩
        · exact absurd hvalid (not_le.mpr hx)
        · omega
      have hle_enter1 : ∀ i', enterEv1 A i' ∈ done →
          (A.getD i' default).x0 ≤ (B.getD j default).x0 := by
        intro i' hmem
        have hle := hled _ hmem
        rw [eventLe_iff] at hle
        simp only [enterEv1, enterEv2] at hle
        rcases hle with hx | ⟨hx, _⟩
        · exact le_of_lt hx
        · exact le_of_eq hx
      have hexit1_notin_le : ∀ i', i' < A.length → exitEv1 A i' ∉ done →
          (B.getD j default).x0 ≤ (A.getD i' default).x1 := by
        intro i' hi' hnot
        have hev : exitEv1 A i' ∈ sweepEvents A B :=
          mem_sweepEvents.mpr (Or.inl ⟨i', hi', Or.inr rfl⟩)
        have hmr : exitEv1 A i' ∈ rest :=
          hmem_rest _ hev exitEv1_ne_enterEv2 hnot
        have hle := hler _ hmr
        rw [eventLe_iff] at hle
        simp only [enterEv2, exitEv1] at hle
        rcases hle with hx | ⟨hx, _⟩
        · exact le_of_lt hx
        · exact le_of_eq hx
      have hexit1_in_lt : ∀ i', exitEv1 A i' ∈ done →
          (A.getD i' default).x1 < (B.getD j default).x0 := by
        intro i' hmem
        have hle := hled _ hmem
        rw [eventLe_iff] at hle
        simp only [enterEv2, exitEv1] at hle
        rcases hle with hx | ⟨hx, hk⟩
        · exact hx
        · omega
      refine ⟨_, rfl, ?_⟩
      constructor
      · -- mem1
        intro p
        rw [hinv.mem1]
        constructor
        · rintro ⟨i', hi', rfl, hent, hex⟩
          refine ⟨i', hi', rfl, List.mem_append_left _ hent, ?_⟩
          intro hmem
          rcases List.mem_append.mp hmem with h | h
          · exact hex h
          · exact exitEv1_ne_enterEv2 (List.mem_singleton.mp h)
        · rintro ⟨i', hi', rfl, hent, hex⟩
          rcases List.mem_append.mp hent with hd | he1
          · exact ⟨i', hi', rfl, hd, fun hx => hex (List.mem_append_left _ hx)⟩
          · exact absurd (List.mem_singleton.mp he1) enterEv1_ne_enterEv2
      · -- nd1
        exact hinv.nd1
      · -- mem2
        intro q
        rw [List.mem_append, List.mem_singleton, hinv.mem2]
        constructor
        · rintro (⟨j', hj', rfl, hent, hex⟩ | rfl)
          · refine ⟨j', hj', rfl, List.mem_append_left _ hent, ?_⟩
            intro hmem
            rcases List.mem_append.mp hmem with h | h
            · exact hex h
            · exact enterEv2_ne_exitEv2 (List.mem_singleton.mp h).symm
          · refine ⟨j, hj, rfl, List.mem_append_right _ (by simp), ?_⟩
            intro hmem
            rcases List.mem_append.mp hmem with h | h
            · exact hexit_notin h
            · exact enterEv2_ne_exitEv2 (List.mem_singleton.mp h).symm
        · rintro ⟨j', hj', rfl, hent, hex⟩
          rcases List.mem_append.mp hent with hd | he1
          · exact Or.inl ⟨j', hj', rfl, hd, fun hx => hex (List.mem_append_left _ hx)⟩
          · have hjj : j' = j := enterEv2_inj (List.mem_singleton.mp he1)
            subst hjj
            exact Or.inr rfl
      · -- nd2
        simp only [List.map_append]
        refine List.Nodup.append hinv.nd2 (by simp) ?_
        intro x hx hx2
        have hxj : x = j := by simpa using hx2
        subst hxj
        rcases List.mem_map.mp hx with ⟨⟨j2, q⟩, hmem, hfst⟩
        rcases (hinv.mem2 _).mp hmem with ⟨j', hj', heq, hent, _⟩
        have h1 : j2 = j' := congrArg Prod.fst heq
        have h2 : j2 = x := hfst
        subst h1
        rw [h2] at hent
        exact hnd hent
      · -- memov
        intro i' j'
        rw [List.mem_append]
        constructor
        · rintro (hold | hnew)
          · obtain ⟨h1, h2, h3, h4, h5, h6⟩ := (hinv.memov i' j').mp hold
            exact ⟨h1, h2, List.mem_append_left _ h3, List.mem_append_left _ h4, h5, h6⟩
          · obtain ⟨rfl, p, hp, hcond⟩ := mem_filterMap_pair_right.mp hnew
            obtain ⟨i2, hi2, heq, hent1, hex1⟩ := (hinv.mem1 _).mp hp
            have hi2e : i' = i2 := congrArg Prod.fst heq
            have hpe : p = pay (A.getD i2 default) := congrArg Prod.snd heq
            subst hi2e
            subst hpe
            refine ⟨hi2, hj, List.mem_append_left _ hent1,
              List.mem_append_right _ (by simp), ?_, hcond⟩
            exact ⟨le_trans (hle_enter1 i' hent1) hvalid, hexit1_notin_le i' hi2 hex1⟩
        · rintro ⟨h1, h2, h3, h4, h5, h6⟩
          have h3' : enterEv1 A i' ∈ done := by
            rcases List.mem_append.mp h3 with h | h
            · exact h
            · exact absurd (List.mem_singleton.mp h) enterEv1_ne_enterEv2
          rcases List.mem_append.mp h4 with hd | he1
          · exact Or.inl ((hinv.memov i' j').mpr ⟨h1, h2, h3', hd, h5, h6⟩)
          · have hjj : j' = j := enterEv2_inj (List.mem_singleton.mp he1)
            subst hjj
            refine Or.inr (mem_filterMap_pair_right.mpr ⟨rfl, pay (A.getD i' default), ?_, h6⟩)
            refine (hinv.mem1 _).mpr ⟨i', h1, rfl, h3', ?_⟩
            intro hmem
            exact absurd h5.2 (not_le.mpr (hexit1_in_lt i' hmem))
      · -- ndov
        refine List.Nodup.append hinv.ndov
          (filterMap_pair_right_nodup hinv.nd1 _ _) ?_
        rintro ⟨x, y⟩ hold hnew
        obtain ⟨rfl, _, _, _⟩ := mem_filterMap_pair_right.mp hnew
        obtain ⟨_, _, _, h4, _, _⟩ := (hinv.memov x y).mp hold
        exact hnd h4
    · -- e = exitEv2 B j
      have henter_in : enterEv2 B j ∈ done := by
        have hev : enterEv2 B j ∈ sweepEvents A B :=
          mem_sweepEvents.mpr (Or.inr ⟨j, hj, Or.inl rfl⟩)
        by_contra hnot
        have hmr : enterEv2 B j ∈ rest := hmem_rest _ hev enterEv2_ne_exitEv2 hnot
        have hle := hler _ hmr
        rw [eventLe_iff] at hle
        simp only [enterEv2, exitEv2] at hle
        rcases hle with hx | ⟨hx, hk⟩
        · exact absurd hvalid (not_le.mpr hx)
        · omega
      have hentry : (j, pay (B.getD j default)) ∈ s.sweeping2 :=
        (hinv.mem2 _).mpr ⟨j, hj, rfl, henter_in, hnd⟩
      have hval_nodup : s.sweeping2.Nodup := List.Nodup.of_map Prod.fst hinv.nd2
      obtain ⟨l, hrem⟩ : ∃ l, removeFirst s.sweeping2 (j, pay (B.getD j default)) = some l :=
        ⟨_, by rw [removeFirst, if_pos hentry]⟩
      have hl_sub : l.Sublist s.sweeping2 := by
        rw [removeFirst, if_pos hentry] at hrem
        rw [← Option.some.inj hrem]
        exact @List.erase_sublist _ instBEqOfDecidableEq _ _
      have hmem_l : ∀ q : ℕ × α, q ∈ l ↔ ¬q = (j, pay (B.getD j default)) ∧ q ∈ s.sweeping2 := by
        intro q
        rw [removeFirst, if_pos hentry] at hrem
        rw [← Option.some.inj hrem]
        exact @List.Nodup.mem_erase_iff _ instBEqOfDecidableEq _ _ instLawfulBEq _ hval_nodup
      have hstep : sweepStep pay cond A B s (exitEv2 B j)
          = some { s with sweeping2 := l } := by
        have hred : sweepStep pay cond A B s (exitEv2 B j)
            = (removeFirst s.sweeping2 (j, pay (B.getD j default))).map
                (fun l2 => { s with sweeping2 := l2 }) := rfl
        rw [hred, hrem, Option.map_some']
      refine ⟨_, hstep, ?_⟩
      constructor
      · -- mem1
        intro p
        rw [hinv.mem1]
        constructor
        · rintro ⟨i', hi', rfl, hent, hex⟩
          refine ⟨i', hi', rfl, List.mem_append_left _ hent, ?_⟩
          intro hmem
          rcases List.mem_append.mp hmem with h | h
          · exact hex h
          · exact exitEv1_ne_exitEv2 (List.mem_singleton.mp h)
        · rintro ⟨i', hi', rfl, hent, hex⟩
          rcases List.mem_append.mp hent with hd | he1
          · exact ⟨i', hi', rfl, hd, fun hx => hex (List.mem_append_left _ hx)⟩
          · exact absurd (List.mem_singleton.mp he1) enterEv1_ne_exitEv2
      · -- nd1
        exact hinv.nd1
      · -- mem2
        intro q
        rw [hmem_l]
        constructor
        · rintro ⟨hne, hmem⟩
          obtain ⟨j', hj', rfl, hent, hex⟩ := (hinv.mem2 _).mp hmem
          have hjj : j' ≠ j := by
            intro h
            subst h
            exact hne rfl
          refine ⟨j', hj', rfl, List.mem_append_left _ hent, ?_⟩
          intro hmem2
          rcases List.mem_append.mp hmem2 with h | h
          · exact hex h
          · exact hjj (exitEv2_inj (List.mem_singleton.mp h))
        · rintro ⟨j', hj', rfl, hent, hex⟩
          have hent' : enterEv2 B j' ∈ done := by
            rcases List.mem_append.mp hent with h | h
            · exact h
            · exact absurd (List.mem_singleton.mp h) enterEv2_ne_exitEv2
          have hjj : j' ≠ j := by
            intro h
            subst h
            exact hex (List.mem_append_right _ (by simp))
          refine ⟨?_, (hinv.mem2 _).mpr ⟨j', hj', rfl, hent', ?_⟩⟩
          · intro h
            exact hjj (congrArg Prod.fst h)
          · intro h
            exact hex (List.mem_append_left _ h)
      · -- nd2
        exact ((hl_sub).map Prod.fst).nodup hinv.nd2
      · -- memov
        intro i' j'
        rw [hinv.memov]
        constructor
        · rintro ⟨h1, h2, h3, h4, h5, h6⟩
          exact ⟨h1, h2, List.mem_append_left _ h3, List.mem_append_left _ h4, h5, h6⟩
        · rintro ⟨h1, h2, h3, h4, h5, h6⟩
          have h3' : enterEv1 A i' ∈ done := by
            rcases List.mem_append.mp h3 with h | h
            · exact h
            · exact absurd (List.mem_singleton.mp h) enterEv1_ne_exitEv2
          have h4' : enterEv2 B j' ∈ done := by
            rcases List.mem_append.mp h4 with h | h
            · exact h
            · exact absurd (List.mem_singleton.mp h) enterEv2_ne_exitEv2
          exact ⟨h1, h2, h3', h4', h5, h6⟩
      · -- ndov
        exact hinv.ndov

theorem sweepInv_nil {α : Type} [DecidableEq α] (pay : Bbox → α) (cond : α → α → Bool)
    (A B : List Bbox) : SweepInv pay cond A B [] ⟨[], [], []⟩ := by
  refine ⟨?_, by simp, ?_, by simp, ?_, by simp⟩
  · intro p
    simp
  · intro q
    simp
  · intro i j
    simp

theorem sweepFold_inv {α : Type} [DecidableEq α] {pay : Bbox → α} {cond : α → α → Bool}
    {A B : List Bbox}
    (hA : ∀ b ∈ A, b.x0 ≤ b.x1) (hB : ∀ b ∈ B, b.x0 ≤ b.x1) :
    ∀ (rest done : List SweepEvent) (s : SweepState α),
      done ++ rest = sortBy eventLe (sweepEvents A B) →
      SweepInv pay cond A B done s →
      ∃ s', List.foldlM (sweepStep pay cond A B) s rest = some s'
        ∧ SweepInv pay cond A B (done ++ rest) s' := by
  intro rest
  induction rest with
  | nil =>
    intro done s hdq hinv
    exact ⟨s, rfl, by simpa using hinv⟩
  | cons e rest ih =>
    intro done s hdq hinv
    obtain ⟨s1, hstep, hinv1⟩ := sweepStep_inv hA hB hdq hinv
    have hdq' : (done ++ [e]) ++ rest = sortBy eventLe (sweepEvents A B) := by
      rw [List.append_assoc]
      simpa using hdq
    obtain ⟨s', hfold, hinv'⟩ := ih (done ++ [e]) s1 hdq' hinv1
    refine ⟨s', ?_, ?_⟩
    · rw [List.foldlM_cons, hstep]
      simpa using hfold
    · have : (done ++ [e]) ++ rest = done ++ e :: rest := by simp
      rw [← this]
      exact hinv'

theorem sweepPairs_spec {α : Type} [DecidableEq α] (pay : Bbox → α) (cond : α → α → Bool)
    (A B : List Bbox) (hA : ∀ b ∈ A, b.x0 ≤ b.x1) (hB : ∀ b ∈ B, b.x0 ≤ b.x1) :
    ∃ out, sweepPairs pay cond A B = some out ∧ out.Nodup
      ∧ ∀ i j : ℕ, ((i, j) ∈ out ↔ i < A.length ∧ j < B.length
        ∧ closedX (A.getD i default) (B.getD j default)
        ∧ cond (pay (A.getD i default)) (pay (B.getD j default)) = true) := by
  obtain ⟨s', hfold, hinv⟩ := @sweepFold_inv _ _ pay cond A B hA hB
    (sortBy eventLe (sweepEvents A B)) [] ⟨[], [], []⟩ (by simp)
    (sweepInv_nil pay cond A B)
  rw [List.nil_append] at hinv
  have hs1 : s'.sweeping1 = [] := by
    rw [List.eq_nil_iff_forall_not_mem]
    intro p hp
    obtain ⟨i, hi, _, _, hex⟩ := (hinv.mem1 p).mp hp
    exact hex (mem_sortBy.mpr (mem_sweepEvents.mpr (Or.inl ⟨i, hi, Or.inr rfl⟩)))
  refine ⟨s'.overlaps, ?_, hinv.ndov, ?_⟩
  · rw [sweepPairs, hfold]
    simp [hs1]
  · intro i j
    rw [hinv.memov i j]
    constructor
    · rintro ⟨h1, h2, _, _, h5, h6⟩
      exact ⟨h1, h2, h5, h6⟩
    · rintro ⟨h1, h2, h5, h6⟩
      refine ⟨h1, h2, ?_, ?_, h5, h6⟩
      · exact mem_sortBy.mpr (mem_sweepEvents.mpr (Or.inl ⟨i, h1, Or.inl rfl⟩))
      · exact mem_sortBy.mpr (mem_sweepEvents.mpr (Or.inr ⟨j, h2, Or.inl rfl⟩))

theorem mem_naive {A B : List Bbox} {i j : ℕ} :
    (i, j) ∈ naive_get_overlapped_bboxes_pairs A B
      ↔ i < A.length ∧ j < B.length
        ∧ naiveCond (A.getD i default) (B.getD j default) = true := by
  rw [naive_get_overlapped_bboxes_pairs]
  simp only [List.mem_flatMap, List.mem_filterMap, List.mem_range]
  constructor
  · rintro ⟨i', hi', j', hj', heq⟩
    by_cases hc : naiveCond (A.getD i' default) (B.getD j' default) = true
    · rw [if_pos hc] at heq
      have h1 : i' = i := congrArg Prod.fst (Option.some.inj heq)
      have h2 : j' = j := congrArg Prod.snd (Option.some.inj heq)
      subst h1
      subst h2
      exact ⟨hi', hj', hc⟩
    · rw [if_neg hc] at heq
      exact Option.noConfusion heq
  · rintro ⟨hi, hj, hc⟩
    exact ⟨i, hi, j, hj, by rw [if_pos hc]⟩

theorem filterMap_range_pair_nodup (i m : ℕ) (c : ℕ → Bool) :
    ∀ l : List ℕ, l.Nodup →
      (l.filterMap fun j => if c j then some (i, j) else none).Nodup := by
  intro l
  induction l with
  | nil => intro _; simp
  | cons hd tl ih =>
    intro h
    rw [List.nodup_cons] at h
    rw [List.filterMap_cons]
    by_cases hc : c hd = true
    · rw [if_pos hc, List.nodup_cons]
      refine ⟨?_, ih h.2⟩
      intro hmem
      rw [List.mem_filterMap] at hmem
      obtain ⟨j', hj', heq⟩ := hmem
      by_cases hc' : c j' = true
      · rw [if_pos hc'] at heq
        have : j' = hd := congrArg Prod.snd (Option.some.inj heq)
        subst this
        exact h.1 hj'
      · rw [if_neg hc'] at heq
        exact Option.noConfusion heq
    · rw [if_neg hc]
      exact ih h.2

theorem mem_filterMap_range_pair {i m : ℕ} {g : ℕ → Bool} {p : ℕ × ℕ} :
    p ∈ ((List.range m).filterMap fun j => if g j then some (i, j) else none)
      ↔ p.1 = i ∧ p.2 < m ∧ g p.2 = true := by
  rw [List.mem_filterMap]
  constructor
  · rintro ⟨j, hj, heq⟩
    by_cases hc : g j = true
    · rw [if_pos hc] at heq
      rw [← Option.some.inj heq]
      exact ⟨rfl, List.mem_range.mp hj, hc⟩
    · rw [if_neg hc] at heq
      exact Option.noConfusion heq
  · rintro ⟨h1, h2, h3⟩
    refine ⟨p.2, List.mem_range.mpr h2, ?_⟩
    rw [if_pos h3, ← h1]

theorem nodup_flatMap_range_pairs (n m : ℕ) (g : ℕ → ℕ → Bool) :
    ((List.range n).flatMap fun i =>
      (List.range m).filterMap fun j => if g i j then some (i, j) else none).Nodup := by
  induction n with
  | zero => simp
  | succ k ih =>
    rw [List.range_succ, List.flatMap_append]
    refine List.Nodup.append ih ?_ ?_
    · simpa using filterMap_range_pair_nodup k m (g k) (List.range m) (List.nodup_range m)
    · intro p hp1 hp2
      rw [List.mem_flatMap] at hp1
      obtain ⟨i', hi', hmem⟩ := hp1
      have h1 : p.1 = i' := (mem_filterMap_range_pair.mp hmem).1
      have h2 : p.1 = k := by
        have : p ∈ (List.range m).filterMap
            fun j => if g k j then some (k, j) else none := by simpa using hp2
        exact (mem_filterMap_range_pair.mp this).1
      rw [h1] at h2
      rw [h2] at hi'
      exact absurd (List.mem_range.mp hi') (lt_irrefl _)

theorem naive_nodup (A B : List Bbox) : (naive_get_overlapped_bboxes_pairs A B).Nodup :=
  nodup_flatMap_range_pairs A.length B.length _

def qmax (a b : ℚ) : ℚ := if a ≤ b then b else a

theorem qmax_eq (a b : ℚ) : qmax a b = max a b := by
  rw [qmax, max_def]

/-- The two boxes intersect in a region of strictly positive area. -/
def posAreaOverlap (a b : Bbox) : Prop :=
  qmax a.x0 b.x0 < qmin a.x1 b.x1 ∧ qmax a.top b.top < qmin a.bottom b.bottom

instance (a b : Bbox) : Decidable (posAreaOverlap a b) := by
  unfold posAreaOverlap
  infer_instance

/-- The two closed boxes intersect (touching along an edge or at a corner
counts). -/
def closedOverlap (a b : Bbox) : Prop :=
  a.x0 ≤ b.x1 ∧ b.x0 ≤ a.x1 ∧ a.top ≤ b.bottom ∧ b.top ≤ a.bottom

instance (a b : Bbox) : Decidable (closedOverlap a b) := by
  unfold closedOverlap
  infer_instance

theorem strict_cond_iff_naive (a b : Bbox) :
    (closedX a b ∧ sweepStrictCond a b = true) ↔ naiveCond a b = true := by
  rw [sweepStrictCond, naiveCond, closedX]
  simp only [Bool.and_eq_true, decide_eq_true_eq, qmul_eq, qsub_eq, gt_iff_lt]
  constructor
  · rintro ⟨⟨hc1, hc2⟩, ⟨hy1, hy2⟩, hx⟩
    rcases mul_ne_zero_iff.mp hx with ⟨f1, f2⟩
    have h1 : b.x0 ≠ a.x1 := sub_ne_zero.mp f1
    have h2 : b.x1 ≠ a.x0 := sub_ne_zero.mp f2
    exact ⟨⟨lt_of_le_of_ne hc1 (Ne.symm h2), lt_of_le_of_ne hc2 h1⟩, hy2, hy1⟩
  · rintro ⟨⟨hx1, hx2⟩, hy1, hy2⟩
    refine ⟨⟨le_of_lt hx1, le_of_lt hx2⟩, ⟨hy2, hy1⟩, ?_⟩
    exact mul_ne_zero (sub_ne_zero.mpr (ne_of_lt hx2))
      (sub_ne_zero.mpr (Ne.symm (ne_of_lt hx1)))

theorem nondeg_naive_iff_posArea (a b : Bbox) (ha : a.Nondeg) (hb : b.Nondeg) :
    naiveCond a b = true ↔ posAreaOverlap a b := by
  obtain ⟨ha1, ha2⟩ := ha
  obtain ⟨hb1, hb2⟩ := hb
  rw [naiveCond, posAreaOverlap]
  simp only [Bool.and_eq_true, decide_eq_true_eq, gt_iff_lt, qmax_eq, qmin_eq,
    max_lt_iff, lt_min_iff]
  tauto

theorem closed_cond_iff (a b : Bbox) :
    (closedX a b ∧ sweepClosedCond (a.top, a.bottom) (b.top, b.bottom) = true)
      ↔ closedOverlap a b := by
  rw [sweepClosedCond, closedX, closedOverlap]
  simp only [Bool.and_eq_true, decide_eq_true_eq, ge_iff_le]
  tauto

/-- C2: for every two lists of bounding boxes (each box satisfying the
bbox invariant `x0 ≤ x1`, `top ≤ bottom`), the sweep-line implementation
`get_overlapped_bboxes_pairs` succeeds and returns the same pairs of
indices as the naive quadratic `naive_get_overlapped_bboxes_pairs`,
compared as multisets (`List.Perm`); both are duplicate-free lists of
`(index-in-first-list, index-in-second-list)` pairs, so multiset equality
of unordered pairs follows as well. -/
theorem C2_sweep_agrees_with_naive (A B : List Bbox)
    (hA : ∀ b ∈ A, b.Valid) (hB : ∀ b ∈ B, b.Valid) :
    ∃ out, get_overlapped_bboxes_pairs A B = some out
      ∧ out.Perm (naive_get_overlapped_bboxes_pairs A B) := by
  obtain ⟨out, hout, hnd, hmem⟩ := sweepPairs_spec id sweepStrictCond A B
    (fun b hb => (hA b hb).1) (fun b hb => (hB b hb).1)
  refine ⟨out, hout, ?_⟩
  rw [List.perm_ext_iff_of_nodup hnd (naive_nodup A B)]
  rintro ⟨i, j⟩
  rw [hmem i j, mem_naive]
  constructor
  · rintro ⟨h1, h2, h3, h4⟩
    exact ⟨h1, h2, (strict_cond_iff_naive _ _).mp ⟨h3, h4⟩⟩
  · rintro ⟨h1, h2, h3⟩
    obtain ⟨h4, h5⟩ := (strict_cond_iff_naive _ _).mpr h3
    exact ⟨h1, h2, h4, h5⟩

/-- C2 witness: the concrete scenario of `tests/overlap.py` (`test1`),
with the expected pairs {(0,0), (0,3), (1,3), (2,3)}. -/
theorem C2_sweep_agrees_with_naive_witness :
    (∀ b ∈ ([⟨1, 2, 3, 4⟩, ⟨3, 2, 4, 4⟩, ⟨4, 2, 6, 4⟩, ⟨2, 4, 5, 9⟩] : List Bbox), b.Valid)
    ∧ (∀ b ∈ ([⟨mkRat 6 5, mkRat 11 5, mkRat 14 5, mkRat 19 5⟩, ⟨6, 2, 8, 5⟩,
          ⟨8, 10, 10, 12⟩, ⟨mkRat 7 5, mkRat 12 5, 6, mkRat 19 5⟩] : List Bbox), b.Valid)
    ∧ ∃ out, get_overlapped_bboxes_pairs
        [⟨1, 2, 3, 4⟩, ⟨3, 2, 4, 4⟩, ⟨4, 2, 6, 4⟩, ⟨2, 4, 5, 9⟩]
        [⟨mkRat 6 5, mkRat 11 5, mkRat 14 5, mkRat 19 5⟩, ⟨6, 2, 8, 5⟩,
          ⟨8, 10, 10, 12⟩, ⟨mkRat 7 5, mkRat 12 5, 6, mkRat 19 5⟩] = some out
      ∧ out.Perm (naive_get_overlapped_bboxes_pairs
          [⟨1, 2, 3, 4⟩, ⟨3, 2, 4, 4⟩, ⟨4, 2, 6, 4⟩, ⟨2, 4, 5, 9⟩]
          [⟨mkRat 6 5, mkRat 11 5, mkRat 14 5, mkRat 19 5⟩, ⟨6, 2, 8, 5⟩,
            ⟨8, 10, 10, 12⟩, ⟨mkRat 7 5, mkRat 12 5, 6, mkRat 19 5⟩]) :=
  ⟨by decide, by decide, C2_sweep_agrees_with_naive _ _ (by decide) (by decide)⟩

/-- C1 counterexample: the pipeline's `overlap_bboxes` (`table.py`) REPORTS
the pair (0, 0) for two boxes sharing only the edge `x = 1`, whose
intersection has zero area.  The claim states that both overlap engines
report a pair exactly when the intersection has strictly positive area and
that edge-only sharing yields no pair; `overlap_bboxes` violates both parts
(its interval tests are closed, not strict). -/
theorem C1_overlap_bboxes_reports_edge_sharing :
    overlap_bboxes [⟨0, 0, 1, 1⟩] [⟨1, 0, 2, 1⟩] = some [(0, 0)]
      ∧ ¬posAreaOverlap ⟨0, 0, 1, 1⟩ ⟨1, 0, 2, 1⟩ := by
  constructor
  · decide
  · decide

/-- C1 (amended): for lists of nondegenerate boxes (strictly positive
width and height), `get_overlapped_bboxes_pairs` succeeds and reports
(i, j) exactly when A[i] and B[j] intersect with strictly positive area —
in particular boxes sharing only an edge or corner yield no pair there —
while the pipeline's `overlap_bboxes` succeeds and reports (i, j) exactly
when the closed boxes intersect at all, so boxes sharing only an edge or
a corner DO yield a pair there. -/
theorem C1_overlap_engines_characterised (A B : List Bbox)
    (hA : ∀ b ∈ A, b.Nondeg) (hB : ∀ b ∈ B, b.Nondeg) :
    (∃ out, get_overlapped_bboxes_pairs A B = some out ∧ ∀ i j : ℕ,
        ((i, j) ∈ out ↔ i < A.length ∧ j < B.length
          ∧ posAreaOverlap (A.getD i default) (B.getD j default)))
    ∧ ∃ out, overlap_bboxes A B = some out ∧ ∀ i j : ℕ,
        ((i, j) ∈ out ↔ i < A.length ∧ j < B.length
          ∧ closedOverlap (A.getD i default) (B.getD j default)) := by
  have hA' : ∀ b ∈ A, b.x0 ≤ b.x1 := fun b hb => le_of_lt (hA b hb).1
  have hB' : ∀ b ∈ B, b.x0 ≤ b.x1 := fun b hb => le_of_lt (hB b hb).1
  constructor
  · obtain ⟨out, hout, _, hmem⟩ := sweepPairs_spec id sweepStrictCond A B hA' hB'
    refine ⟨out, hout, ?_⟩
    intro i j
    rw [hmem i j]
    constructor
    · rintro ⟨h1, h2, h3, h4⟩
      exact ⟨h1, h2,
        (nondeg_naive_iff_posArea _ _ (hA _ (getD_mem h1)) (hB _ (getD_mem h2))).mp
          ((strict_cond_iff_naive _ _).mp ⟨h3, h4⟩)⟩
    · rintro ⟨h1, h2, h3⟩
      obtain ⟨h4, h5⟩ := (strict_cond_iff_naive _ _).mpr
        ((nondeg_naive_iff_posArea _ _ (hA _ (getD_mem h1)) (hB _ (getD_mem h2))).mpr h3)
      exact ⟨h1, h2, h4, h5⟩
  · obtain ⟨out, hout, _, hmem⟩ :=
      sweepPairs_spec (fun b => (b.top, b.bottom)) sweepClosedCond A B hA' hB'
    refine ⟨out, hout, ?_⟩
    intro i j
    rw [hmem i j]
    constructor
    · rintro ⟨h1, h2, h3, h4⟩
      exact ⟨h1, h2, (closed_cond_iff _ _).mp ⟨h3, h4⟩⟩
    · rintro ⟨h1, h2, h3⟩
      obtain ⟨h4, h5⟩ := (closed_cond_iff _ _).mpr h3
      exact ⟨h1, h2, h4, h5⟩

/-- C1 witness: one nondegenerate box in each list, overlapping with
positive area. -/
theorem C1_overlap_engines_characterised_witness :
    (∀ b ∈ ([⟨0, 0, 2, 2⟩] : List Bbox), b.Nondeg)
    ∧ (∀ b ∈ ([⟨1, 1, 3, 3⟩] : List Bbox), b.Nondeg)
    ∧ ((∃ out, get_overlapped_bboxes_pairs [⟨0, 0, 2, 2⟩] [⟨1, 1, 3, 3⟩] = some out
          ∧ ∀ i j : ℕ, ((i, j) ∈ out ↔ i < 1 ∧ j < 1
            ∧ posAreaOverlap (([⟨0, 0, 2, 2⟩] : List Bbox).getD i default)
                (([⟨1, 1, 3, 3⟩] : List Bbox).getD j default)))
        ∧ ∃ out, overlap_bboxes [⟨0, 0, 2, 2⟩] [⟨1, 1, 3, 3⟩] = some out
          ∧ ∀ i j : ℕ, ((i, j) ∈ out ↔ i < 1 ∧ j < 1
            ∧ closedOverlap (([⟨0, 0, 2, 2⟩] : List Bbox).getD i default)
                (([⟨1, 1, 3, 3⟩] : List Bbox).getD j default))) :=
  ⟨by decide, by decide, C1_overlap_engines_characterised _ _ (by decide) (by decide)⟩

/-! ### Scalar clustering and grouping (`utils.py`)

`cluster_list` sorts and splits at gaps exceeding the tolerance;
`make_cluster_dict` maps each distinct value to its cluster index
(Python builds the dict from `set(values)`, modelled by `dedup`; the set's
iteration order is irrelevant because `cluster_list` sorts);
`cluster_objects` groups objects by the cluster of their key value.
`pyGroupBy` models `itertools.groupby`: maximal runs of consecutive
elements with equal keys. -/

def pyGroupBy {ο κ : Type} [DecidableEq κ] (key : ο → κ) : List ο → List (κ × List ο)
  | [] => []
  | x :: xs =>
    match pyGroupBy key xs with
    | [] => [(key x, [x])]
    | (k, g) :: rest =>
      if key x = k then (k, x :: g) :: rest else (key x, [x]) :: (k, g) :: rest

def lookupD {κ ν : Type} [BEq κ] (l : List (κ × ν)) (k : κ) (d : ν) : ν :=
  match l.lookup k with
  | some v => v
  | none => d

def cluster_list (xs : List ℚ) (tol : ℚ) : List (List ℚ) :=
  if tol = 0 then (sortBy (fun a b => decide (a ≤ b)) xs).map (fun x => [x])
  else if xs.length < 2 then (sortBy (fun a b => decide (a ≤ b)) xs).map (fun x => [x])
  else
    match sortBy (fun a b => decide (a ≤ b)) xs with
    | [] => []
    | x0 :: rest =>
      let st := rest.foldl
        (fun (st : List (List ℚ) × List ℚ × ℚ) x =>
          if x ≤ qadd st.2.2 tol then (st.1, st.2.1 ++ [x], x)
          else (st.1 ++ [st.2.1], [x], x))
        ([], [x0], x0)
      st.1 ++ [st.2.1]

def make_cluster_dict (values : List ℚ) (tol : ℚ) : List (ℚ × ℕ) :=
  (cluster_list values.dedup tol).enum.flatMap
    fun ic => ic.2.map (fun v => (v, ic.1))

def cluster_objects {ο : Type} (objs : List ο) (attr : ο → ℚ) (tol : ℚ) : List (List ο) :=
  let values := objs.map attr
  let cdict := make_cluster_dict values tol
  let cluster_tuples := sortBy (fun a b => decide (a.2 ≤ b.2))
    (objs.map (fun o => (o, lookupD cdict (attr o) 0)))
  let grouped := pyGroupBy (fun t : ο × ℕ => t.2) cluster_tuples
  grouped.map (fun g => g.2.map Prod.fst)

/-! ### Word-level text assembly (`utils.py`) and `Table.extract` (claim C9) -/

def isPyWs (c : Char) : Bool :=
  decide (c = ' ') || decide (c = '\t') || decide (c = '\n') || decide (c = '\r')
    || decide (c = '\x0b') || decide (c = '\x0c')

/-- Python's `str.strip()` (restricted to the ASCII whitespace Python
strips; the characters of this development are ASCII). -/
def pyStrip (s : String) : String :=
  String.mk (((s.data.dropWhile isPyWs).reverse.dropWhile isPyWs).reverse)

def collate_line (line_chars : List PChar) (tol : ℚ) : String :=
  let sorted := sortBy (fun a b : PChar => decide (a.x0 ≤ b.x0)) line_chars
  (sorted.foldl
    (fun (st : String × Option ℚ) ch =>
      let coll := match st.2 with
        | some lx => if ch.x0 > qadd lx tol then st.1 ++ " " else st.1
        | none => st.1
      (coll ++ ch.text, some ch.x1))
    ("", none)).1

def extract_text (chars : List PChar) (x_tol y_tol : ℚ) : String :=
  if chars.length = 0 then ""
  else
    let doctop_clusters := cluster_objects chars (fun c => c.doctop) y_tol
    String.intercalate "\n" (doctop_clusters.map (fun lc => collate_line lc x_tol))

/-- Bbox of a `Row` (`CellGroup.__init__`): the componentwise extremes over
the non-null cells of the row. -/
def row_bbox (cells : List (Option Bbox)) : Bbox :=
  match cells.filterMap id with
  | [] => ⟨0, 0, 0, 0⟩
  | c :: rest =>
    ⟨rest.foldl (fun m x => qmin m x.x0) c.x0,
     rest.foldl (fun m x => qmin m x.top) c.top,
     rest.foldl (fun m x => qmax m x.x1) c.x1,
     rest.foldl (fun m x => qmax m x.bottom) c.bottom⟩

def lookupLast (l : List (ℚ × Bbox)) (k : ℚ) : Option Bbox := l.reverse.lookup k

/-- `Table.rows`: sort cells by (top, x0), group by top, and place each
row's cells at the column positions given by the sorted set of all cell
x0 values (`None` where a row has no cell at that column; a duplicate x0
within a row keeps the later cell, as Python's dict comprehension does). -/
def table_rows (cells : List Bbox) : List (List (Option Bbox)) :=
  let sorted := sortBy
    (fun a b : Bbox => decide (a.top < b.top)
      || (decide (a.top = b.top) && decide (a.x0 ≤ b.x0))) cells
  let xs := sortBy (fun a b => decide (a ≤ b)) (cells.map (fun c => c.x0)).dedup
  let grouped := pyGroupBy (fun c : Bbox => c.top) sorted
  grouped.map (fun g =>
    let xdict := g.2.map (fun c => (c.x0, c))
    xs.map (fun x => lookupLast xdict x))

def char_in_bbox (ch : PChar) (bbox : Bbox) : Bool :=
  let v_mid := qhalf (qadd ch.top ch.bottom)
  let h_mid := qhalf (qadd ch.x0 ch.x1)
  decide (h_mid ≥ bbox.x0) && decide (h_mid < bbox.x1)
    && decide (v_mid ≥ bbox.top) && decide (v_mid < bbox.bottom)

/-- `Table.extract`: for each row, collect the page characters whose
midpoint lies in the row's bbox; for each present cell, further restrict
to the characters whose midpoint lies in the cell's bbox, extract their
text and strip it (an absent column position yields `None`, a cell with
no characters yields `""`). -/
def Table_extract (page : Page) (cells : List Bbox) (x_tol y_tol : ℚ) :
    List (List (Option String)) :=
  let chars := page.chars
  (table_rows cells).map (fun row =>
    let row_chars := chars.filter (fun ch => char_in_bbox ch (row_bbox row))
    row.map (fun cell? =>
      match cell? with
      | none => none
      | some cell =>
        let cell_chars := row_chars.filter (fun ch => char_in_bbox ch cell)
        if cell_chars.length ≠ 0 then some (pyStrip (extract_text cell_chars x_tol y_tol))
        else some ""))

/-- The claim's selection predicate: left and top bounds inclusive, right
and bottom bounds exclusive, applied to the character's midpoint. -/
def midpointIn (ch : PChar) (b : Bbox) : Prop :=
  b.x0 ≤ qhalf (qadd ch.x0 ch.x1) ∧ qhalf (qadd ch.x0 ch.x1) < b.x1
    ∧ b.top ≤ qhalf (qadd ch.top ch.bottom) ∧ qhalf (qadd ch.top ch.bottom) < b.bottom

instance (ch : PChar) (b : Bbox) : Decidable (midpointIn ch b) := by
  unfold midpointIn
  infer_instance

theorem char_in_bbox_eq (ch : PChar) (b : Bbox) :
    char_in_bbox ch b = decide (midpointIn ch b) := by
  rw [char_in_bbox]
  unfold midpointIn
  simp only [ge_iff_le, Bool.and_assoc]
  rw [Bool.decide_and, Bool.decide_and, Bool.decide_and]

theorem extract_text_nil (xt yt : ℚ) : extract_text [] xt yt = "" := rfl

theorem pyStrip_empty : pyStrip "" = "" := rfl

/-- C9: `Table.extract` builds each cell's entry from exactly the page
characters whose midpoint lies within the row's bbox and then within the
given cell's bbox (left and top bounds inclusive, right and bottom bounds
exclusive), extracts their text and strips it; a column position with no
cell yields `None`, while a present cell always yields a string (the empty
string when no character falls inside it), so "no cell present" and "cell
with empty text" remain distinguishable. -/
theorem C9_extract_cell_text (page : Page) (cells : List Bbox) (xt yt : ℚ) :
    Table_extract page cells xt yt
      = (table_rows cells).map (fun row =>
          row.map (fun cell? => cell?.map (fun cell =>
            pyStrip (extract_text
              ((page.chars.filter (fun ch => decide (midpointIn ch (row_bbox row)))).filter
                (fun ch => decide (midpointIn ch cell))) xt yt)))) := by
  rw [Table_extract]
  apply List.map_congr_left
  intro row _
  have hrow : page.chars.filter (fun ch => char_in_bbox ch (row_bbox row))
      = page.chars.filter (fun ch => decide (midpointIn ch (row_bbox row))) := by
    apply List.filter_congr
    intro ch _
    exact char_in_bbox_eq ch (row_bbox row)
  rw [hrow]
  apply List.map_congr_left
  intro cell? _
  cases cell? with
  | none => rfl
  | some cell =>
    simp only [Option.map_some']
    have hcell : (page.chars.filter
          (fun ch => decide (midpointIn ch (row_bbox row)))).filter
            (fun ch => char_in_bbox ch cell)
        = (page.chars.filter
          (fun ch => decide (midpointIn ch (row_bbox row)))).filter
            (fun ch => decide (midpointIn ch cell)) := by
      apply List.filter_congr
      intro ch _
      exact char_in_bbox_eq ch cell
    rw [hcell]
    by_cases hlen : ((page.chars.filter
        (fun ch => decide (midpointIn ch (row_bbox row)))).filter
          (fun ch => decide (midpointIn ch cell))).length ≠ 0
    · rw [if_pos hlen]
    · rw [if_neg hlen]
      push_neg at hlen
      have hnil : (page.chars.filter
          (fun ch => decide (midpointIn ch (row_bbox row)))).filter
            (fun ch => decide (midpointIn ch cell)) = [] :=
        List.eq_nil_of_length_eq_zero hlen
      rw [hnil, extract_text_nil, pyStrip_empty]

/-! ### Edge snapping, joining and merging (`table.py` / `utils.py`; claims C7, C10)

Exceptions become an `Except MErr` value: `valueError` is the explicit
`raise ValueError` of `join_edge_group`, `indexError` the `sorted_edges[0]`
read on an empty list, `keyError` the `by_orientation[...]` lookup of
`snap_edges` for an orientation other than `"v"`/`"h"`, and `assertError`
the `assert` statements of `utils.resize_object`. -/

inductive MErr
  | valueError
  | indexError
  | keyError
  | assertError
deriving DecidableEq

/-- `utils.move_object` (for the two axes used by `snap_objects`): shift the
object's coordinates along `axis` by `value`; on the vertical axis `doctop`
moves with `top` and the pdf-space `y0`/`y1` move the opposite way. -/
def move_object (e : Edge) (axis : String) (v : ℚ) : Edge :=
  if axis = "h" then { e with x0 := qadd e.x0 v, x1 := qadd e.x1 v }
  else
    { e with
      top := qadd e.top v
      bottom := qadd e.bottom v
      doctop := e.doctop.map (fun d => qadd d v)
      y0 := e.y0.map (fun y => qsub y v)
      y1 := e.y1.map (fun y => qsub y v) }

/-- `utils.snap_objects`: cluster the objects on `attr` with the given
tolerance and move every member of a cluster so that its `attr` value
becomes the cluster's average. -/
def snap_objects (objs : List Edge) (attr : Edge → ℚ) (axis : String) (tol : ℚ) :
    List Edge :=
  let clusters := cluster_objects objs attr tol
  let avgs := clusters.map (fun c => qdivn (c.foldl (fun s o => qadd s (attr o)) 0) c.length)
  ((clusters.zip avgs).map (fun ca =>
    ca.1.map (fun o => move_object o axis (qsub ca.2 (attr o))))).flatten

/-- `snap_edges`: split by orientation (any orientation other than `"v"` or
`"h"` raises a `KeyError` in the `by_orientation` dict), snap the vertical
edges on `x0` and the horizontal ones on `top`, and concatenate. -/
def snap_edges (edges : List Edge) (x_tolerance y_tolerance : ℚ) :
    Except MErr (List Edge) :=
  if edges.all (fun e => decide (e.orientation = "v") || decide (e.orientation = "h")) then
    .ok (snap_objects (edges.filter (fun e => decide (e.orientation = "v")))
          (fun e => e.x0) "h" x_tolerance
        ++ snap_objects (edges.filter (fun e => decide (e.orientation = "h")))
          (fun e => e.top) "v" y_tolerance)
  else .error .keyError

/-- `utils.resize_object` with key `"x1"`: asserts `value >= obj["x0"]`,
then sets `x1` and recomputes `width`. -/
def resize_object_x1 (e : Edge) (v : ℚ) : Except MErr Edge :=
  if e.x0 ≤ v then .ok { e with x1 := v, width := qsub v e.x0 }
  else .error .assertError

/-- `utils.resize_object` with key `"bottom"`: asserts `value >= obj["top"]`,
then sets `bottom`, grows `height` by the difference and moves `y0` (when
present) the opposite way. -/
def resize_object_bottom (e : Edge) (v : ℚ) : Except MErr Edge :=
  if e.top ≤ v then
    .ok { e with
          bottom := v
          height := qadd e.height (qsub v e.bottom)
          y0 := e.y0.map (fun y => qsub y (qsub v e.bottom)) }
  else .error .assertError

/-- One iteration of the `join_edge_group` loop, with the `joined` list kept
in reverse (its head is Python's `joined[-1]`): an edge within `tolerance`
of the current last edge extends it (when it reaches further), otherwise it
starts a new joined edge. -/
def joinStep (getMin getMax : Edge → ℚ) (resize : Edge → ℚ → Except MErr Edge)
    (tol : ℚ) (acc : List Edge) (e : Edge) : Except MErr (List Edge) :=
  match acc with
  | [] => .error .indexError
  | last :: rest =>
    if getMin e ≤ qadd (getMax last) tol then
      if getMax last < getMax e then do
        let last' ← resize last (getMax e)
        pure (last' :: rest)
      else pure (last :: rest)
    else pure (e :: last :: rest)

/-- `join_edge_group`: check the orientation (anything else raises
`ValueError`), sort by the minimum coordinate, seed with the first sorted
edge (`IndexError` on an empty list) and fold the join step. -/
def join_edge_group (edges : List Edge) (orientation : String) (tol : ℚ) :
    Except MErr (List Edge) :=
  if orientation = "h" then
    match sortBy (fun a b : Edge => decide (a.x0 ≤ b.x0)) edges with
    | [] => .error .indexError
    | e0 :: rest => do
      let acc ← rest.foldlM
        (joinStep (fun e => e.x0) (fun e => e.x1) resize_object_x1 tol) [e0]
      pure acc.reverse
  else if orientation = "v" then
    match sortBy (fun a b : Edge => decide (a.top ≤ b.top)) edges with
    | [] => .error .indexError
    | e0 :: rest => do
      let acc ← rest.foldlM
        (joinStep (fun e => e.top) (fun e => e.bottom) resize_object_bottom tol) [e0]
      pure acc.reverse
  else .error .valueError

/-- `merge_edges.get_group`: the sort/group key `("h", top)` for horizontal
edges and `("v", x0)` otherwise. -/
def get_group (e : Edge) : String × ℚ :=
  if e.orientation = "h" then ("h", e.top) else ("v", e.x0)

/-- Python's string `<`: lexicographic comparison of the code-point
sequences. -/
def strLtChars : List Char → List Char → Bool
  | [], [] => false
  | [], _ :: _ => true
  | _ :: _, [] => false
  | c :: cs, d :: ds => if c < d then true else if d < c then false else strLtChars cs ds

def pyStrLt (a b : String) : Bool := strLtChars a.data b.data

/-- Python's tuple comparison `<=` on the group keys. -/
def groupLe (g1 g2 : String × ℚ) : Bool :=
  if g1.1 = g2.1 then decide (g1.2 ≤ g2.2) else pyStrLt g1.1 g2.1

/-- `merge_edges`: optionally snap, sort by the group key, group consecutive
equal keys (`itertools.groupby` on a sorted list) and join each group with
the tolerance matching its orientation. -/
def merge_edges (edges : List Edge)
    (snap_x_tolerance snap_y_tolerance join_x_tolerance join_y_tolerance : ℚ) :
    Except MErr (List Edge) := do
  let edges ←
    if 0 < snap_x_tolerance ∨ 0 < snap_y_tolerance then
      snap_edges edges snap_x_tolerance snap_y_tolerance
    else pure edges
  let sorted := sortBy (fun a b : Edge => groupLe (get_group a) (get_group b)) edges
  let groups := pyGroupBy get_group sorted
  let parts ← groups.mapM (fun kg =>
    join_edge_group kg.2 kg.1.1
      (if kg.1.1 = "h" then join_x_tolerance else join_y_tolerance))
  pure parts.flatten

theorem pyGroupBy_nonempty {ο κ : Type} [DecidableEq κ] (key : ο → κ) (l : List ο) :
    ∀ kg ∈ pyGroupBy key l, kg.2 ≠ [] := by
  induction l with
  | nil => intro kg hkg; simp [pyGroupBy] at hkg
  | cons x xs ih =>
    intro kg hkg
    rw [pyGroupBy] at hkg
    cases hg : pyGroupBy key xs with
    | nil =>
      rw [hg] at hkg
      simp only [List.mem_singleton] at hkg
      rw [hkg]
      simp
    | cons p rest =>
      obtain ⟨k, g⟩ := p
      rw [hg] at hkg
      have hkg' : kg ∈ (if key x = k then (k, x :: g) :: rest
          else (key x, [x]) :: (k, g) :: rest) := hkg
      by_cases hk : key x = k
      · rw [if_pos hk] at hkg'
        rcases List.mem_cons.mp hkg' with h | h
        · rw [h]; simp
        · exact ih kg (by rw [hg]; exact List.mem_cons_of_mem _ h)
      · rw [if_neg hk] at hkg'
        rcases List.mem_cons.mp hkg' with h | h
        · rw [h]; simp
        · exact ih kg (by rw [hg]; exact h)

theorem joinFold_ok {getMin getMax : Edge → ℚ} {resize : Edge → ℚ → Except MErr Edge}
    {tol : ℚ}
    (hres : ∀ e v, getMin e ≤ getMax e → getMax e < v →
      ∃ e', resize e v = .ok e' ∧ getMin e' = getMin e ∧ getMax e' = v) :
    ∀ (rest : List Edge), (∀ e ∈ rest, getMin e ≤ getMax e) →
      ∀ (last : Edge) (tail : List Edge), getMin last ≤ getMax last →
      ∃ out, rest.foldlM (joinStep getMin getMax resize tol) (last :: tail) = .ok out
        ∧ out ≠ [] := by
  intro rest
  induction rest with
  | nil =>
    intro _ last tail _
    exact ⟨last :: tail, rfl, by simp⟩
  | cons e es ih =>
    intro hwf last tail hlast
    have hwf' : ∀ e' ∈ es, getMin e' ≤ getMax e' :=
      fun e' h => hwf e' (List.mem_cons_of_mem _ h)
    rw [List.foldlM_cons]
    have hstep : joinStep getMin getMax resize tol (last :: tail) e
        = if getMin e ≤ qadd (getMax last) tol then
            if getMax last < getMax e then
              (resize last (getMax e)).bind (fun last' => pure (last' :: tail))
            else pure (last :: tail)
          else pure (e :: last :: tail) := rfl
    by_cases h1 : getMin e ≤ qadd (getMax last) tol
    · by_cases h2 : getMax last < getMax e
      · obtain ⟨e', he', hmin, hmax⟩ := hres last (getMax e) hlast h2
        rw [hstep, if_pos h1, if_pos h2, he']
        have hwfe : getMin e' ≤ getMax e' := by
          rw [hmin, hmax]
          exact hlast.trans h2.le
        obtain ⟨out, hout, hne⟩ := ih hwf' e' tail hwfe
        refine ⟨out, ?_, hne⟩
        have hred : ((Except.ok e' : Except MErr Edge).bind
            (fun last' => pure (last' :: tail)) : Except MErr (List Edge))
            = Except.ok (e' :: tail) := rfl
        rw [hred]
        exact hout
      · rw [hstep, if_pos h1, if_neg h2]
        obtain ⟨out, hout, hne⟩ := ih hwf' last tail hlast
        exact ⟨out, hout, hne⟩
    · rw [hstep, if_neg h1]
      obtain ⟨out, hout, hne⟩ := ih hwf' e (last :: tail) (hwf e (List.mem_cons_self e es))
      exact ⟨out, hout, hne⟩

theorem resize_object_x1_spec (e : Edge) (v : ℚ) (h1 : e.x0 ≤ e.x1) (h2 : e.x1 < v) :
    ∃ e', resize_object_x1 e v = .ok e' ∧ e'.x0 = e.x0 ∧ e'.x1 = v := by
  rw [resize_object_x1, if_pos (h1.trans h2.le)]
  exact ⟨_, rfl, rfl, rfl⟩

theorem resize_object_bottom_spec (e : Edge) (v : ℚ) (h1 : e.top ≤ e.bottom)
    (h2 : e.bottom < v) :
    ∃ e', resize_object_bottom e v = .ok e' ∧ e'.top = e.top ∧ e'.bottom = v := by
  rw [resize_object_bottom, if_pos (h1.trans h2.le)]
  exact ⟨_, rfl, rfl, rfl⟩

theorem join_edge_group_h_ok (edges : List Edge) (tol : ℚ)
    (hne : edges ≠ []) (hwf : ∀ e ∈ edges, e.x0 ≤ e.x1) :
    ∃ out, join_edge_group edges "h" tol = .ok out ∧ out ≠ [] := by
  cases hs : sortBy (fun a b : Edge => decide (a.x0 ≤ b.x0)) edges with
  | nil =>
    have hp := sortBy_perm (fun a b : Edge => decide (a.x0 ≤ b.x0)) edges
    rw [hs] at hp
    exact absurd hp.symm.eq_nil hne
  | cons e0 rest =>
    have hmem : ∀ e ∈ e0 :: rest, e ∈ edges := by
      intro e he
      exact mem_sortBy.mp (hs ▸ he)
    obtain ⟨out, hout, hne'⟩ := @joinFold_ok (fun e => e.x0) (fun e => e.x1)
      resize_object_x1 tol (fun e v h1 h2 => resize_object_x1_spec e v h1 h2)
      rest (fun e he => hwf e (hmem e (List.mem_cons_of_mem _ he)))
      e0 [] (hwf e0 (hmem e0 (List.mem_cons_self e0 rest)))
    have hjoin : join_edge_group edges "h" tol
        = (rest.foldlM (joinStep (fun e => e.x0) (fun e => e.x1) resize_object_x1 tol)
            [e0]).bind (fun acc => pure acc.reverse) := by
      rw [join_edge_group, if_pos rfl, hs]
      rfl
    refine ⟨out.reverse, ?_, by simpa using hne'⟩
    rw [hjoin, hout]
    rfl

theorem join_edge_group_v_ok (edges : List Edge) (tol : ℚ)
    (hne : edges ≠ []) (hwf : ∀ e ∈ edges, e.top ≤ e.bottom) :
    ∃ out, join_edge_group edges "v" tol = .ok out ∧ out ≠ [] := by
  cases hs : sortBy (fun a b : Edge => decide (a.top ≤ b.top)) edges with
  | nil =>
    have hp := sortBy_perm (fun a b : Edge => decide (a.top ≤ b.top)) edges
    rw [hs] at hp
    exact absurd hp.symm.eq_nil hne
  | cons e0 rest =>
    have hmem : ∀ e ∈ e0 :: rest, e ∈ edges := by
      intro e he
      exact mem_sortBy.mp (hs ▸ he)
    obtain ⟨out, hout, hne'⟩ := @joinFold_ok (fun e => e.top) (fun e => e.bottom)
      resize_object_bottom tol (fun e v h1 h2 => resize_object_bottom_spec e v h1 h2)
      rest (fun e he => hwf e (hmem e (List.mem_cons_of_mem _ he)))
      e0 [] (hwf e0 (hmem e0 (List.mem_cons_self e0 rest)))
    have hjoin : join_edge_group edges "v" tol
        = (rest.foldlM (joinStep (fun e => e.top) (fun e => e.bottom)
            resize_object_bottom tol) [e0]).bind (fun acc => pure acc.reverse) := by
      rw [join_edge_group, if_neg (by decide), if_pos rfl, hs]
      rfl
    refine ⟨out.reverse, ?_, by simpa using hne'⟩
    rw [hjoin, hout]
    rfl

/-- C10: `join_edge_group` is total only on non-empty input. With a valid
orientation it fails with an `IndexError` on the empty list (the
unconditional `sorted_edges[0]` read), while on any non-empty list of
geometrically well-formed edges it returns a non-empty joined list; and
every group its caller `merge_edges` passes (a group produced by
`itertools.groupby`) is non-empty, so the error branch is unreachable from
`merge_edges`. -/
theorem C10_join_edge_group_totality (tol : ℚ) :
    (join_edge_group [] "h" tol = .error .indexError
      ∧ join_edge_group [] "v" tol = .error .indexError)
    ∧ (∀ edges : List Edge, edges ≠ [] → (∀ e ∈ edges, e.x0 ≤ e.x1) →
        ∃ out, join_edge_group edges "h" tol = .ok out ∧ out ≠ [])
    ∧ (∀ edges : List Edge, edges ≠ [] → (∀ e ∈ edges, e.top ≤ e.bottom) →
        ∃ out, join_edge_group edges "v" tol = .ok out ∧ out ≠ [])
    ∧ (∀ l : List Edge, ∀ kg ∈ pyGroupBy get_group l, kg.2 ≠ []) := by
  refine ⟨⟨rfl, rfl⟩, ?_, ?_, ?_⟩
  · exact fun edges hne hwf => join_edge_group_h_ok edges tol hne hwf
  · exact fun edges hne hwf => join_edge_group_v_ok edges tol hne hwf
  · exact fun l => pyGroupBy_nonempty get_group l

theorem C10_join_edge_group_totality_witness :
    ∃ out, join_edge_group
      [{ x0 := 0, top := 5, x1 := 4, bottom := 5, width := 4, height := 0,
         orientation := "h", doctop := none, y0 := none, y1 := none },
       { x0 := 6, top := 5, x1 := 9, bottom := 5, width := 3, height := 0,
         orientation := "h", doctop := none, y0 := none, y1 := none }] "h" 3
      = .ok out ∧ out ≠ [] := by
  refine (C10_join_edge_group_totality 3).2.1 _ (by decide) ?_
  intro e he
  rcases List.mem_cons.mp he with h | h
  · rw [h]; decide
  · rw [List.mem_singleton.mp h]; decide

/-! ### Table-settings resolution and validation (claim C8)

A Python settings value is a string, a number, `None`, a boolean or a list
of explicit lines (only the length of such a list matters to validation, so
its entries are modelled by their coordinate).  The user-provided mapping is
an association list; `resolve_table_settings` and the validation prologue of
`get_edges` both run inside `TableFinder.__init__` before any intersection,
cell or table is computed, and each raises `ValueError` (`MErr.valueError`)
as in the source. -/

inductive SVal
  | str (v : String)
  | num (v : ℚ)
  | none
  | flag (v : Bool)
  | lines (v : List ℚ)
deriving DecidableEq

def TABLE_STRATEGIES : List String := ["lines", "lines_strict", "text", "explicit"]

def DEFAULT_TABLE_SETTINGS : List (String × SVal) := [
  ("vertical_strategy", SVal.str "lines"),
  ("horizontal_strategy", SVal.str "lines"),
  ("explicit_vertical_lines", SVal.lines []),
  ("explicit_horizontal_lines", SVal.lines []),
  ("snap_tolerance", SVal.num 3),
  ("snap_x_tolerance", SVal.none),
  ("snap_y_tolerance", SVal.none),
  ("join_tolerance", SVal.num 3),
  ("join_x_tolerance", SVal.none),
  ("join_y_tolerance", SVal.none),
  ("edge_min_length", SVal.num 3),
  ("min_words_vertical", SVal.num 3),
  ("min_words_horizontal", SVal.num 1),
  ("keep_blank_chars", SVal.flag false),
  ("text_tolerance", SVal.num 3),
  ("text_x_tolerance", SVal.none),
  ("text_y_tolerance", SVal.none),
  ("intersection_tolerance", SVal.num 3),
  ("intersection_x_tolerance", SVal.none),
  ("intersection_y_tolerance", SVal.none)]

def NON_NEGATIVE_SETTINGS : List String := [
  "snap_tolerance",
  "snap_x_tolerance",
  "snap_y_tolerance",
  "join_tolerance",
  "join_x_tolerance",
  "join_y_tolerance",
  "edge_min_length",
  "min_words_vertical",
  "min_words_horizontal",
  "text_tolerance",
  "text_x_tolerance",
  "text_y_tolerance",
  "intersection_tolerance",
  "intersection_x_tolerance",
  "intersection_y_tolerance"]

/-- The `(var, fallback)` pairs of the fill-in loop of
`resolve_table_settings`, in source order. -/
def FALLBACK_PAIRS : List (String × String) := [
  ("text_x_tolerance", "text_tolerance"),
  ("text_y_tolerance", "text_tolerance"),
  ("snap_x_tolerance", "snap_tolerance"),
  ("snap_y_tolerance", "snap_tolerance"),
  ("join_x_tolerance", "join_tolerance"),
  ("join_y_tolerance", "join_tolerance"),
  ("intersection_x_tolerance", "intersection_tolerance"),
  ("intersection_y_tolerance", "intersection_tolerance")]

/-- `settings[k]` on a dict modelled as an association list (`SVal.none`
when the key is absent, as `dict.get`). -/
def settingsGet (d : List (String × SVal)) (k : String) : SVal :=
  match d.lookup k with
  | some v => v
  | Option.none => SVal.none

/-- `(table_settings.get(setting) or 0) < 0`: a missing key or a falsy
value (`None`, `0`) yields `0`, so only a provided negative number trips
the check. -/
def neg_setting (user : List (String × SVal)) (k : String) : Bool :=
  match user.lookup k with
  | some (SVal.num q) => decide (q < 0)
  | _ => false

/-- One step of the fallback fill-in loop: when `resolved[var]` is `None`,
overwrite it with the current value of `resolved[fallback]`. -/
def fallbackStep (r : List (String × SVal)) (vf : String × String) :
    List (String × SVal) :=
  if settingsGet r vf.1 = SVal.none then
    r.map (fun kv => if kv.1 = vf.1 then (kv.1, settingsGet r vf.2) else kv)
  else r

/-- `TableFinder.resolve_table_settings`: reject unknown keys, reject
negative values for the non-negative settings, then overlay the defaults
with the provided values and run the fallback fill-in loop. -/
def resolve_table_settings (user : List (String × SVal)) :
    Except MErr (List (String × SVal)) :=
  if user.all (fun kv => (DEFAULT_TABLE_SETTINGS.map Prod.fst).contains kv.1) then
    if NON_NEGATIVE_SETTINGS.all (fun k => !neg_setting user k) then
      let resolved := DEFAULT_TABLE_SETTINGS.map (fun kv =>
        match user.lookup kv.1 with
        | some v => (kv.1, v)
        | Option.none => kv)
      .ok (FALLBACK_PAIRS.foldl fallbackStep resolved)
    else .error .valueError
  else .error .valueError

/-- `len` of an explicit-lines settings value. -/
def sval_len (v : SVal) : ℕ :=
  match v with
  | .lines l => l.length
  | _ => 0

/-- The per-axis validation of `TableFinder.get_edges`: the strategy must
be one of `TABLE_STRATEGIES`, and an `"explicit"` strategy needs at least
two explicit lines on that axis. -/
def validate_strategy_for (settings : List (String × SVal)) (name : String) :
    Except MErr Unit :=
  let strategy := settingsGet settings (name ++ "_strategy")
  if TABLE_STRATEGIES.all (fun t => strategy ≠ SVal.str t) then .error .valueError
  else if strategy = SVal.str "explicit"
      ∧ sval_len (settingsGet settings ("explicit_" ++ name ++ "_lines")) < 2 then
    .error .valueError
  else .ok ()

/-- The validation prologue of `get_edges` (the `for name in ["vertical",
"horizontal"]` loop). -/
def validate_strategies (settings : List (String × SVal)) : Except MErr Unit := do
  validate_strategy_for settings "vertical"
  validate_strategy_for settings "horizontal"

/-- Specification-side value of a resolved setting, following the spec's
words: the default overridden by the provided value, and each unset
axis-specific tolerance filled from its fallback setting. -/
def spec_resolved_value (user : List (String × SVal)) (k : String) : SVal :=
  let base := fun k' => match user.lookup k' with
    | some v => v
    | Option.none => settingsGet DEFAULT_TABLE_SETTINGS k'
  match FALLBACK_PAIRS.lookup k with
  | some fb => if base k = SVal.none then base fb else base k
  | Option.none => base k


theorem lookup_mem {β : Type} {l : List (String × β)} {k : String} {v : β}
    (h : l.lookup k = some v) : (k, v) ∈ l := by
  induction l with
  | nil => cases h
  | cons kv rest ih =>
    cases hk : (k == kv.1) with
    | true =>
      simp only [List.lookup, hk] at h
      cases h
      have hke : k = kv.1 := by simpa using hk
      rw [show (k, kv.2) = kv from by rw [hke]]
      exact List.mem_cons_self kv rest
    | false =>
      simp only [List.lookup, hk] at h
      exact List.mem_cons_of_mem _ (ih h)

theorem mem_lookup_of_nodup {β : Type} {l : List (String × β)} {k : String} {v : β}
    (hnd : (l.map Prod.fst).Nodup) (h : (k, v) ∈ l) : l.lookup k = some v := by
  induction l with
  | nil => cases h
  | cons kv rest ih =>
    rw [List.map_cons, List.nodup_cons] at hnd
    rcases List.mem_cons.mp h with h' | h'
    · rw [← h']
      simp [List.lookup]
    · have hk : (k == kv.1) = false := by
        apply beq_false_of_ne
        intro hke
        exact hnd.1 (hke ▸ (List.mem_map.mpr ⟨(k, v), h', rfl⟩))
      simp only [List.lookup, hk]
      exact ih hnd.2 h'

theorem lookup_isSome_of_mem_keys {β : Type} {l : List (String × β)} {k : String}
    (h : k ∈ l.map Prod.fst) : ∃ v, l.lookup k = some v := by
  induction l with
  | nil => simp at h
  | cons kv rest ih =>
    cases hk : (k == kv.1) with
    | true => exact ⟨kv.2, by simp only [List.lookup, hk]⟩
    | false =>
      simp only [List.lookup, hk]
      apply ih
      rcases List.mem_map.mp h with ⟨p, hp, hpk⟩
      rcases List.mem_cons.mp hp with h' | h'
      · exfalso
        have : k = kv.1 := by rw [← hpk, h']
        rw [this] at hk
        simp at hk
      · exact List.mem_map.mpr ⟨p, h', hpk⟩

theorem not_mem_keys_of_lookup_none {β : Type} {l : List (String × β)} {k : String}
    (h : l.lookup k = none) : k ∉ l.map Prod.fst := by
  intro hmem
  rcases lookup_isSome_of_mem_keys hmem with ⟨v, hv⟩
  rw [h] at hv
  cases hv

theorem lookup_map_update (r : List (String × SVal)) (k k' : String) (v : SVal) :
    (r.map (fun kv => if kv.1 = k then (kv.1, v) else kv)).lookup k'
      = if k' = k then (r.lookup k').map (fun _ => v) else r.lookup k' := by
  induction r with
  | nil => by_cases h : k' = k <;> simp [h]
  | cons kv rest ih =>
    rw [List.map_cons]
    by_cases h1 : kv.1 = k
    · rw [if_pos h1]
      by_cases h2 : k' = kv.1
      · have hb : (k' == kv.1) = true := by simpa using h2
        simp only [List.lookup, hb, if_pos (h2.trans h1)]
        rfl
      · have hb : (k' == kv.1) = false := beq_false_of_ne h2
        simp only [List.lookup, hb]
        exact ih
    · rw [if_neg h1]
      by_cases h2 : k' = kv.1
      · have hb : (k' == kv.1) = true := by simpa using h2
        have hne : ¬(k' = k) := fun hh => h1 ((h2.symm.trans hh) ▸ rfl)
        simp only [List.lookup, hb, if_neg hne]
      · have hb : (k' == kv.1) = false := beq_false_of_ne h2
        simp only [List.lookup, hb]
        exact ih

theorem lookup_fallbackStep_ne (r : List (String × SVal)) (vf : String × String)
    (k : String) (hk : k ≠ vf.1) :
    (fallbackStep r vf).lookup k = r.lookup k := by
  rw [fallbackStep]
  by_cases hc : settingsGet r vf.1 = SVal.none
  · rw [if_pos hc, lookup_map_update, if_neg hk]
  · rw [if_neg hc]

theorem foldl_fallbackStep_lookup_notvar (pairs : List (String × String)) :
    ∀ (r : List (String × SVal)) (k : String), k ∉ pairs.map Prod.fst →
    (pairs.foldl fallbackStep r).lookup k = r.lookup k := by
  induction pairs with
  | nil => intro r k _; rfl
  | cons vf rest ih =>
    intro r k hk
    rw [List.foldl_cons]
    have hk1 : k ∉ rest.map Prod.fst := fun h => hk (by simp [h])
    have hkv : k ≠ vf.1 := fun h => hk (by simp [h])
    rw [ih _ k hk1, lookup_fallbackStep_ne r vf k hkv]

theorem settingsGet_fallbackStep_ne (r : List (String × SVal)) (vf : String × String)
    (k : String) (hk : k ≠ vf.1) :
    settingsGet (fallbackStep r vf) k = settingsGet r k := by
  rw [settingsGet, settingsGet, lookup_fallbackStep_ne r vf k hk]

theorem foldl_fallbackStep_lookup_var (pairs : List (String × String)) :
    ∀ (r : List (String × SVal)) (v fb : String),
      pairs.lookup v = some fb →
      (pairs.map Prod.fst).Nodup →
      (∀ p ∈ pairs, p.2 ∉ pairs.map Prod.fst) →
    (pairs.foldl fallbackStep r).lookup v
      = if settingsGet r v = SVal.none then
          (r.lookup v).map (fun _ => settingsGet r fb)
        else r.lookup v := by
  induction pairs with
  | nil => intro r v fb hlk; cases hlk
  | cons p rest ih =>
    intro r v fb hlk hnd hfb
    rw [List.foldl_cons]
    rw [List.map_cons, List.nodup_cons] at hnd
    cases hv : (v == p.1) with
    | true =>
      have hvp : v = p.1 := by simpa using hv
      simp only [List.lookup, hv] at hlk
      cases hlk
      have hnotrest : v ∉ rest.map Prod.fst := hvp ▸ hnd.1
      rw [foldl_fallbackStep_lookup_notvar rest _ v hnotrest]
      rw [fallbackStep, ← hvp]
      by_cases hc : settingsGet r v = SVal.none
      · rw [if_pos hc, if_pos hc, lookup_map_update, if_pos rfl]
      · rw [if_neg hc, if_neg hc]
    | false =>
      have hvp : v ≠ p.1 := by simpa using hv
      simp only [List.lookup, hv] at hlk
      have hfbp : fb ≠ p.1 := by
        intro h
        have hmem : (v, fb) ∈ p :: rest := List.mem_cons_of_mem _ (lookup_mem hlk)
        have := hfb (v, fb) hmem
        exact this (by rw [List.map_cons, h]; exact List.mem_cons_self _ _)
      have h1 : (fallbackStep r p).lookup v = r.lookup v :=
        lookup_fallbackStep_ne r p v hvp
      have h2 : settingsGet (fallbackStep r p) v = settingsGet r v :=
        settingsGet_fallbackStep_ne r p v hvp
      have h3 : settingsGet (fallbackStep r p) fb = settingsGet r fb :=
        settingsGet_fallbackStep_ne r p fb hfbp
      rw [ih (fallbackStep r p) v fb hlk hnd.2
        (fun q hq hmem => hfb q (List.mem_cons_of_mem _ hq)
          (by rw [List.map_cons]; exact List.mem_cons_of_mem _ hmem)),
        h1, h2, h3]

theorem lookup_map_override (d user : List (String × SVal)) (k : String) :
    (d.map (fun kv => match user.lookup kv.1 with
      | some v => (kv.1, v)
      | Option.none => kv)).lookup k
    = (d.lookup k).map (fun dv => match user.lookup k with
      | some v => v
      | Option.none => dv) := by
  induction d with
  | nil => rfl
  | cons kv rest ih =>
    rw [List.map_cons]
    cases hk : (k == kv.1) with
    | true =>
      have hke : k = kv.1 := by simpa using hk
      cases hu : user.lookup kv.1 with
      | some v =>
        simp only [hu, List.lookup, hk]
        rw [hke, hu]
        rfl
      | none =>
        simp only [hu, List.lookup, hk]
        rw [hke, hu]
        rfl
    | false =>
      cases hu : user.lookup kv.1 with
      | some v => simp only [hu, List.lookup, hk]; exact ih
      | none => simp only [hu, List.lookup, hk]; exact ih

theorem validate_strategy_for_error (s : List (String × SVal)) (name : String) :
    validate_strategy_for s name = .error .valueError
      ↔ (settingsGet s (name ++ "_strategy") ∉ TABLE_STRATEGIES.map SVal.str
          ∨ (settingsGet s (name ++ "_strategy") = SVal.str "explicit"
              ∧ sval_len (settingsGet s ("explicit_" ++ name ++ "_lines")) < 2)) := by
  have hnotin : (TABLE_STRATEGIES.all
        (fun t => settingsGet s (name ++ "_strategy") ≠ SVal.str t) = true)
      ↔ settingsGet s (name ++ "_strategy") ∉ TABLE_STRATEGIES.map SVal.str := by
    rw [List.all_eq_true]
    constructor
    · intro h hmem
      rcases List.mem_map.mp hmem with ⟨t, ht, hts⟩
      have h2 := h t ht
      simp only [decide_eq_true_eq] at h2
      exact h2 hts.symm
    · intro h t ht
      simp only [decide_eq_true_eq]
      intro he
      exact h (List.mem_map.mpr ⟨t, ht, he.symm⟩)
  rw [validate_strategy_for]
  by_cases h1 : TABLE_STRATEGIES.all
      (fun t => settingsGet s (name ++ "_strategy") ≠ SVal.str t) = true
  · rw [if_pos h1]
    exact ⟨fun _ => Or.inl (hnotin.mp h1), fun _ => rfl⟩
  · rw [if_neg h1]
    have hmem : ¬ settingsGet s (name ++ "_strategy") ∉ TABLE_STRATEGIES.map SVal.str :=
      fun h => h1 (hnotin.mpr h)
    by_cases h2 : settingsGet s (name ++ "_strategy") = SVal.str "explicit"
        ∧ sval_len (settingsGet s ("explicit_" ++ name ++ "_lines")) < 2
    · rw [if_pos h2]
      exact ⟨fun _ => Or.inr h2, fun _ => rfl⟩
    · rw [if_neg h2]
      constructor
      · intro h
        exact Except.noConfusion h
      · intro h
        rcases h with h | h
        · exact absurd h hmem
        · exact absurd h h2

theorem validate_strategy_for_cases (s : List (String × SVal)) (name : String) :
    validate_strategy_for s name = .ok ()
      ∨ validate_strategy_for s name = .error .valueError := by
  rw [validate_strategy_for]
  split
  · exact Or.inr rfl
  · split
    · exact Or.inr rfl
    · exact Or.inl rfl

theorem validate_strategies_error (s : List (String × SVal)) :
    validate_strategies s = .error .valueError
      ↔ validate_strategy_for s "vertical" = .error .valueError
        ∨ validate_strategy_for s "horizontal" = .error .valueError := by
  rw [validate_strategies]
  rcases validate_strategy_for_cases s "vertical" with hv | hv
  · rw [hv]
    rcases validate_strategy_for_cases s "horizontal" with hh | hh
    · rw [hh]
      constructor
      · intro h; exact Except.noConfusion h
      · intro h
        rcases h with h | h <;> exact Except.noConfusion h
    · rw [hh]
      constructor
      · intro _; exact Or.inr rfl
      · intro _; rfl
  · rw [hv]
    constructor
    · intro _; exact Or.inl rfl
    · intro _; rfl

theorem neg_setting_iff (user : List (String × SVal)) (k : String) :
    neg_setting user k = true ↔ ∃ q, user.lookup k = some (SVal.num q) ∧ q < 0 := by
  cases hl : user.lookup k with
  | none =>
    simp only [neg_setting, hl]
    constructor
    · intro h; cases h
    · rintro ⟨q, hq, _⟩; cases hq
  | some v =>
    cases v with
    | num q =>
      simp only [neg_setting, hl]
      constructor
      · intro h
        exact ⟨q, rfl, of_decide_eq_true h⟩
      · rintro ⟨q', hq', hlt⟩
        cases hq'
        exact decide_eq_true hlt
    | str w =>
      simp only [neg_setting, hl]
      constructor
      · intro h; cases h
      · rintro ⟨q, hq, _⟩; cases hq
    | none =>
      simp only [neg_setting, hl]
      constructor
      · intro h; cases h
      · rintro ⟨q, hq, _⟩; cases hq
    | flag b =>
      simp only [neg_setting, hl]
      constructor
      · intro h; cases h
      · rintro ⟨q, hq, _⟩; cases hq
    | lines l =>
      simp only [neg_setting, hl]
      constructor
      · intro h; cases h
      · rintro ⟨q, hq, _⟩; cases hq

theorem resolve_all_keys_iff (user : List (String × SVal)) :
    (user.all (fun kv => (DEFAULT_TABLE_SETTINGS.map Prod.fst).contains kv.1) = true)
      ↔ ∀ kv ∈ user, kv.1 ∈ DEFAULT_TABLE_SETTINGS.map Prod.fst := by
  rw [List.all_eq_true]
  constructor
  · intro h kv hkv
    have := h kv hkv
    simpa using this
  · intro h kv hkv
    simpa using h kv hkv

theorem resolve_nonneg_iff (user : List (String × SVal)) :
    (NON_NEGATIVE_SETTINGS.all (fun k => !neg_setting user k) = true)
      ↔ ∀ k ∈ NON_NEGATIVE_SETTINGS, neg_setting user k = false := by
  rw [List.all_eq_true]
  constructor
  · intro h k hk
    have := h k hk
    simpa using this
  · intro h k hk
    simpa using h k hk

theorem resolve_error_iff (user : List (String × SVal)) :
    resolve_table_settings user = .error .valueError
      ↔ ((∃ kv ∈ user, kv.1 ∉ DEFAULT_TABLE_SETTINGS.map Prod.fst)
          ∨ (∃ k ∈ NON_NEGATIVE_SETTINGS, ∃ q,
              user.lookup k = some (SVal.num q) ∧ q < 0)) := by
  rw [resolve_table_settings]
  by_cases hA : user.all (fun kv => (DEFAULT_TABLE_SETTINGS.map Prod.fst).contains kv.1) = true
  · rw [if_pos hA]
    by_cases hB : NON_NEGATIVE_SETTINGS.all (fun k => !neg_setting user k) = true
    · rw [if_pos hB]
      constructor
      · intro h; exact Except.noConfusion h
      · intro h
        rcases h with ⟨kv, hkv, hout⟩ | ⟨k, hk, q, hq, hlt⟩
        · exact absurd ((resolve_all_keys_iff user).mp hA kv hkv) hout
        · have := (resolve_nonneg_iff user).mp hB k hk
          rw [(neg_setting_iff user k).mpr ⟨q, hq, hlt⟩] at this
          cases this
    · rw [if_neg hB]
      constructor
      · intro _
        right
        have hex : ∃ k ∈ NON_NEGATIVE_SETTINGS, neg_setting user k = true := by
          by_contra hno
          push_neg at hno
          refine hB ((resolve_nonneg_iff user).mpr (fun k hk => ?_))
          have hne := hno k hk
          cases hb : neg_setting user k
          · rfl
          · exact absurd hb hne
        rcases hex with ⟨k, hk, hneg⟩
        rcases (neg_setting_iff user k).mp hneg with ⟨q, hq, hlt⟩
        exact ⟨k, hk, q, hq, hlt⟩
      · intro _; rfl
  · rw [if_neg hA]
    constructor
    · intro _
      left
      by_contra hno
      push_neg at hno
      exact hA ((resolve_all_keys_iff user).mpr hno)
    · intro _; rfl

theorem resolve_ok_or_error (user : List (String × SVal)) :
    (∃ r, resolve_table_settings user = .ok r)
      ∨ resolve_table_settings user = .error .valueError := by
  rw [resolve_table_settings]
  split
  · split
    · exact Or.inl ⟨_, rfl⟩
    · exact Or.inr rfl
  · exact Or.inr rfl

theorem resolved_lookup (user : List (String × SVal)) (k : String)
    (hk : k ∈ DEFAULT_TABLE_SETTINGS.map Prod.fst) :
    (DEFAULT_TABLE_SETTINGS.map (fun kv =>
      match user.lookup kv.1 with
      | some v => (kv.1, v)
      | Option.none => kv)).lookup k
    = some (match user.lookup k with
        | some v => v
        | Option.none => settingsGet DEFAULT_TABLE_SETTINGS k) := by
  rw [lookup_map_override]
  rcases lookup_isSome_of_mem_keys hk with ⟨dv, hdv⟩
  rw [hdv, settingsGet, hdv]
  rfl

theorem resolve_ok_lookup (user : List (String × SVal)) (r : List (String × SVal))
    (hok : resolve_table_settings user = .ok r) :
    ∀ k ∈ DEFAULT_TABLE_SETTINGS.map Prod.fst,
      r.lookup k = some (spec_resolved_value user k) := by
  intro k hk
  rw [resolve_table_settings] at hok
  split at hok
  · split at hok
    · have hok' : (Except.ok (FALLBACK_PAIRS.foldl fallbackStep
          (DEFAULT_TABLE_SETTINGS.map (fun kv =>
            match user.lookup kv.1 with
            | some v => (kv.1, v)
            | Option.none => kv))) : Except MErr (List (String × SVal)))
          = Except.ok r := hok
      injection hok' with hr
      rw [← hr]
      cases hfbl : FALLBACK_PAIRS.lookup k with
      | none =>
        have hnv := not_mem_keys_of_lookup_none hfbl
        rw [foldl_fallbackStep_lookup_notvar _ _ k hnv, resolved_lookup user k hk]
        simp only [spec_resolved_value, hfbl]
      | some fb =>
        have hfbkeys : fb ∈ DEFAULT_TABLE_SETTINGS.map Prod.fst := by
          have hall : ∀ p ∈ FALLBACK_PAIRS, p.2 ∈ DEFAULT_TABLE_SETTINGS.map Prod.fst := by
            decide
          exact hall (k, fb) (lookup_mem hfbl)
        rw [foldl_fallbackStep_lookup_var FALLBACK_PAIRS _ k fb hfbl (by decide) (by decide)]
        rw [show settingsGet (DEFAULT_TABLE_SETTINGS.map (fun kv =>
            match user.lookup kv.1 with
            | some v => (kv.1, v)
            | Option.none => kv)) k
          = (match user.lookup k with
            | some v => v
            | Option.none => settingsGet DEFAULT_TABLE_SETTINGS k) from by
            rw [settingsGet, resolved_lookup user k hk]]
        rw [show settingsGet (DEFAULT_TABLE_SETTINGS.map (fun kv =>
            match user.lookup kv.1 with
            | some v => (kv.1, v)
            | Option.none => kv)) fb
          = (match user.lookup fb with
            | some v => v
            | Option.none => settingsGet DEFAULT_TABLE_SETTINGS fb) from by
            rw [settingsGet, resolved_lookup user fb hfbkeys]]
        rw [resolved_lookup user k hk]
        simp only [spec_resolved_value, hfbl]
        by_cases hbase : (match user.lookup k with
            | some v => v
            | Option.none => settingsGet DEFAULT_TABLE_SETTINGS k) = SVal.none
        · rw [if_pos hbase, if_pos hbase]
          rfl
        · rw [if_neg hbase, if_neg hbase]
    · exact Except.noConfusion hok
  · exact Except.noConfusion hok

/-- C8: pipeline entry validation. `resolve_table_settings` raises
`ValueError` exactly when the user mapping has a key outside the recognized
set or a negative value for one of the non-negative numeric settings (and
otherwise succeeds); on success, every recognized key resolves to the
default overridden by the provided value, with each unset axis-specific
tolerance filled from its fallback setting; and the `get_edges` prologue
(run, like `resolve_table_settings`, inside `TableFinder.__init__` before
any intersection, cell or table is computed) raises `ValueError` exactly
when a strategy lies outside {lines, lines_strict, text, explicit} or an
"explicit" strategy has fewer than two explicit lines on its axis.  The
hypothesis scopes the claim to well-typed numeric settings (a non-numeric
value there would raise `TypeError`, not `ValueError`, in Python). -/
theorem C8_settings_validation (user : List (String × SVal))
    (hwt : ∀ kv ∈ user, kv.1 ∈ NON_NEGATIVE_SETTINGS →
      (∃ q, kv.2 = SVal.num q) ∨ kv.2 = SVal.none) :
    (resolve_table_settings user = .error .valueError
      ↔ ((∃ kv ∈ user, kv.1 ∉ DEFAULT_TABLE_SETTINGS.map Prod.fst)
          ∨ (∃ k ∈ NON_NEGATIVE_SETTINGS, ∃ q,
              user.lookup k = some (SVal.num q) ∧ q < 0)))
    ∧ ((∃ r, resolve_table_settings user = .ok r)
        ∨ resolve_table_settings user = .error .valueError)
    ∧ (∀ r, resolve_table_settings user = .ok r →
        ∀ k ∈ DEFAULT_TABLE_SETTINGS.map Prod.fst,
          r.lookup k = some (spec_resolved_value user k))
    ∧ (∀ s : List (String × SVal),
        validate_strategies s = .error .valueError
          ↔ (settingsGet s "vertical_strategy" ∉ TABLE_STRATEGIES.map SVal.str
              ∨ (settingsGet s "vertical_strategy" = SVal.str "explicit"
                  ∧ sval_len (settingsGet s "explicit_vertical_lines") < 2)
              ∨ settingsGet s "horizontal_strategy" ∉ TABLE_STRATEGIES.map SVal.str
              ∨ (settingsGet s "horizontal_strategy" = SVal.str "explicit"
                  ∧ sval_len (settingsGet s "explicit_horizontal_lines") < 2))) := by
  refine ⟨resolve_error_iff user, resolve_ok_or_error user,
    fun r hr => resolve_ok_lookup user r hr, fun s => ?_⟩
  rw [validate_strategies_error s, validate_strategy_for_error s "vertical",
    validate_strategy_for_error s "horizontal"]
  have e1 : ("vertical" ++ "_strategy" : String) = "vertical_strategy" := rfl
  have e2 : ("explicit_" ++ "vertical" ++ "_lines" : String) = "explicit_vertical_lines" := rfl
  have e3 : ("horizontal" ++ "_strategy" : String) = "horizontal_strategy" := rfl
  have e4 : ("explicit_" ++ "horizontal" ++ "_lines" : String)
    = "explicit_horizontal_lines" := rfl
  rw [e1, e2, e3, e4]
  tauto

theorem C8_settings_validation_witness :
    resolve_table_settings [("snap_tolerance", SVal.num (-1))] = .error .valueError := by
  refine (C8_settings_validation [("snap_tolerance", SVal.num (-1))] ?_).1.mpr ?_
  · intro kv hkv _
    rw [List.mem_singleton.mp hkv]
    exact Or.inl ⟨-1, rfl⟩
  · right
    refine ⟨"snap_tolerance", by decide, -1, ?_, by decide⟩
    rfl

/-! ### `intersections_to_cells` (claim C3)

The intersection map is the dict from `(x0, top)` points to the edges
touching the point, split into vertical and horizontal lists; `utils
.obj_to_bbox` projects an edge to its bbox tuple and `edge_connects` asks
for a common bbox among the two points' edge lists (a non-empty set
intersection). -/

def obj_to_bbox (e : Edge) : Bbox := ⟨e.x0, e.top, e.x1, e.bottom⟩

structure IEntry where
  v : List Edge
  h : List Edge
deriving DecidableEq

abbrev IMap := List ((ℚ × ℚ) × IEntry)

/-- `intersections[p]` (the dict lookup; every point the algorithm probes
is a key, so the default entry of the total model is never read there). -/
def iGet (m : IMap) (p : ℚ × ℚ) : IEntry :=
  match m.lookup p with
  | some e => e
  | none => ⟨[], []⟩

/-- `edge_connects`: a shared vertical edge when the points are vertically
aligned, or a shared horizontal edge when horizontally aligned. -/
def edge_connects (m : IMap) (p1 p2 : ℚ × ℚ) : Bool :=
  (decide (p1.1 = p2.1)
      && ((iGet m p1).v.map obj_to_bbox).any
        (fun b => ((iGet m p2).v.map obj_to_bbox).contains b))
    || (decide (p1.2 = p2.2)
      && ((iGet m p1).h.map obj_to_bbox).any
        (fun b => ((iGet m p2).h.map obj_to_bbox).contains b))

/-- Python tuple `<=` on points. -/
def pointLe (a b : ℚ × ℚ) : Bool :=
  decide (a.1 < b.1) || (decide (a.1 = b.1) && decide (a.2 ≤ b.2))

/-- `find_smallest_cell(points, i)`: scan the points directly below and
directly right of `points[i]` (in sorted order) and return the first
anchored cell whose four sides are connected and whose bottom-right corner
is an intersection. -/
def find_smallest_cell (m : IMap) (points : List (ℚ × ℚ)) (i : ℕ) : Option Bbox :=
  if i = points.length - 1 then none
  else
    let pt := points.getD i (0, 0)
    let rest := points.drop (i + 1)
    let below := rest.filter (fun x => decide (x.1 = pt.1))
    let right := rest.filter (fun x => decide (x.2 = pt.2))
    below.findSome? (fun below_pt =>
      if edge_connects m pt below_pt then
        right.findSome? (fun right_pt =>
          if edge_connects m pt right_pt then
            let bottom_right := (right_pt.1, below_pt.2)
            if (m.lookup bottom_right).isSome
                && edge_connects m bottom_right right_pt
                && edge_connects m bottom_right below_pt then
              some ⟨pt.1, pt.2, bottom_right.1, bottom_right.2⟩
            else none
          else none)
      else none)

def intersections_to_cells (m : IMap) : List Bbox :=
  let points := sortBy pointLe (m.map Prod.fst)
  (List.range points.length).filterMap (fun i => find_smallest_cell m points i)

/-- The four side-connection conditions of an anchored cell, as the spec
states them: all four corners are intersection points and each adjacent
corner pair is connected by a shared surviving edge. -/
def C3CellValid (m : IMap) (p br : ℚ × ℚ) : Prop :=
  p.1 < br.1 ∧ p.2 < br.2
    ∧ (p.1, br.2) ∈ m.map Prod.fst
    ∧ (br.1, p.2) ∈ m.map Prod.fst
    ∧ br ∈ m.map Prod.fst
    ∧ edge_connects m p (p.1, br.2) = true
    ∧ edge_connects m p (br.1, p.2) = true
    ∧ edge_connects m br (br.1, p.2) = true
    ∧ edge_connects m br (p.1, br.2) = true

instance (m : IMap) (p br : ℚ × ℚ) : Decidable (C3CellValid m p br) := by
  unfold C3CellValid
  infer_instance

/-- A vertical segment at `x` from `y0` to `y1`, as the edge record whose
bbox `edge_connects` compares. -/
def vSeg (x y0 y1 : ℚ) : Edge :=
  { x0 := x, top := y0, x1 := x, bottom := y1, width := 0, height := y1 - y0,
    orientation := "v", doctop := none, y0 := none, y1 := none }

/-- A horizontal segment at `y` from `x0` to `x1`. -/
def hSeg (y x0 x1 : ℚ) : Edge :=
  { x0 := x0, top := y, x1 := x1, bottom := y, width := x1 - x0, height := 0,
    orientation := "h", doctop := none, y0 := none, y1 := none }

/-- An intersection map on which the first cell the scan accepts at anchor
`(0, 0)` is `(0, 0, 100, 1)`, although `(0, 0, 1, 10)` is also a fully
connected anchored cell of far smaller area. -/
def M3 : IMap := [
  ((0, 0), ⟨[vSeg 0 0 1, vSeg 0 0 10], [hSeg 0 0 1, hSeg 0 0 100]⟩),
  ((0, 1), ⟨[vSeg 0 0 1], [hSeg 1 0 100]⟩),
  ((0, 10), ⟨[vSeg 0 0 10], [hSeg 10 0 1]⟩),
  ((1, 0), ⟨[vSeg 1 0 10], [hSeg 0 0 1]⟩),
  ((1, 10), ⟨[vSeg 1 0 10], [hSeg 10 0 1]⟩),
  ((100, 0), ⟨[vSeg 100 0 1], [hSeg 0 0 100]⟩),
  ((100, 1), ⟨[vSeg 100 0 1], [hSeg 1 0 100]⟩)]

/-- Strict lexicographic order on points. -/
def pointLt (a b : ℚ × ℚ) : Prop := a.1 < b.1 ∨ (a.1 = b.1 ∧ a.2 < b.2)

theorem pointLe_iff (a b : ℚ × ℚ) :
    pointLe a b = true ↔ (a.1 < b.1 ∨ (a.1 = b.1 ∧ a.2 ≤ b.2)) := by
  rw [pointLe]
  simp

theorem pointLe_trans (a b c : ℚ × ℚ) (h1 : pointLe a b = true) (h2 : pointLe b c = true) :
    pointLe a c = true := by
  rw [pointLe_iff] at h1 h2 ⊢
  rcases h1 with h1 | ⟨h1e, h1y⟩
  · rcases h2 with h2 | ⟨h2e, _⟩
    · exact Or.inl (h1.trans h2)
    · exact Or.inl (h2e ▸ h1)
  · rcases h2 with h2 | ⟨h2e, h2y⟩
    · exact Or.inl (h1e ▸ h2)
    · exact Or.inr ⟨h1e.trans h2e, h1y.trans h2y⟩

theorem pointLe_total (a b : ℚ × ℚ) : pointLe a b = true ∨ pointLe b a = true := by
  rw [pointLe_iff, pointLe_iff]
  rcases lt_trichotomy a.1 b.1 with h | h | h
  · exact Or.inl (Or.inl h)
  · rcases le_total a.2 b.2 with h2 | h2
    · exact Or.inl (Or.inr ⟨h, h2⟩)
    · exact Or.inr (Or.inr ⟨h.symm, h2⟩)
  · exact Or.inr (Or.inl h)

theorem pointLe_ne_lt {a b : ℚ × ℚ} (h : pointLe a b = true) (hne : a ≠ b) : pointLt a b := by
  rw [pointLe_iff] at h
  rcases h with h | ⟨he, hy⟩
  · exact Or.inl h
  · rcases lt_or_eq_of_le hy with hy' | hy'
    · exact Or.inr ⟨he, hy'⟩
    · exact absurd (Prod.ext he hy') hne

theorem pointLt_irrefl (a : ℚ × ℚ) : ¬ pointLt a a := by
  rintro (h | ⟨_, h⟩) <;> exact lt_irrefl _ h

theorem pointLt_asymm {a b : ℚ × ℚ} (h1 : pointLt a b) (h2 : pointLt b a) : False := by
  rcases h1 with h1 | ⟨h1e, h1y⟩
  · rcases h2 with h2 | ⟨h2e, _⟩
    · exact lt_irrefl _ (h1.trans h2)
    · exact lt_irrefl _ (h2e ▸ h1)
  · rcases h2 with h2 | ⟨_, h2y⟩
    · exact lt_irrefl _ (h1e ▸ h2)
    · exact lt_irrefl _ (h1y.trans h2y)

theorem pair_lookup_mem {κ β : Type} [BEq κ] [LawfulBEq κ] {l : List (κ × β)} {k : κ} {v : β}
    (h : l.lookup k = some v) : (k, v) ∈ l := by
  induction l with
  | nil => cases h
  | cons kv rest ih =>
    cases hk : (k == kv.1) with
    | true =>
      simp only [List.lookup, hk] at h
      cases h
      have hke : k = kv.1 := by simpa using hk
      rw [show (k, kv.2) = kv from by rw [hke]]
      exact List.mem_cons_self kv rest
    | false =>
      simp only [List.lookup, hk] at h
      exact List.mem_cons_of_mem _ (ih h)

theorem pair_lookup_isSome_of_mem_keys {κ β : Type} [BEq κ] [LawfulBEq κ]
    {l : List (κ × β)} {k : κ} (h : k ∈ l.map Prod.fst) : ∃ v, l.lookup k = some v := by
  induction l with
  | nil => simp at h
  | cons kv rest ih =>
    cases hk : (k == kv.1) with
    | true => exact ⟨kv.2, by simp only [List.lookup, hk]⟩
    | false =>
      simp only [List.lookup, hk]
      apply ih
      rcases List.mem_map.mp h with ⟨p, hp, hpk⟩
      rcases List.mem_cons.mp hp with h' | h'
      · exfalso
        have : k = kv.1 := by rw [← hpk, h']
        rw [this] at hk
        simp at hk
      · exact List.mem_map.mpr ⟨p, h', hpk⟩

theorem findSome?_eq_none_iff {α β : Type} {f : α → Option β} {l : List α} :
    l.findSome? f = none ↔ ∀ x ∈ l, f x = none := by
  induction l with
  | nil => simp
  | cons a l ih =>
    rw [List.findSome?_cons]
    cases hf : f a with
    | some b =>
      constructor
      · intro h; cases h
      · intro h
        rw [h a (List.mem_cons_self a l)] at hf
        cases hf
    | none =>
      rw [ih]
      constructor
      · intro h x hx
        rcases List.mem_cons.mp hx with h' | h'
        · rw [h']; exact hf
        · exact h x h'
      · intro h x hx
        exact h x (List.mem_cons_of_mem _ hx)

theorem findSome?_eq_some_split {α β : Type} {f : α → Option β} {b : β} :
    ∀ {l : List α}, l.findSome? f = some b →
    ∃ l1 a l2, l = l1 ++ a :: l2 ∧ f a = some b ∧ ∀ x ∈ l1, f x = none := by
  intro l
  induction l with
  | nil => intro h; cases h
  | cons a l ih =>
    intro h
    rw [List.findSome?_cons] at h
    cases hf : f a with
    | some b' =>
      rw [hf] at h
      cases h
      exact ⟨[], a, l, rfl, hf, by intro x hx; cases hx⟩
    | none =>
      rw [hf] at h
      rcases ih h with ⟨l1, a', l2, hsplit, hfa', hnone⟩
      refine ⟨a :: l1, a', l2, by rw [hsplit]; rfl, hfa', ?_⟩
      intro x hx
      rcases List.mem_cons.mp hx with h' | h'
      · rw [h']; exact hf
      · exact hnone x h'

theorem findSome?_isSome_of_mem {α β : Type} {f : α → Option β} {l : List α} {a : α}
    (ha : a ∈ l) {b : β} (hb : f a = some b) : ∃ c, l.findSome? f = some c := by
  cases hc : l.findSome? f with
  | some c => exact ⟨c, rfl⟩
  | none =>
    rw [findSome?_eq_none_iff.mp hc a ha] at hb
    cases hb

theorem pairwise_filterMap_of_pairwise {α β : Type} {R : α → α → Prop} {S : β → β → Prop}
    (f : α → Option β)
    (hRS : ∀ a a', R a a' → ∀ b, f a = some b → ∀ b', f a' = some b' → S b b') :
    ∀ {l : List α}, l.Pairwise R → (l.filterMap f).Pairwise S := by
  intro l
  induction l with
  | nil => intro _; simp
  | cons a l ih =>
    intro h
    rw [List.pairwise_cons] at h
    rw [List.filterMap_cons]
    cases hf : f a with
    | none => exact ih h.2
    | some b =>
      refine List.Pairwise.cons ?_ (ih h.2)
      intro b' hb'
      rcases List.mem_filterMap.mp hb' with ⟨a', ha', hfa'⟩
      exact hRS a a' (h.1 a' ha') b hf b' hfa'

theorem mem_drop_sorted_iff {points : List (ℚ × ℚ)} (hpw : points.Pairwise pointLt)
    {i : ℕ} (hi : i < points.length) {x : ℚ × ℚ} :
    x ∈ points.drop (i + 1) ↔ x ∈ points ∧ pointLt (points.getD i (0, 0)) x := by
  have hgetd : points.getD i (0, 0) = points[i] := List.getD_eq_getElem points (0, 0) hi
  rw [hgetd]
  constructor
  · intro hx
    rcases List.mem_iff_getElem.mp hx with ⟨j, hj, hjx⟩
    have hjlen : i + 1 + j < points.length := by
      rw [List.length_drop] at hj
      omega
    have hx' : points[i + 1 + j] = x := by
      rw [← hjx, List.getElem_drop]
    constructor
    · rw [← hx']
      exact List.getElem_mem hjlen
    · rw [← hx']
      exact List.pairwise_iff_getElem.mp hpw i (i + 1 + j) hi hjlen (by omega)
  · rintro ⟨hx, hlt⟩
    rcases List.mem_iff_getElem.mp hx with ⟨j, hj, hjx⟩
    rcases lt_trichotomy j i with hji | hji | hji
    · exfalso
      have hp := List.pairwise_iff_getElem.mp hpw j i hj hi hji
      rw [hjx] at hp
      exact pointLt_asymm hlt hp
    · exfalso
      subst hji
      rw [hjx] at hlt
      exact pointLt_irrefl x hlt
    · obtain ⟨k, rfl⟩ : ∃ k, j = i + 1 + k := ⟨j - (i + 1), by omega⟩
      have hj' : k < (points.drop (i + 1)).length := by
        rw [List.length_drop]
        omega
      refine List.mem_iff_getElem.mpr ⟨k, hj', ?_⟩
      rw [List.getElem_drop]
      exact hjx

theorem find_smallest_cell_eq (m : IMap) (points : List (ℚ × ℚ)) (i : ℕ)
    (hne : i ≠ points.length - 1) :
    find_smallest_cell m points i
      = ((points.drop (i + 1)).filter
          (fun x => decide (x.1 = (points.getD i (0, 0)).1))).findSome? (fun below_pt =>
          if edge_connects m (points.getD i (0, 0)) below_pt then
            ((points.drop (i + 1)).filter
              (fun x => decide (x.2 = (points.getD i (0, 0)).2))).findSome? (fun right_pt =>
              if edge_connects m (points.getD i (0, 0)) right_pt then
                if (m.lookup (right_pt.1, below_pt.2)).isSome
                    && edge_connects m (right_pt.1, below_pt.2) right_pt
                    && edge_connects m (right_pt.1, below_pt.2) below_pt then
                  some ⟨(points.getD i (0, 0)).1, (points.getD i (0, 0)).2,
                    right_pt.1, below_pt.2⟩
                else none
              else none)
          else none) := by
  rw [find_smallest_cell, if_neg hne]


theorem find_smallest_cell_spec {m : IMap} {points : List (ℚ × ℚ)} {i : ℕ} {c : Bbox}
    (hpw : points.Pairwise pointLt)
    (hmem : ∀ x : ℚ × ℚ, x ∈ points ↔ x ∈ m.map Prod.fst)
    (hi : i < points.length)
    (h : find_smallest_cell m points i = some c) :
    c.x0 = (points.getD i (0, 0)).1 ∧ c.top = (points.getD i (0, 0)).2
    ∧ C3CellValid m (points.getD i (0, 0)) (c.x1, c.bottom)
    ∧ ∀ br', C3CellValid m (points.getD i (0, 0)) br' →
        (c.bottom < br'.2 ∨ (c.bottom = br'.2 ∧ c.x1 ≤ br'.1)) := by
  have hrest_pw : (points.drop (i + 1)).Pairwise pointLt :=
    List.Pairwise.sublist (List.drop_sublist (i + 1) points) hpw
  have hbelow_pw : ((points.drop (i + 1)).filter
      (fun x => decide (x.1 = (points.getD i (0, 0)).1))).Pairwise pointLt :=
    List.Pairwise.sublist (List.filter_sublist _) hrest_pw
  have hright_pw : ((points.drop (i + 1)).filter
      (fun x => decide (x.2 = (points.getD i (0, 0)).2))).Pairwise pointLt :=
    List.Pairwise.sublist (List.filter_sublist _) hrest_pw
  have hlast : i ≠ points.length - 1 := by
    intro he
    rw [find_smallest_cell, if_pos he] at h
    cases h
  rw [find_smallest_cell_eq m points i hlast] at h
  obtain ⟨L1, bp, L2, hbsplit, hfbp, hbnone⟩ := findSome?_eq_some_split h
  by_cases hcb : edge_connects m (points.getD i (0, 0)) bp = true
  swap
  · rw [if_neg hcb] at hfbp
    cases hfbp
  rw [if_pos hcb] at hfbp
  obtain ⟨R1, rp, R2, hrsplit, hgrp, hrnone⟩ := findSome?_eq_some_split hfbp
  by_cases hcr : edge_connects m (points.getD i (0, 0)) rp = true
  swap
  · rw [if_neg hcr] at hgrp
    cases hgrp
  rw [if_pos hcr] at hgrp
  by_cases hbr : ((m.lookup (rp.1, bp.2)).isSome
      && edge_connects m (rp.1, bp.2) rp && edge_connects m (rp.1, bp.2) bp) = true
  swap
  · rw [if_neg hbr] at hgrp
    cases hgrp
  rw [if_pos hbr] at hgrp
  injection hgrp with hc
  subst hc
  rw [Bool.and_assoc, Bool.and_eq_true] at hbr
  obtain ⟨hbr1, hbr23⟩ := hbr
  rw [Bool.and_eq_true] at hbr23
  obtain ⟨hbr2, hbr3⟩ := hbr23
  have hbp_mem_list : bp ∈ (points.drop (i + 1)).filter
      (fun x => decide (x.1 = (points.getD i (0, 0)).1)) := by
    rw [hbsplit]
    exact List.mem_append.mpr (Or.inr (List.mem_cons_self _ _))
  have hrp_mem_list : rp ∈ (points.drop (i + 1)).filter
      (fun x => decide (x.2 = (points.getD i (0, 0)).2)) := by
    rw [hrsplit]
    exact List.mem_append.mpr (Or.inr (List.mem_cons_self _ _))
  obtain ⟨hbp_rest, hbp1⟩ := List.mem_filter.mp hbp_mem_list
  obtain ⟨hrp_rest, hrp2⟩ := List.mem_filter.mp hrp_mem_list
  rw [decide_eq_true_eq] at hbp1 hrp2
  obtain ⟨hbp_pts, hbp_lt⟩ := (mem_drop_sorted_iff hpw hi).mp hbp_rest
  obtain ⟨hrp_pts, hrp_lt⟩ := (mem_drop_sorted_iff hpw hi).mp hrp_rest
  have hbp_y : (points.getD i (0, 0)).2 < bp.2 := by
    rcases hbp_lt with hlt | ⟨_, hlt⟩
    · rw [hbp1] at hlt
      exact absurd hlt (lt_irrefl _)
    · exact hlt
  have hrp_x : (points.getD i (0, 0)).1 < rp.1 := by
    rcases hrp_lt with hlt | ⟨heq, hlt⟩
    · exact hlt
    · rw [hrp2] at hlt
      exact absurd hlt (lt_irrefl _)
  have hbp_eta : ((points.getD i (0, 0)).1, bp.2) = bp := by
    rw [← hbp1]
  have hrp_eta : (rp.1, (points.getD i (0, 0)).2) = rp := by
    rw [← hrp2]
  have hbr_keys : (rp.1, bp.2) ∈ m.map Prod.fst := by
    rcases Option.isSome_iff_exists.mp hbr1 with ⟨e, he⟩
    exact List.mem_map.mpr ⟨((rp.1, bp.2), e), pair_lookup_mem he, rfl⟩
  have hvalid : C3CellValid m (points.getD i (0, 0)) (rp.1, bp.2) := by
    unfold C3CellValid
    refine ⟨hrp_x, hbp_y, ?_, ?_, hbr_keys, ?_, ?_, ?_, ?_⟩
    · exact hbp_eta ▸ (hmem bp).mp hbp_pts
    · exact hrp_eta ▸ (hmem rp).mp hrp_pts
    · exact hbp_eta.symm ▸ hcb
    · exact hrp_eta.symm ▸ hcr
    · exact hrp_eta.symm ▸ hbr2
    · exact hbp_eta.symm ▸ hbr3
  refine ⟨rfl, rfl, hvalid, ?_⟩
  intro br' hv
  unfold C3CellValid at hv
  obtain ⟨hv_x, hv_y, hv_bmem, hv_rmem, hv_brmem, hv_c1, hv_c2, hv_c3, hv_c4⟩ := hv
  have hbrsome : (m.lookup (br'.1, br'.2)).isSome = true := by
    rcases pair_lookup_isSome_of_mem_keys
      (show br' ∈ m.map Prod.fst from hv_brmem) with ⟨e, he⟩
    rw [show ((br'.1 : ℚ), (br'.2 : ℚ)) = br' from Prod.mk.eta, he]
    rfl
  have hbelow'_mem : ((points.getD i (0, 0)).1, br'.2) ∈ (points.drop (i + 1)).filter
      (fun x => decide (x.1 = (points.getD i (0, 0)).1)) := by
    rw [List.mem_filter]
    refine ⟨?_, by simp⟩
    rw [mem_drop_sorted_iff hpw hi]
    exact ⟨(hmem _).mpr hv_bmem, Or.inr ⟨rfl, hv_y⟩⟩
  have hright'_mem : (br'.1, (points.getD i (0, 0)).2) ∈ (points.drop (i + 1)).filter
      (fun x => decide (x.2 = (points.getD i (0, 0)).2)) := by
    rw [List.mem_filter]
    refine ⟨?_, by simp⟩
    rw [mem_drop_sorted_iff hpw hi]
    exact ⟨(hmem _).mpr hv_rmem, Or.inl hv_x⟩
  rw [hbsplit] at hbelow'_mem
  rcases List.mem_append.mp hbelow'_mem with hin1 | hin23
  · exfalso
    have hnone := hbnone _ hin1
    rw [if_pos hv_c1] at hnone
    have hgnone := findSome?_eq_none_iff.mp hnone (br'.1, (points.getD i (0, 0)).2)
      hright'_mem
    rw [if_pos hv_c2] at hgnone
    dsimp only at hgnone
    rw [Prod.mk.eta] at hgnone
    rw [if_pos (by
      rw [Bool.and_assoc, Bool.and_eq_true, Bool.and_eq_true]
      exact ⟨hbrsome, hv_c3, hv_c4⟩)] at hgnone
    cases hgnone
  rcases List.mem_cons.mp hin23 with heqbp | hin2
  swap
  · left
    have hpw_tail : (bp :: L2).Pairwise pointLt := by
      rw [hbsplit] at hbelow_pw
      exact (List.pairwise_append.mp hbelow_pw).2.1
    have hlt := (List.pairwise_cons.mp hpw_tail).1 _ hin2
    rcases hlt with hlt | ⟨_, hlt⟩
    · rw [show ((points.getD i (0, 0)).1, br'.2).1 = (points.getD i (0, 0)).1 from rfl,
        hbp1] at hlt
      exact absurd hlt (lt_irrefl _)
    · exact hlt
  · have hbp2 : bp.2 = br'.2 := by
      rw [← heqbp]
    right
    refine ⟨hbp2.trans rfl, ?_⟩
    rw [hrsplit] at hright'_mem
    rcases List.mem_append.mp hright'_mem with hin1 | hin23
    · exfalso
      have hnone := hrnone _ hin1
      rw [if_pos hv_c2] at hnone
      dsimp only at hnone
      rw [hbp2, ← heqbp, Prod.mk.eta] at hnone
      rw [if_pos (by
        rw [Bool.and_assoc, Bool.and_eq_true, Bool.and_eq_true]
        exact ⟨hbrsome, hv_c3, hv_c4⟩)] at hnone
      cases hnone
    rcases List.mem_cons.mp hin23 with heqrp | hin2
    · exact le_of_eq (by rw [← heqrp])
    · have hpw_tail : (rp :: R2).Pairwise pointLt := by
        rw [hrsplit] at hright_pw
        exact (List.pairwise_append.mp hright_pw).2.1
      have hlt := (List.pairwise_cons.mp hpw_tail).1 _ hin2
      rcases hlt with hlt | ⟨_, hlt⟩
      · exact le_of_lt hlt
      · exfalso
        rw [show ((br'.1, (points.getD i (0, 0)).2).2) = (points.getD i (0, 0)).2 from rfl,
          hrp2] at hlt
        exact absurd hlt (lt_irrefl _)

theorem find_smallest_cell_some_lt {m : IMap} {points : List (ℚ × ℚ)} {i : ℕ} {c : Bbox}
    (h : find_smallest_cell m points i = some c) : i < points.length := by
  by_contra hge
  push_neg at hge
  rcases ne_or_eq i (points.length - 1) with he | he
  · rw [find_smallest_cell_eq m points i he] at h
    simp only [List.drop_eq_nil_of_le (show points.length ≤ i + 1 by omega),
      List.filter_nil, List.findSome?_nil] at h
    cases h
  · rw [find_smallest_cell, if_pos he] at h
    cases h

/-- C3 (amended): `intersections_to_cells` emits at most one cell per
top-left anchor; every emitted cell is anchored at an intersection point,
its other three corners are intersection points, its four sides are
connected by shared surviving edges, and among all so-connected cells
anchored at the same point it minimises first the bottom coordinate and
then the right coordinate (the scan order), which is not in general the
cell of smallest area. -/
theorem C3_cells_characterised (m : IMap) (hnd : (m.map Prod.fst).Nodup) :
    (intersections_to_cells m).Pairwise (fun c1 c2 => (c1.x0, c1.top) ≠ (c2.x0, c2.top))
    ∧ ∀ c ∈ intersections_to_cells m,
        (c.x0, c.top) ∈ m.map Prod.fst
        ∧ C3CellValid m (c.x0, c.top) (c.x1, c.bottom)
        ∧ ∀ br', C3CellValid m (c.x0, c.top) br' →
            (c.bottom < br'.2 ∨ (c.bottom = br'.2 ∧ c.x1 ≤ br'.1)) := by
  have hpw_le : (sortBy pointLe (m.map Prod.fst)).Pairwise (fun a b => pointLe a b = true) :=
    sortBy_pairwise pointLe_trans pointLe_total (m.map Prod.fst)
  have hnd_pts : (sortBy pointLe (m.map Prod.fst)).Nodup := sortBy_nodup hnd
  have hpw : (sortBy pointLe (m.map Prod.fst)).Pairwise pointLt :=
    (hpw_le.and hnd_pts).imp (fun h => pointLe_ne_lt h.1 h.2)
  have hmem : ∀ x : ℚ × ℚ, x ∈ sortBy pointLe (m.map Prod.fst) ↔ x ∈ m.map Prod.fst :=
    fun x => mem_sortBy
  constructor
  · refine pairwise_filterMap_of_pairwise _ ?_ (List.pairwise_lt_range _)
    intro i j hij b hb b' hb'
    have hi := find_smallest_cell_some_lt hb
    have hj := find_smallest_cell_some_lt hb'
    obtain ⟨hbx, hbt, _, _⟩ := find_smallest_cell_spec hpw hmem hi hb
    obtain ⟨hbx', hbt', _, _⟩ := find_smallest_cell_spec hpw hmem hj hb'
    intro hcontra
    have e1 : ((b.x0 : ℚ), (b.top : ℚ)) = (sortBy pointLe (m.map Prod.fst)).getD i (0, 0) := by
      rw [hbx, hbt, Prod.mk.eta]
    have e2 : ((b'.x0 : ℚ), (b'.top : ℚ)) = (sortBy pointLe (m.map Prod.fst)).getD j (0, 0) := by
      rw [hbx', hbt', Prod.mk.eta]
    have h1 : ((sortBy pointLe (m.map Prod.fst)).getD i (0, 0))
        = ((sortBy pointLe (m.map Prod.fst)).getD j (0, 0)) := by
      rw [← e1, ← e2]
      exact hcontra
    rw [List.getD_eq_getElem _ _ hi, List.getD_eq_getElem _ _ hj] at h1
    exact absurd ((List.Nodup.getElem_inj_iff hnd_pts).mp h1) (Nat.ne_of_lt hij)
  · intro c hc
    rcases List.mem_filterMap.mp hc with ⟨i, _, hfi⟩
    have hi := find_smallest_cell_some_lt hfi
    obtain ⟨hbx, hbt, hvalid, hmin⟩ := find_smallest_cell_spec hpw hmem hi hfi
    have hanchor : ((c.x0 : ℚ), (c.top : ℚ))
        = (sortBy pointLe (m.map Prod.fst)).getD i (0, 0) := by
      rw [hbx, hbt, Prod.mk.eta]
    refine ⟨?_, ?_, ?_⟩
    · rw [hanchor]
      exact (hmem _).mp (getD_mem hi)
    · rw [hanchor]
      exact hvalid
    · intro br' hv
      rw [hanchor] at hv
      exact hmin br' hv

theorem C3_cells_characterised_witness :
    (intersections_to_cells M3).Pairwise
      (fun c1 c2 => (c1.x0, c1.top) ≠ (c2.x0, c2.top)) :=
  (C3_cells_characterised M3 (by decide)).1

/-- At anchor `(0, 0)` of `M3` the scan emits `(0, 0, 100, 1)` (first by
bottom, then by right coordinate), even though `(0, 0, 1, 10)` is a fully
connected anchored cell of ten times smaller area — so the emitted cell is
not the smallest cell anchored at the point. -/
theorem C3_not_smallest_cell :
    intersections_to_cells M3 = [⟨0, 0, 100, 1⟩]
    ∧ C3CellValid M3 (0, 0) (1, 10)
    ∧ qmul (qsub (1 : ℚ) 0) (qsub 10 0) < qmul (qsub 100 0) (qsub 1 0)
    ∧ Bbox.mk 0 0 1 10 ∉ intersections_to_cells M3 := by
  decide

/-! ### `cells_to_tables` (claim C4)

The scan keeps a mutable `available` flag per cell record; a pass walks the
records in order, seeds an empty current table with the first available
cell and absorbs any later available cell sharing a corner with the current
corner set; the `while True` loop repeats passes until all cells are
assigned (break) or a pass adds nothing (close the current table).  The
loop is modelled with explicit fuel (`2 * n + 2` passes always suffice, as
the totality theorem shows); Python's corner *set* is modelled by a list
with membership semantics. -/

def bbox_to_corners (b : Bbox) : List (ℚ × ℚ) :=
  [(b.x0, b.top), (b.x0, b.bottom), (b.x1, b.top), (b.x1, b.bottom)]

def ctPass : List (Bbox × Bool) → List (ℚ × ℚ) → List Bbox → ℕ →
    List (Bbox × Bool) × List (ℚ × ℚ) × List Bbox × ℕ
  | [], corners, current, n => ([], corners, current, n)
  | (b, avail) :: rest, corners, current, n =>
    if avail then
      if current.length = 0 then
        let r := ctPass rest (corners ++ bbox_to_corners b) (current ++ [b]) (n + 1)
        ((b, false) :: r.1, r.2)
      else if (bbox_to_corners b).any (fun c => corners.contains c) then
        let r := ctPass rest (corners ++ bbox_to_corners b) (current ++ [b]) (n + 1)
        ((b, false) :: r.1, r.2)
      else
        let r := ctPass rest corners current n
        ((b, avail) :: r.1, r.2)
    else
      let r := ctPass rest corners current n
      ((b, avail) :: r.1, r.2)

def ctLoop : ℕ → List (Bbox × Bool) → List (List (ℚ × ℚ) × List Bbox) →
    List (ℚ × ℚ) → List Bbox → ℕ → ℕ →
    Option (List (List (ℚ × ℚ) × List Bbox) × List (ℚ × ℚ) × List Bbox)
  | 0, _, _, _, _, _, _ => none
  | fuel + 1, cells, tables, corners, current, n_assigned, n_cells =>
    match ctPass cells corners current n_assigned with
    | (cells', corners', current', n') =>
      if n' = n_cells then some (tables, corners', current')
      else if current'.length = current.length then
        ctLoop fuel cells' (tables ++ [(corners', current')]) [] [] n' n_cells
      else ctLoop fuel cells' tables corners' current' n' n_cells

/-- Python `min` over the `(Y, X)`-reversed corners (first minimum kept). -/
def pointLtB (a b : ℚ × ℚ) : Bool :=
  decide (a.1 < b.1) || (decide (a.1 = b.1) && decide (a.2 < b.2))

def minCornerKey (corners : List (ℚ × ℚ)) : ℚ × ℚ :=
  match corners.map (fun c => (c.2, c.1)) with
  | [] => (0, 0)
  | k :: rest => rest.foldl (fun mn x => if pointLtB x mn then x else mn) k

def cells_to_tables (cells : List Bbox) : Option (List (List Bbox)) :=
  match ctLoop (2 * cells.length + 2) (cells.map (fun b => (b, true))) [] [] [] 0
      cells.length with
  | none => none
  | some (tables, corners, current) =>
    let tables := if current.length ≠ 0 then tables ++ [(corners, current)] else tables
    let sorted := sortBy (fun t1 t2 => pointLe (minCornerKey t1.1) (minCornerKey t2.1)) tables
    some ((sorted.filter (fun t => decide (1 < t.2.length))).map (fun t => t.2))

/-- Two cells share one of their four corners. -/
def sharesCorner (a b : Bbox) : Prop :=
  ∃ c ∈ bbox_to_corners a, c ∈ bbox_to_corners b

instance (a b : Bbox) : Decidable (sharesCorner a b) := by
  unfold sharesCorner
  infer_instance

/-- Connected by a chain of corner-sharing cells of the list. -/
def cellsConnected (cells : List Bbox) (a b : Bbox) : Prop :=
  Relation.ReflTransGen (fun x y => x ∈ cells ∧ y ∈ cells ∧ sharesCorner x y) a b

/-- Three diagonally chained cells end up in one table, yet the first and
the last share no corner: membership in a common table is the transitive
closure of corner sharing, not corner sharing itself. -/
theorem C4_shared_table_without_shared_corner :
    cells_to_tables [⟨0, 0, 1, 1⟩, ⟨1, 1, 2, 2⟩, ⟨2, 2, 3, 3⟩]
      = some [[⟨0, 0, 1, 1⟩, ⟨1, 1, 2, 2⟩, ⟨2, 2, 3, 3⟩]]
    ∧ ¬ sharesCorner ⟨0, 0, 1, 1⟩ ⟨2, 2, 3, 3⟩ := by
  decide

/-- The bboxes of the still-available cell records. -/
def availOf (cl : List (Bbox × Bool)) : List Bbox :=
  (cl.filter (fun p => p.2)).map Prod.fst

/-- Every two members of the list are linked by a corner-sharing chain
inside the list. -/
def ConnClass (s : List Bbox) : Prop :=
  ∀ a ∈ s, ∀ b ∈ s,
    Relation.ReflTransGen (fun x y => x ∈ s ∧ y ∈ s ∧ sharesCorner x y) a b

theorem sharesCorner_symm {a b : Bbox} (h : sharesCorner a b) : sharesCorner b a := by
  rcases h with ⟨c, hc1, hc2⟩
  exact ⟨c, hc2, hc1⟩

theorem sharesCorner_self (a : Bbox) : sharesCorner a a :=
  ⟨(a.x0, a.top), by simp [bbox_to_corners], by simp [bbox_to_corners]⟩

theorem rtg_symm {α : Type} {r : α → α → Prop} (hr : ∀ x y, r x y → r y x) {a b : α}
    (h : Relation.ReflTransGen r a b) : Relation.ReflTransGen r b a := by
  induction h with
  | refl => exact Relation.ReflTransGen.refl
  | tail _ hstep ih => exact Relation.ReflTransGen.head (hr _ _ hstep) ih

theorem cellsConnected_symm {cells : List Bbox} {a b : Bbox}
    (h : cellsConnected cells a b) : cellsConnected cells b a :=
  rtg_symm (fun _ _ hx => ⟨hx.2.1, hx.1, sharesCorner_symm hx.2.2⟩) h

theorem connClass_nil : ConnClass [] := by
  intro a ha
  cases ha

theorem connClass_mono {s s' : List Bbox} (hsub : ∀ x ∈ s, x ∈ s') {a b : Bbox}
    (h : Relation.ReflTransGen (fun x y => x ∈ s ∧ y ∈ s ∧ sharesCorner x y) a b) :
    Relation.ReflTransGen (fun x y => x ∈ s' ∧ y ∈ s' ∧ sharesCorner x y) a b :=
  Relation.ReflTransGen.mono (fun x y hxy => ⟨hsub x hxy.1, hsub y hxy.2.1, hxy.2.2⟩) h

theorem connClass_extend {s : List Bbox} (h : ConnClass s) {a₀ b : Bbox} (ha₀ : a₀ ∈ s)
    (hshare : sharesCorner a₀ b) : ConnClass (s ++ [b]) := by
  have hsub : ∀ x ∈ s, x ∈ s ++ [b] := fun x hx => List.mem_append.mpr (Or.inl hx)
  have hb : b ∈ s ++ [b] := List.mem_append.mpr (Or.inr (List.mem_singleton.mpr rfl))
  have hstep : Relation.ReflTransGen
      (fun x y => x ∈ s ++ [b] ∧ y ∈ s ++ [b] ∧ sharesCorner x y) a₀ b :=
    Relation.ReflTransGen.single ⟨hsub a₀ ha₀, hb, hshare⟩
  intro x hx y hy
  rcases List.mem_append.mp hx with hx' | hx'
  · rcases List.mem_append.mp hy with hy' | hy'
    · exact connClass_mono hsub (h x hx' y hy')
    · rw [List.mem_singleton.mp hy']
      exact (connClass_mono hsub (h x hx' a₀ ha₀)).trans hstep
  · rw [List.mem_singleton.mp hx']
    rcases List.mem_append.mp hy with hy' | hy'
    · exact (rtg_symm (fun p q hpq => ⟨hpq.2.1, hpq.1, sharesCorner_symm hpq.2.2⟩)
        hstep).trans (connClass_mono hsub (h a₀ ha₀ y hy'))
    · rw [List.mem_singleton.mp hy']

theorem connClass_seed (s : List Bbox) (hs : s = []) (b : Bbox) : ConnClass (s ++ [b]) := by
  subst hs
  intro x hx y hy
  rw [List.nil_append, List.mem_singleton] at hx hy
  rw [hx, hy]

theorem any_contains_iff_shares {b : Bbox} {s : List Bbox} :
    ((bbox_to_corners b).any
      (fun c => (s.flatMap bbox_to_corners).contains c) = true)
      ↔ ∃ a ∈ s, sharesCorner a b := by
  rw [List.any_eq_true]
  constructor
  · rintro ⟨c, hcb, hcs⟩
    rcases List.mem_flatMap.mp (by simpa using hcs) with ⟨a, ha, hca⟩
    exact ⟨a, ha, c, hca, hcb⟩
  · rintro ⟨a, ha, c, hca, hcb⟩
    exact ⟨c, hcb, by simpa using List.mem_flatMap.mpr ⟨a, ha, hca⟩⟩

theorem availOf_cons_true (b : Bbox) (cl : List (Bbox × Bool)) :
    availOf ((b, true) :: cl) = b :: availOf cl := by
  simp [availOf]

theorem availOf_cons_false (b : Bbox) (cl : List (Bbox × Bool)) :
    availOf ((b, false) :: cl) = availOf cl := by
  simp [availOf]

theorem ctPass_spec :
    ∀ (cl : List (Bbox × Bool)) (corners : List (ℚ × ℚ)) (current : List Bbox) (n : ℕ),
    ∃ added : List Bbox,
      (ctPass cl corners current n).1.map Prod.fst = cl.map Prod.fst
      ∧ (ctPass cl corners current n).2.2.1 = current ++ added
      ∧ (ctPass cl corners current n).2.1 = corners ++ added.flatMap bbox_to_corners
      ∧ (ctPass cl corners current n).2.2.2 = n + added.length
      ∧ (availOf cl).Perm (added ++ availOf (ctPass cl corners current n).1)
      ∧ (corners = current.flatMap bbox_to_corners → ConnClass current →
          ConnClass (current ++ added))
      ∧ (added = [] → (ctPass cl corners current n).1 = cl ∧
          ∀ z ∈ availOf cl, current ≠ [] ∧
            ((bbox_to_corners z).any (fun c => corners.contains c)) = false) := by
  intro cl
  induction cl with
  | nil =>
    intro corners current n
    refine ⟨[], rfl, by simp [ctPass], by simp [ctPass], by simp [ctPass],
      by simp [ctPass, availOf], ?_, ?_⟩
    · intro _ hcc
      simpa using hcc
    · intro _
      refine ⟨rfl, ?_⟩
      intro z hz
      simp [availOf] at hz
  | cons hd rest ih =>
    obtain ⟨b, av⟩ := hd
    intro corners current n
    cases av with
    | false =>
      have hps : ctPass ((b, false) :: rest) corners current n
          = ((b, false) :: (ctPass rest corners current n).1,
             (ctPass rest corners current n).2) := rfl
      rw [hps]
      obtain ⟨added, ih1, ih2, ih3, ih4, ih5, ih6, ih7⟩ := ih corners current n
      refine ⟨added, ?_, ih2, ih3, ih4, ?_, ih6, ?_⟩
      · rw [List.map_cons, List.map_cons, ih1]
      · rw [availOf_cons_false, availOf_cons_false]
        exact ih5
      · intro hadd
        obtain ⟨hcl, hz⟩ := ih7 hadd
        refine ⟨by rw [hcl], ?_⟩
        rw [availOf_cons_false]
        exact hz
    | true =>
      by_cases hcur : current.length = 0
      · have hps : ctPass ((b, true) :: rest) corners current n
            = ((b, false) :: (ctPass rest (corners ++ bbox_to_corners b)
                (current ++ [b]) (n + 1)).1,
               (ctPass rest (corners ++ bbox_to_corners b)
                (current ++ [b]) (n + 1)).2) := by
          rw [ctPass, if_pos rfl, if_pos hcur]
        rw [hps]
        obtain ⟨added, ih1, ih2, ih3, ih4, ih5, ih6, ih7⟩ :=
          ih (corners ++ bbox_to_corners b) (current ++ [b]) (n + 1)
        refine ⟨b :: added, ?_, ?_, ?_, ?_, ?_, ?_, ?_⟩
        · rw [List.map_cons, List.map_cons, ih1]
        · rw [ih2, List.append_assoc, List.singleton_append]
        · rw [ih3, List.flatMap_cons, List.append_assoc]
        · rw [ih4, List.length_cons]
          omega
        · rw [availOf_cons_true, availOf_cons_false]
          exact (ih5.cons b)
        · intro hcd hcc
          have hconn := ih6 (by rw [hcd, List.flatMap_append, List.flatMap_cons,
              List.flatMap_nil, List.append_nil])
            (connClass_seed current (List.length_eq_zero.mp hcur) b)
          rw [List.append_assoc, List.singleton_append] at hconn
          exact hconn
        · intro hadd
          cases hadd
      · by_cases hany : ((bbox_to_corners b).any (fun c => corners.contains c)) = true
        · have hps : ctPass ((b, true) :: rest) corners current n
              = ((b, false) :: (ctPass rest (corners ++ bbox_to_corners b)
                  (current ++ [b]) (n + 1)).1,
                 (ctPass rest (corners ++ bbox_to_corners b)
                  (current ++ [b]) (n + 1)).2) := by
            rw [ctPass, if_pos rfl, if_neg hcur, if_pos hany]
          rw [hps]
          obtain ⟨added, ih1, ih2, ih3, ih4, ih5, ih6, ih7⟩ :=
            ih (corners ++ bbox_to_corners b) (current ++ [b]) (n + 1)
          refine ⟨b :: added, ?_, ?_, ?_, ?_, ?_, ?_, ?_⟩
          · rw [List.map_cons, List.map_cons, ih1]
          · rw [ih2, List.append_assoc, List.singleton_append]
          · rw [ih3, List.flatMap_cons, List.append_assoc]
          · rw [ih4, List.length_cons]
            omega
          · rw [availOf_cons_true, availOf_cons_false]
            exact (ih5.cons b)
          · intro hcd hcc
            rw [hcd] at hany
            rcases any_contains_iff_shares.mp hany with ⟨a, ha, hshare⟩
            have hconn := ih6 (by rw [hcd, List.flatMap_append, List.flatMap_cons,
                List.flatMap_nil, List.append_nil])
              (connClass_extend hcc ha hshare)
            rw [List.append_assoc, List.singleton_append] at hconn
            exact hconn
          · intro hadd
            cases hadd
        · have hps : ctPass ((b, true) :: rest) corners current n
              = ((b, true) :: (ctPass rest corners current n).1,
                 (ctPass rest corners current n).2) := by
            rw [ctPass, if_pos rfl, if_neg hcur, if_neg hany]
          rw [hps]
          obtain ⟨added, ih1, ih2, ih3, ih4, ih5, ih6, ih7⟩ := ih corners current n
          refine ⟨added, ?_, ih2, ih3, ih4, ?_, ih6, ?_⟩
          · rw [List.map_cons, List.map_cons, ih1]
          · rw [availOf_cons_true, availOf_cons_true]
            exact (ih5.cons b).trans List.perm_middle.symm
          · intro hadd
            obtain ⟨hcl, hz⟩ := ih7 hadd
            refine ⟨by rw [hcl], ?_⟩
            rw [availOf_cons_true]
            intro z hz'
            rcases List.mem_cons.mp hz' with hz' | hz'
            · exact ⟨fun hc => hcur (by rw [hc]; rfl),
                by rw [hz']; exact Bool.eq_false_iff.mpr hany⟩
            · exact hz z hz'


theorem ctLoop_spec (cells0 : List Bbox) :
    ∀ (fuel : ℕ) (cl : List (Bbox × Bool)) (tables : List (List (ℚ × ℚ) × List Bbox))
      (corners : List (ℚ × ℚ)) (current : List Bbox) (n : ℕ),
    cl.map Prod.fst = cells0 →
    corners = current.flatMap bbox_to_corners →
    ConnClass current →
    n + (availOf cl).length = cells0.length →
    cells0.Perm (tables.flatMap (fun t => t.2) ++ current ++ availOf cl) →
    (∀ t ∈ tables, t.2 ≠ [] ∧ ConnClass t.2) →
    (∀ t ∈ tables, ∀ a ∈ t.2, ∀ z, z ∈ current ∨ z ∈ availOf cl → ¬ sharesCorner a z) →
    tables.Pairwise (fun t t' => ∀ a ∈ t.2, ∀ b ∈ t'.2, ¬ sharesCorner a b) →
    2 * (availOf cl).length + (if current = [] then 1 else 2) ≤ fuel →
    ∃ tablesF cornersF currentF,
      ctLoop fuel cl tables corners current n cells0.length
        = some (tablesF, cornersF, currentF)
      ∧ ConnClass currentF
      ∧ cells0.Perm (tablesF.flatMap (fun t => t.2) ++ currentF)
      ∧ (∀ t ∈ tablesF, t.2 ≠ [] ∧ ConnClass t.2)
      ∧ (∀ t ∈ tablesF, ∀ a ∈ t.2, ∀ z ∈ currentF, ¬ sharesCorner a z)
      ∧ tablesF.Pairwise (fun t t' => ∀ a ∈ t.2, ∀ b ∈ t'.2, ¬ sharesCorner a b) := by
  intro fuel
  induction fuel with
  | zero =>
    intro cl tables corners current n _ _ _ _ _ _ _ _ hfuel
    exfalso
    by_cases hce : current = []
    · rw [if_pos hce] at hfuel
      omega
    · rw [if_neg hce] at hfuel
      omega
  | succ fuel ihf =>
    intro cl tables corners current n hmap hcd hcc hcount hperm htab hsep hpw hfuel
    rcases hp : ctPass cl corners current n with ⟨cl₁, c₁, cur₁, n₁⟩
    obtain ⟨added, s1, s2, s3, s4, s5, s6, s7⟩ := ctPass_spec cl corners current n
    rw [hp] at s1 s2 s3 s4 s5 s7
    dsimp only at s1 s2 s3 s4 s5 s7
    have hloop : ctLoop (fuel + 1) cl tables corners current n cells0.length
        = (if n₁ = cells0.length then some (tables, c₁, cur₁)
           else if cur₁.length = current.length then
             ctLoop fuel cl₁ (tables ++ [(c₁, cur₁)]) [] [] n₁ cells0.length
           else ctLoop fuel cl₁ tables c₁ cur₁ n₁ cells0.length) := by
      rw [ctLoop, hp]
    have hlen_avail : (availOf cl).length = added.length + (availOf cl₁).length := by
      rw [s5.length_eq, List.length_append]
    by_cases hbreak : n₁ = cells0.length
    · refine ⟨tables, c₁, cur₁, ?_, ?_, ?_, htab, ?_, hpw⟩
      · rw [hloop, if_pos hbreak]
      · rw [s2]
        exact s6 hcd hcc
      · have havail1 : availOf cl₁ = [] := by
          apply List.eq_nil_of_length_eq_zero
          omega
        have hperm2 : (availOf cl).Perm added := by
          rw [havail1, List.append_nil] at s5
          exact s5
        have step1 : cells0.Perm
            ((tables.flatMap (fun t => t.2) ++ current) ++ added) :=
          hperm.trans (List.Perm.append_left _ hperm2)
        rw [s2, ← List.append_assoc]
        exact step1
      · intro t ht a ha z hz
        rw [s2] at hz
        rcases List.mem_append.mp hz with hz | hz
        · exact hsep t ht a ha z (Or.inl hz)
        · exact hsep t ht a ha z
            (Or.inr (s5.mem_iff.mpr (List.mem_append.mpr (Or.inl hz))))
    · by_cases hng : cur₁.length = current.length
      · have hadded : added = [] := by
          apply List.eq_nil_of_length_eq_zero
          have : cur₁.length = current.length + added.length := by
            rw [s2, List.length_append]
          omega
        subst hadded
        rw [List.append_nil] at s2
        obtain ⟨hcl1, hz⟩ := s7 rfl
        have hn₁ : n₁ = n := by
          rw [s4]
          simp
        have hne_avail : availOf cl ≠ [] := by
          intro hav
          rw [hav] at hcount
          simp only [List.length_nil, Nat.add_zero] at hcount
          exact hbreak (by omega)
        have hcur_ne : current ≠ [] := by
          rcases List.exists_mem_of_ne_nil _ hne_avail with ⟨z, hzmem⟩
          exact (hz z hzmem).1
        have hnewtab : ∀ t ∈ tables ++ [(c₁, cur₁)], t.2 ≠ [] ∧ ConnClass t.2 := by
          intro t ht
          rcases List.mem_append.mp ht with ht | ht
          · exact htab t ht
          · rw [List.mem_singleton.mp ht]
            refine ⟨?_, ?_⟩
            · rw [s2]
              exact hcur_ne
            · show ConnClass cur₁
              rw [s2]
              exact hcc
        have hnewsep : ∀ t ∈ tables ++ [(c₁, cur₁)], ∀ a ∈ t.2, ∀ z,
            z ∈ ([] : List Bbox) ∨ z ∈ availOf cl₁ → ¬ sharesCorner a z := by
          intro t ht a ha z hzor
          rcases hzor with hz0 | hzav
          · cases hz0
          rw [hcl1] at hzav
          rcases List.mem_append.mp ht with ht | ht
          · exact hsep t ht a ha z (Or.inr hzav)
          · rw [List.mem_singleton.mp ht] at ha
            have ha' : a ∈ current := by
              rw [← s2]
              exact ha
            intro hshare
            have hany := (hz z hzav).2
            rw [hcd] at hany
            have hex : ((bbox_to_corners z).any
                (fun c => (current.flatMap bbox_to_corners).contains c)) = true :=
              any_contains_iff_shares.mpr ⟨a, ha', hshare⟩
            rw [hany] at hex
            exact Bool.false_ne_true hex
        have hnewpw : (tables ++ [(c₁, cur₁)]).Pairwise
            (fun t t' => ∀ a ∈ t.2, ∀ b ∈ t'.2, ¬ sharesCorner a b) := by
          rw [List.pairwise_append]
          refine ⟨hpw, List.pairwise_singleton _ _, ?_⟩
          intro t ht t' ht'
          rw [List.mem_singleton.mp ht']
          intro a ha b hb
          have hb' : b ∈ current := by
            rw [← s2]
            exact hb
          exact hsep t ht a ha b (Or.inl hb')
        have hperm1 : cells0.Perm
            ((tables ++ [(c₁, cur₁)]).flatMap (fun t => t.2) ++ [] ++ availOf cl₁) := by
          rw [hcl1]
          simp only [List.flatMap_append, List.flatMap_cons, List.flatMap_nil,
            List.append_nil]
          rw [s2]
          simpa [List.append_assoc] using hperm
        have hfuel1 : 2 * (availOf cl₁).length
            + (if ([] : List Bbox) = [] then 1 else 2) ≤ fuel := by
          rw [if_pos rfl]
          rw [if_neg hcur_ne] at hfuel
          rw [hcl1]
          omega
        obtain ⟨tF, cF, curF, hloopF, c2, c3, c4, c5, c6⟩ :=
          ihf cl₁ (tables ++ [(c₁, cur₁)]) [] [] n₁
            (by rw [hcl1]; exact hmap) (by simp) connClass_nil
            (by rw [hcl1, hn₁]; exact hcount)
            hperm1
            hnewtab hnewsep hnewpw hfuel1
        refine ⟨tF, cF, curF, ?_, c2, c3, c4, c5, c6⟩
        rw [hloop, if_neg hbreak, if_pos hng]
        exact hloopF
      · have hadded_ne : added ≠ [] := by
          intro h0
          rw [h0, List.append_nil] at s2
          exact hng (by rw [s2])
        have h1le : 1 ≤ added.length := by
          rcases List.exists_mem_of_ne_nil _ hadded_ne with ⟨x, hx⟩
          exact List.length_pos.mpr hadded_ne
        have hite : 1 ≤ (if current = [] then 1 else 2) := by
          by_cases hce : current = []
          · rw [if_pos hce]
          · rw [if_neg hce]
            omega
        have hfuel' : 2 * (availOf cl).length + 1 ≤ fuel + 1 :=
          le_trans (Nat.add_le_add_left hite _) hfuel
        have hfuel1 : 2 * (availOf cl₁).length
            + (if cur₁ = [] then 1 else 2) ≤ fuel := by
          have h2 : (if cur₁ = [] then 1 else 2) ≤ 2 := by
            by_cases hce : cur₁ = []
            · rw [if_pos hce]
              omega
            · rw [if_neg hce]
          omega
        have hsep1 : ∀ t ∈ tables, ∀ a ∈ t.2, ∀ z,
            z ∈ cur₁ ∨ z ∈ availOf cl₁ → ¬ sharesCorner a z := by
          intro t ht a ha z hzor
          rcases hzor with hz | hz
          · rw [s2] at hz
            rcases List.mem_append.mp hz with hz | hz
            · exact hsep t ht a ha z (Or.inl hz)
            · exact hsep t ht a ha z
                (Or.inr (s5.mem_iff.mpr (List.mem_append.mpr (Or.inl hz))))
          · exact hsep t ht a ha z
              (Or.inr (s5.mem_iff.mpr (List.mem_append.mpr (Or.inr hz))))
        have hperm1 : cells0.Perm
            (tables.flatMap (fun t => t.2) ++ cur₁ ++ availOf cl₁) := by
          have step1 : cells0.Perm
              ((tables.flatMap (fun t => t.2) ++ current) ++ (added ++ availOf cl₁)) :=
            hperm.trans (List.Perm.append_left _ s5)
          rw [s2]
          simpa [List.append_assoc] using step1
        obtain ⟨tF, cF, curF, hloopF, c2, c3, c4, c5, c6⟩ :=
          ihf cl₁ tables c₁ cur₁ n₁
            (s1.trans hmap)
            (by rw [s3, s2, hcd, List.flatMap_append])
            (by rw [s2]; exact s6 hcd hcc)
            (by omega)
            hperm1 htab hsep1 hpw hfuel1
        refine ⟨tF, cF, curF, ?_, c2, c3, c4, c5, c6⟩
        rw [hloop, if_neg hbreak, if_neg hng]
        exact hloopF

theorem mem_of_connected {cells0 : List Bbox} {groups : List (List Bbox)}
    (hcover : ∀ x ∈ cells0, ∃ g ∈ groups, x ∈ g)
    (hsep : groups.Pairwise (fun g g' => ∀ a ∈ g, ∀ b ∈ g', ¬ sharesCorner a b))
    {g : List Bbox} (hg : g ∈ groups) {a b : Bbox} (ha : a ∈ g)
    (hconn : cellsConnected cells0 a b) : b ∈ g := by
  have hsym : Symmetric (fun g g' : List Bbox => ∀ a ∈ g, ∀ b ∈ g', ¬ sharesCorner a b) := by
    intro u v huv p hp q hq hs
    exact huv q hq p hp (sharesCorner_symm hs)
  induction hconn with
  | refl => exact ha
  | tail _ hstep ih =>
    obtain ⟨hx0, hy0, hshare⟩ := hstep
    rcases hcover _ hy0 with ⟨g₂, hg₂, hyg₂⟩
    by_cases hgg : g = g₂
    · rw [hgg]
      exact hyg₂
    · exact absurd hshare (List.Pairwise.forall hsym hsep hg hg₂ hgg _ ih _ hyg₂)

theorem exists_other_of_one_lt_length {t : List Bbox} (hnd : t.Nodup)
    (hlen : 1 < t.length) {a : Bbox} (ha : a ∈ t) : ∃ b ∈ t, b ≠ a := by
  match t, hnd, hlen, ha with
  | x :: y :: rest, hnd, _, ha =>
    by_cases hax : a = x
    · refine ⟨y, List.mem_cons_of_mem _ (List.mem_cons_self _ _), ?_⟩
      rw [List.nodup_cons] at hnd
      intro hya
      exact hnd.1 (by rw [hya, hax]; exact List.mem_cons_self _ _)
    · exact ⟨x, List.mem_cons_self _ _, fun hxa => hax hxa.symm⟩

theorem one_lt_length_of_two_mem {t : List Bbox} {a b : Bbox} (ha : a ∈ t) (hb : b ∈ t)
    (hne : b ≠ a) : 1 < t.length := by
  match t, ha, hb with
  | [x], ha, hb =>
    exfalso
    rw [List.mem_singleton.mp ha] at hne
    rw [List.mem_singleton.mp hb] at hne
    exact hne rfl
  | x :: y :: rest, _, _ => simp

theorem availOf_init (cells : List Bbox) :
    availOf (cells.map (fun b => (b, true))) = cells := by
  induction cells with
  | nil => rfl
  | cons b rest ih =>
    rw [List.map_cons, availOf_cons_true, ih]

/-- C4 (amended): `cells_to_tables` terminates within its pass bound and
groups the cells into the connected components of the corner-sharing
relation's transitive closure (not of corner sharing itself): all cells of
one output table are chain-connected, cells of different output tables are
not, and a cell appears in some output table exactly when it is
chain-connected to a distinct cell (one-cell components are dropped). -/
theorem C4_tables_are_corner_chain_components (cells : List Bbox) (hnd : cells.Nodup) :
    ∃ out, cells_to_tables cells = some out
      ∧ (∀ t ∈ out, ∀ a ∈ t, a ∈ cells)
      ∧ (∀ t ∈ out, ∀ a ∈ t, ∀ b ∈ t, cellsConnected cells a b)
      ∧ out.Pairwise (fun t t' => ∀ a ∈ t, ∀ b ∈ t', ¬ cellsConnected cells a b)
      ∧ (∀ a ∈ cells, ((∃ t ∈ out, a ∈ t)
          ↔ ∃ b ∈ cells, b ≠ a ∧ cellsConnected cells a b)) := by
  obtain ⟨tF, cF, curF, hloopF, hconnF, hpermF, htabF, hsepF, hpwF⟩ :=
    ctLoop_spec cells (2 * cells.length + 2) (cells.map (fun b => (b, true)))
      [] [] [] 0
      (by rw [List.map_map, show (Prod.fst ∘ fun b : Bbox => (b, true)) = id from rfl,
        List.map_id]) rfl connClass_nil
      (by rw [availOf_init]; simp)
      (by rw [availOf_init]; simp)
      (by intro t ht; cases ht)
      (by intro t ht; cases ht)
      List.Pairwise.nil
      (by rw [availOf_init, if_pos rfl]; omega)
  obtain ⟨tabs, htabs_eq, htabs_perm, htabs_conn, htabs_pw⟩ :
      ∃ tabs : List (List (ℚ × ℚ) × List Bbox),
        cells_to_tables cells
          = some (((sortBy
              (fun t1 t2 => pointLe (minCornerKey t1.1) (minCornerKey t2.1)) tabs).filter
                (fun t => decide (1 < t.2.length))).map (fun t => t.2))
        ∧ cells.Perm (tabs.flatMap (fun t => t.2))
        ∧ (∀ t ∈ tabs, ConnClass t.2)
        ∧ tabs.Pairwise (fun t t' => ∀ a ∈ t.2, ∀ b ∈ t'.2, ¬ sharesCorner a b) := by
    by_cases hcf : curF.length ≠ 0
    · refine ⟨tF ++ [(cF, curF)], ?_, ?_, ?_, ?_⟩
      · rw [cells_to_tables, hloopF]
        dsimp only
        rw [if_pos hcf]
      · refine hpermF.trans ?_
        simp [List.flatMap_append]
      · intro t ht
        rcases List.mem_append.mp ht with ht | ht
        · exact (htabF t ht).2
        · rw [List.mem_singleton.mp ht]
          exact hconnF
      · rw [List.pairwise_append]
        refine ⟨hpwF, List.pairwise_singleton _ _, ?_⟩
        intro t ht t' ht'
        rw [List.mem_singleton.mp ht']
        intro a ha b hb
        exact hsepF t ht a ha b hb
    · push_neg at hcf
      have hcur_nil : curF = [] := List.eq_nil_of_length_eq_zero hcf
      refine ⟨tF, ?_, ?_, ?_, hpwF⟩
      · rw [cells_to_tables, hloopF]
        dsimp only
        rw [if_neg (by rw [hcf]; simp)]
      · refine hpermF.trans ?_
        rw [hcur_nil, List.append_nil]
      · intro t ht
        exact (htabF t ht).2
  refine ⟨_, htabs_eq, ?_⟩
  have hmem_out : ∀ t ∈ ((sortBy
      (fun t1 t2 => pointLe (minCornerKey t1.1) (minCornerKey t2.1)) tabs).filter
        (fun t => decide (1 < t.2.length))).map (fun t => t.2),
      ∃ ts ∈ tabs, ts.2 = t ∧ 1 < t.length := by
    intro t ht
    rcases List.mem_map.mp ht with ⟨ts, htsf, rfl⟩
    have h1 : ts ∈ sortBy
        (fun t1 t2 => pointLe (minCornerKey t1.1) (minCornerKey t2.1)) tabs :=
      List.mem_of_mem_filter htsf
    have h2 := List.of_mem_filter htsf
    exact ⟨ts, mem_sortBy.mp h1, rfl, of_decide_eq_true h2⟩
  have hcover : ∀ x ∈ cells, ∃ g ∈ tabs.map (fun t => t.2), x ∈ g := by
    intro x hx
    rcases List.mem_flatMap.mp (htabs_perm.mem_iff.mp hx) with ⟨ts, hts, hxts⟩
    exact ⟨ts.2, List.mem_map.mpr ⟨ts, hts, rfl⟩, hxts⟩
  have hsep_gs : (tabs.map (fun t => t.2)).Pairwise
      (fun g g' => ∀ a ∈ g, ∀ b ∈ g', ¬ sharesCorner a b) :=
    List.pairwise_map.mpr htabs_pw
  have hfm_nd : (tabs.flatMap (fun t => t.2)).Nodup := htabs_perm.nodup_iff.mp hnd
  have hmem_cells : ∀ t ∈ ((sortBy
      (fun t1 t2 => pointLe (minCornerKey t1.1) (minCornerKey t2.1)) tabs).filter
        (fun t => decide (1 < t.2.length))).map (fun t => t.2),
      ∀ a ∈ t, a ∈ cells := by
    intro t ht a ha
    rcases hmem_out t ht with ⟨ts, hts, rfl, _⟩
    exact htabs_perm.mem_iff.mpr (List.mem_flatMap.mpr ⟨ts, hts, ha⟩)
  have hconn_out : ∀ t ∈ ((sortBy
      (fun t1 t2 => pointLe (minCornerKey t1.1) (minCornerKey t2.1)) tabs).filter
        (fun t => decide (1 < t.2.length))).map (fun t => t.2),
      ∀ a ∈ t, ∀ b ∈ t, cellsConnected cells a b := by
    intro t ht a ha b hb
    rcases hmem_out t ht with ⟨ts, hts, hts2, _⟩
    have hsub : ∀ x ∈ t, x ∈ cells := hmem_cells t ht
    rw [← hts2] at ha hb
    have := htabs_conn ts hts a ha b hb
    exact connClass_mono (by rw [hts2]; exact hsub) this
  refine ⟨hmem_cells, hconn_out, ?_, ?_⟩
  · have hsym : Symmetric (fun g g' : List Bbox =>
        ∀ a ∈ g, ∀ b ∈ g', ¬ sharesCorner a b) := by
      intro u v huv p hp q hq hs
      exact huv q hq p hp (sharesCorner_symm hs)
    have h1 : (sortBy (fun t1 t2 => pointLe (minCornerKey t1.1) (minCornerKey t2.1))
        tabs).Pairwise (fun t t' => ∀ a ∈ t.2, ∀ b ∈ t'.2, ¬ sharesCorner a b) := by
      refine ((sortBy_perm _ tabs).pairwise_iff ?_).mpr htabs_pw
      intro u v huv p hp q hq hs
      exact huv q hq p hp (sharesCorner_symm hs)
    have h2 : ((sortBy (fun t1 t2 => pointLe (minCornerKey t1.1) (minCornerKey t2.1))
        tabs).filter (fun t => decide (1 < t.2.length))).Pairwise
        (fun t t' => ∀ a ∈ t.2, ∀ b ∈ t'.2, ¬ sharesCorner a b) :=
      List.Pairwise.sublist (List.filter_sublist _) h1
    have h3 : (((sortBy (fun t1 t2 => pointLe (minCornerKey t1.1) (minCornerKey t2.1))
        tabs).filter (fun t => decide (1 < t.2.length))).map (fun t => t.2)).Pairwise
        (fun g g' => ∀ a ∈ g, ∀ b ∈ g', ¬ sharesCorner a b) :=
      List.pairwise_map.mpr h2
    refine h3.imp_of_mem ?_
    intro g g' hg hg' hRsep a ha b hb hcon
    have hg_gs : g ∈ tabs.map (fun t => t.2) := by
      rcases hmem_out g hg with ⟨ts, hts, hts2, _⟩
      exact List.mem_map.mpr ⟨ts, hts, hts2⟩
    have hbg : b ∈ g := mem_of_connected hcover hsep_gs hg_gs ha hcon
    exact hRsep b hbg b hb (sharesCorner_self b)
  · intro a hac
    constructor
    · rintro ⟨t, ht, hat⟩
      rcases hmem_out t ht with ⟨ts, hts, hts2, hlen⟩
      have htnd : t.Nodup := by
        rcases List.append_of_mem hts with ⟨s, r, hsr⟩
        rw [hsr, List.flatMap_append, List.flatMap_cons] at hfm_nd
        rw [← hts2]
        exact (hfm_nd.of_append_right).of_append_left
      rcases exists_other_of_one_lt_length htnd hlen hat with ⟨b, hbt, hbne⟩
      exact ⟨b, hmem_cells t ht b hbt, hbne, hconn_out t ht a hat b hbt⟩
    · rintro ⟨b, _, hbne, hcon⟩
      rcases hcover a hac with ⟨g, hg_gs, hag⟩
      have hbg : b ∈ g := mem_of_connected hcover hsep_gs hg_gs hag hcon
      have hlen : 1 < g.length := one_lt_length_of_two_mem hag hbg hbne
      rcases List.mem_map.mp hg_gs with ⟨ts, hts_tabs, hts2⟩
      have hts_sorted : ts ∈ sortBy
          (fun t1 t2 => pointLe (minCornerKey t1.1) (minCornerKey t2.1)) tabs :=
        mem_sortBy.mpr hts_tabs
      have hts_f : ts ∈ (sortBy
          (fun t1 t2 => pointLe (minCornerKey t1.1) (minCornerKey t2.1)) tabs).filter
            (fun t => decide (1 < t.2.length)) :=
        List.mem_filter.mpr ⟨hts_sorted, decide_eq_true (by rw [hts2]; exact hlen)⟩
      exact ⟨g, List.mem_map.mpr ⟨ts, hts_f, hts2⟩, hag⟩

theorem C4_tables_are_corner_chain_components_witness :
    ∃ out, cells_to_tables [Bbox.mk 0 0 1 1, Bbox.mk 1 0 2 1] = some out
      ∧ (∀ t ∈ out, ∀ a ∈ t, a ∈ [Bbox.mk 0 0 1 1, Bbox.mk 1 0 2 1])
      ∧ (∀ t ∈ out, ∀ a ∈ t, ∀ b ∈ t,
          cellsConnected [Bbox.mk 0 0 1 1, Bbox.mk 1 0 2 1] a b)
      ∧ out.Pairwise (fun t t' => ∀ a ∈ t, ∀ b ∈ t',
          ¬ cellsConnected [Bbox.mk 0 0 1 1, Bbox.mk 1 0 2 1] a b)
      ∧ (∀ a ∈ [Bbox.mk 0 0 1 1, Bbox.mk 1 0 2 1],
          ((∃ t ∈ out, a ∈ t) ↔ ∃ b ∈ [Bbox.mk 0 0 1 1, Bbox.mk 1 0 2 1],
            b ≠ a ∧ cellsConnected [Bbox.mk 0 0 1 1, Bbox.mk 1 0 2 1] a b)) :=
  C4_tables_are_corner_chain_components [Bbox.mk 0 0 1 1, Bbox.mk 1 0 2 1] (by decide)

/-! ### Idempotence of `merge_edges` (claim C7): supporting theory -/

theorem qadd_zero (a : ℚ) : qadd a 0 = a := by
  rw [qadd_eq, add_zero]

theorem qsub_zero (a : ℚ) : qsub a 0 = a := by
  rw [qsub_eq, sub_zero]

theorem qsub_self (a : ℚ) : qsub a a = 0 := by
  rw [qsub_eq, sub_self]

theorem foldl_qadd_eq_sum (attr : Edge → ℚ) :
    ∀ (g : List Edge) (a : ℚ),
      g.foldl (fun s o => qadd s (attr o)) a = a + (g.map attr).sum := by
  intro g
  induction g with
  | nil => intro a; simp
  | cons x xs ih =>
    intro a
    rw [List.foldl_cons, ih, qadd_eq, List.map_cons, List.sum_cons]
    ring

theorem exists_mul_le_sum :
    ∀ (l : List ℚ), l ≠ [] → ∃ m ∈ l, m * l.length ≤ l.sum := by
  intro l
  induction l with
  | nil => intro h; exact absurd rfl h
  | cons x xs ih =>
    intro _
    cases xs with
    | nil =>
      refine ⟨x, List.mem_cons_self _ _, ?_⟩
      simp
    | cons y ys =>
      obtain ⟨m, hm, hble⟩ := ih (by simp)
      rcases le_total m x with hmx | hmx
      · refine ⟨m, List.mem_cons_of_mem _ hm, ?_⟩
        rw [List.length_cons, List.sum_cons]
        push_cast
        nlinarith [hble]
      · refine ⟨x, List.mem_cons_self _ _, ?_⟩
        rw [List.length_cons, List.sum_cons]
        push_cast
        have hlen : (0 : ℚ) ≤ ((y :: ys).length : ℚ) := by positivity
        nlinarith [hble]

theorem exists_sum_le_mul :
    ∀ (l : List ℚ), l ≠ [] → ∃ m ∈ l, l.sum ≤ m * l.length := by
  intro l
  induction l with
  | nil => intro h; exact absurd rfl h
  | cons x xs ih =>
    intro _
    cases xs with
    | nil =>
      refine ⟨x, List.mem_cons_self _ _, ?_⟩
      simp
    | cons y ys =>
      obtain ⟨m, hm, hble⟩ := ih (by simp)
      rcases le_total x m with hmx | hmx
      · refine ⟨m, List.mem_cons_of_mem _ hm, ?_⟩
        rw [List.length_cons, List.sum_cons]
        push_cast
        nlinarith [hble]
      · refine ⟨x, List.mem_cons_self _ _, ?_⟩
        rw [List.length_cons, List.sum_cons]
        push_cast
        have hlen : (0 : ℚ) ≤ ((y :: ys).length : ℚ) := by positivity
        nlinarith [hble]

/-- The cluster average used by `snap_objects`. -/
def clusterAvg (attr : Edge → ℚ) (g : List Edge) : ℚ :=
  qdivn (g.foldl (fun s o => qadd s (attr o)) 0) g.length

theorem clusterAvg_bounds (attr : Edge → ℚ) (g : List Edge) (hg : g ≠ []) :
    (∃ o ∈ g, attr o ≤ clusterAvg attr g) ∧ ∃ o ∈ g, clusterAvg attr g ≤ attr o := by
  have hlen : (0 : ℚ) < (g.length : ℚ) := by
    have := List.length_pos.mpr hg
    exact_mod_cast this
  have hmap : g.map attr ≠ [] := by
    intro h
    exact hg (List.map_eq_nil.mp h)
  rw [clusterAvg, qdivn_eq, foldl_qadd_eq_sum, zero_add]
  constructor
  · obtain ⟨m, hm, hble⟩ := exists_mul_le_sum (g.map attr) hmap
    rcases List.mem_map.mp hm with ⟨o, ho, rfl⟩
    refine ⟨o, ho, ?_⟩
    rw [le_div_iff hlen]
    rw [List.length_map] at hble
    exact hble
  · obtain ⟨m, hm, hble⟩ := exists_sum_le_mul (g.map attr) hmap
    rcases List.mem_map.mp hm with ⟨o, ho, rfl⟩
    refine ⟨o, ho, ?_⟩
    rw [div_le_iff hlen]
    rw [List.length_map] at hble
    exact hble

theorem clusterAvg_const (attr : Edge → ℚ) (g : List Edge) (hg : g ≠ []) (v : ℚ)
    (hv : ∀ o ∈ g, attr o = v) : clusterAvg attr g = v := by
  have hlen : (0 : ℚ) < (g.length : ℚ) := by
    have := List.length_pos.mpr hg
    exact_mod_cast this
  have hsum : (g.map attr).sum = v * g.length := by
    have : g.map attr = g.map (fun _ => v) := List.map_congr_left hv
    rw [this, List.map_const', List.sum_replicate]
    simp [nsmul_eq_mul, mul_comm]
  rw [clusterAvg, qdivn_eq, foldl_qadd_eq_sum, zero_add, hsum]
  field_simp

theorem move_object_zero (e : Edge) (axis : String) : move_object e axis 0 = e := by
  rw [move_object]
  by_cases h : axis = "h"
  · rw [if_pos h, qadd_zero, qadd_zero]
  · rw [if_neg h, qadd_zero, qadd_zero]
    have hd : Option.map (fun d => qadd d 0) e.doctop = e.doctop := by
      cases e.doctop with
      | none => rfl
      | some d => rw [Option.map_some', qadd_zero]
    have hy0 : Option.map (fun y => qsub y 0) e.y0 = e.y0 := by
      cases e.y0 with
      | none => rfl
      | some d => rw [Option.map_some', qsub_zero]
    have hy1 : Option.map (fun y => qsub y 0) e.y1 = e.y1 := by
      cases e.y1 with
      | none => rfl
      | some d => rw [Option.map_some', qsub_zero]
    rw [hd, hy0, hy1]

theorem move_object_h_fields (e : Edge) (v : ℚ) :
    (move_object e "h" v).x0 = qadd e.x0 v ∧ (move_object e "h" v).x1 = qadd e.x1 v
    ∧ (move_object e "h" v).top = e.top ∧ (move_object e "h" v).bottom = e.bottom
    ∧ (move_object e "h" v).orientation = e.orientation := by
  rw [move_object, if_pos rfl]
  exact ⟨rfl, rfl, rfl, rfl, rfl⟩

theorem move_object_v_fields (e : Edge) (v : ℚ) :
    (move_object e "v" v).x0 = e.x0 ∧ (move_object e "v" v).x1 = e.x1
    ∧ (move_object e "v" v).top = qadd e.top v
    ∧ (move_object e "v" v).bottom = qadd e.bottom v
    ∧ (move_object e "v" v).orientation = e.orientation := by
  rw [move_object, if_neg (by decide)]
  exact ⟨rfl, rfl, rfl, rfl, rfl⟩

/-- The step of the cluster-building fold in `cluster_list`. -/
def clusterStep (tol : ℚ) (st : List (List ℚ) × List ℚ × ℚ) (x : ℚ) :
    List (List ℚ) × List ℚ × ℚ :=
  if x ≤ qadd st.2.2 tol then (st.1, st.2.1 ++ [x], x) else (st.1 ++ [st.2.1], [x], x)

theorem cluster_fold_spec (tol : ℚ) (htol : 0 ≤ tol) :
    ∀ (xs : List ℚ) (done : List (List ℚ)) (cur : List ℚ) (lastv : ℚ),
    xs.Pairwise (· ≤ ·) →
    (∀ x ∈ xs, lastv ≤ x) →
    cur ≠ [] →
    (∀ a ∈ cur, a ≤ lastv) →
    cur.getLast? = some lastv →
    cur.Pairwise (· ≤ ·) →
    cur.Chain' (fun a b => b ≤ qadd a tol) →
    (∀ c ∈ done, c ≠ []) →
    (∀ c ∈ done, c.Pairwise (· ≤ ·)) →
    (∀ c ∈ done, c.Chain' (fun a b => b ≤ qadd a tol)) →
    done.Pairwise (fun c c' => ∀ a ∈ c, ∀ b ∈ c', qadd a tol < b) →
    (∀ c ∈ done, ∀ a ∈ c, ∀ b ∈ cur, qadd a tol < b) →
    ((∀ c ∈ (xs.foldl (clusterStep tol) (done, cur, lastv)).1
          ++ [(xs.foldl (clusterStep tol) (done, cur, lastv)).2.1], c ≠ [])
      ∧ ((xs.foldl (clusterStep tol) (done, cur, lastv)).1
          ++ [(xs.foldl (clusterStep tol) (done, cur, lastv)).2.1]).flatMap id
            = (done.flatMap id ++ cur) ++ xs
      ∧ (∀ c ∈ (xs.foldl (clusterStep tol) (done, cur, lastv)).1
          ++ [(xs.foldl (clusterStep tol) (done, cur, lastv)).2.1], c.Pairwise (· ≤ ·))
      ∧ ((xs.foldl (clusterStep tol) (done, cur, lastv)).1
          ++ [(xs.foldl (clusterStep tol) (done, cur, lastv)).2.1]).Pairwise
            (fun c c' => ∀ a ∈ c, ∀ b ∈ c', qadd a tol < b)
      ∧ (∀ c ∈ (xs.foldl (clusterStep tol) (done, cur, lastv)).1
          ++ [(xs.foldl (clusterStep tol) (done, cur, lastv)).2.1],
          c.Chain' (fun a b => b ≤ qadd a tol))) := by
  intro xs
  induction xs with
  | nil =>
    intro done cur lastv _ _ hcne hcle _ hcpw' hcch' hdne hdpw hdch hdsep hdcsep
    rw [List.foldl_nil]
    refine ⟨?_, by simp, ?_, ?_, ?_⟩
    · intro c hc
      rcases List.mem_append.mp hc with hc | hc
      · exact hdne c hc
      · rw [List.mem_singleton] at hc; subst hc; exact hcne
    · intro c hc
      rcases List.mem_append.mp hc with hc | hc
      · exact hdpw c hc
      · rw [List.mem_singleton] at hc; subst hc; exact hcpw'
    · rw [List.pairwise_append]
      refine ⟨hdsep, List.pairwise_singleton _ _, ?_⟩
      intro c hc c' hc'
      rw [List.mem_singleton] at hc'; subst hc'
      exact hdcsep c hc
    · intro c hc
      rcases List.mem_append.mp hc with hc | hc
      · exact hdch c hc
      · rw [List.mem_singleton] at hc; subst hc; exact hcch'
  | cons x rest ih =>
    intro done cur lastv hxspw hxsge hcne hcle hclast hcpw' hcch hdne hdpw hdch hdsep hdcsep
    rw [List.pairwise_cons] at hxspw
    have hlx : lastv ≤ x := hxsge x (List.mem_cons_self _ _)
    rw [List.foldl_cons]
    by_cases hx : x ≤ qadd lastv tol
    · rw [show clusterStep tol (done, cur, lastv) x = (done, cur ++ [x], x) from by
        rw [clusterStep, if_pos hx]]
      have hres := ih done (cur ++ [x]) x hxspw.2
        (fun y hy => hxspw.1 y hy) (by simp) ?_ (by simp) ?_ ?_
        hdne hdpw hdch hdsep ?_
      · refine ⟨hres.1, ?_, hres.2.2.1, hres.2.2.2.1, hres.2.2.2.2⟩
        rw [hres.2.1]
        simp [List.append_assoc]
      · intro a ha
        rcases List.mem_append.mp ha with ha | ha
        · exact le_trans (hcle a ha) hlx
        · rw [List.mem_singleton] at ha; subst ha; exact le_rfl
      · rw [List.pairwise_append]
        refine ⟨hcpw', List.pairwise_singleton _ _, ?_⟩
        intro a ha b hb
        rw [List.mem_singleton] at hb; subst hb
        exact le_trans (hcle a ha) hlx
      · rw [List.chain'_append]
        refine ⟨hcch, List.chain'_singleton _, ?_⟩
        intro a ha b hb
        rw [hclast, Option.mem_def, Option.some.injEq] at ha
        rw [List.head?_cons, Option.mem_def, Option.some.injEq] at hb
        subst ha; subst hb
        exact hx
      · intro c hc a ha b hb
        rcases List.mem_append.mp hb with hb | hb
        · exact hdcsep c hc a ha b hb
        · rw [List.mem_singleton] at hb; subst hb
          obtain ⟨b0, hb0⟩ := List.exists_mem_of_ne_nil cur hcne
          exact lt_of_lt_of_le (hdcsep c hc a ha b0 hb0) (le_trans (hcle b0 hb0) hlx)
    · rw [show clusterStep tol (done, cur, lastv) x = (done ++ [cur], [x], x) from by
        rw [clusterStep, if_neg hx]]
      push_neg at hx
      have hsepx : ∀ a ∈ cur, qadd a tol < x := by
        intro a ha
        have h1 : a ≤ lastv := hcle a ha
        rw [qadd_eq] at hx ⊢
        linarith
      have hres := ih (done ++ [cur]) [x] x hxspw.2 (fun y hy => hxspw.1 y hy)
        (by simp) (by simp) (by simp) (List.pairwise_singleton _ _)
        (List.chain'_singleton _) ?_ ?_ ?_ ?_ ?_
      · refine ⟨hres.1, ?_, hres.2.2.1, hres.2.2.2.1, hres.2.2.2.2⟩
        rw [hres.2.1]
        simp [List.append_assoc]
      · intro c hc
        rcases List.mem_append.mp hc with hc | hc
        · exact hdne c hc
        · rw [List.mem_singleton] at hc; subst hc; exact hcne
      · intro c hc
        rcases List.mem_append.mp hc with hc | hc
        · exact hdpw c hc
        · rw [List.mem_singleton] at hc; subst hc; exact hcpw'
      · intro c hc
        rcases List.mem_append.mp hc with hc | hc
        · exact hdch c hc
        · rw [List.mem_singleton] at hc; subst hc; exact hcch
      · rw [List.pairwise_append]
        refine ⟨hdsep, List.pairwise_singleton _ _, ?_⟩
        intro c hc c' hc'
        rw [List.mem_singleton] at hc'; subst hc'
        exact hdcsep c hc
      · intro c hc a ha b hb
        rw [List.mem_singleton] at hb; subst hb
        rcases List.mem_append.mp hc with hc | hc
        · obtain ⟨b0, hb0⟩ := List.exists_mem_of_ne_nil cur hcne
          have h1 := hdcsep c hc a ha b0 hb0
          have h2 : b0 ≤ lastv := hcle b0 hb0
          rw [qadd_eq] at h1 hx ⊢
          linarith
        · rw [List.mem_singleton] at hc; subst hc
          exact hsepx a ha

theorem qle_sort_trans : ∀ (a b c : ℚ), decide (a ≤ b) = true → decide (b ≤ c) = true →
    decide (a ≤ c) = true := by
  intro a b c h1 h2
  rw [decide_eq_true_eq] at h1 h2 ⊢
  exact le_trans h1 h2

theorem qle_sort_total : ∀ (a b : ℚ), decide (a ≤ b) = true ∨ decide (b ≤ a) = true := by
  intro a b
  rcases le_total a b with h | h
  · exact Or.inl (decide_eq_true h)
  · exact Or.inr (decide_eq_true h)

theorem sortBy_qle_pairwise (xs : List ℚ) :
    (sortBy (fun a b => decide (a ≤ b)) xs).Pairwise (· ≤ ·) := by
  have h := sortBy_pairwise qle_sort_trans qle_sort_total xs
  exact h.imp (fun hab => of_decide_eq_true hab)

theorem flatMap_id_map_singleton {α : Type} :
    ∀ (l : List α), (l.map (fun x => [x])).flatMap id = l := by
  intro l
  induction l with
  | nil => rfl
  | cons x xs ih => simp only [List.map_cons, List.flatMap_cons, id, ih]; rfl

theorem cluster_list_spec (xs : List ℚ) (tol : ℚ) (htol : 0 ≤ tol) (hnd : xs.Nodup) :
    (∀ c ∈ cluster_list xs tol, c ≠ [])
    ∧ (cluster_list xs tol).flatMap id = sortBy (fun a b => decide (a ≤ b)) xs
    ∧ (∀ c ∈ cluster_list xs tol, c.Pairwise (· ≤ ·))
    ∧ (cluster_list xs tol).Pairwise (fun c c' => ∀ a ∈ c, ∀ b ∈ c', qadd a tol < b)
    ∧ (∀ c ∈ cluster_list xs tol, c.Chain' (fun a b => b ≤ qadd a tol)) := by
  have hspw : (sortBy (fun a b => decide (a ≤ b)) xs).Pairwise (· ≤ ·) :=
    sortBy_qle_pairwise xs
  have hsnd : (sortBy (fun a b => decide (a ≤ b)) xs).Nodup := sortBy_nodup hnd
  have hslt : (sortBy (fun a b => decide (a ≤ b)) xs).Pairwise (· < ·) := by
    have := List.Pairwise.and hspw hsnd
    exact this.imp (fun h => lt_of_le_of_ne h.1 h.2)
  by_cases h0 : tol = 0
  · subst h0
    rw [cluster_list, if_pos rfl]
    refine ⟨?_, flatMap_id_map_singleton _, ?_, ?_, ?_⟩
    · intro c hc
      rcases List.mem_map.mp hc with ⟨v, _, rfl⟩
      simp
    · intro c hc
      rcases List.mem_map.mp hc with ⟨v, _, rfl⟩
      exact List.pairwise_singleton _ _
    · rw [List.pairwise_map]
      refine hslt.imp ?_
      intro a b hab x hx y hy
      rw [List.mem_singleton] at hx hy
      subst hx; subst hy
      rw [qadd_zero]
      exact hab
    · intro c hc
      rcases List.mem_map.mp hc with ⟨v, _, rfl⟩
      exact List.chain'_singleton _
  · rw [cluster_list, if_neg h0]
    by_cases h2 : xs.length < 2
    · rw [if_pos h2]
      have hslen : (sortBy (fun a b => decide (a ≤ b)) xs).length < 2 := by
        rw [(sortBy_perm _ xs).length_eq]
        exact h2
      refine ⟨?_, flatMap_id_map_singleton _, ?_, ?_, ?_⟩
      · intro c hc
        rcases List.mem_map.mp hc with ⟨v, _, rfl⟩
        simp
      · intro c hc
        rcases List.mem_map.mp hc with ⟨v, _, rfl⟩
        exact List.pairwise_singleton _ _
      · cases hs : sortBy (fun a b => decide (a ≤ b)) xs with
        | nil => simp
        | cons y ys =>
          cases hys : ys with
          | nil => simp
          | cons z zs =>
            rw [hs, hys] at hslen
            simp only [List.length_cons] at hslen
            omega
      · intro c hc
        rcases List.mem_map.mp hc with ⟨v, _, rfl⟩
        exact List.chain'_singleton _
    · rw [if_neg h2]
      cases hs : sortBy (fun a b => decide (a ≤ b)) xs with
      | nil =>
        have : xs.length = 0 := by
          rw [← (sortBy_perm (fun a b => decide (a ≤ b)) xs).length_eq, hs]
          rfl
        omega
      | cons x0 rest =>
        rw [hs] at hspw
        rw [List.pairwise_cons] at hspw
        have hfold := cluster_fold_spec tol htol rest [] [x0] x0
          hspw.2 hspw.1 (by simp) (by simp) (by simp)
          (List.pairwise_singleton _ _) (List.chain'_singleton _)
          (by simp) (by simp) (by simp) (by simp) (by simp)
        refine ⟨hfold.1, ?_, hfold.2.2.1, hfold.2.2.2.1, hfold.2.2.2.2⟩
        exact hfold.2.1.trans (by simp)

theorem nodup_of_flatMap_nodup {α : Type} :
    ∀ (L : List (List α)), (L.flatMap id).Nodup → ∀ c ∈ L, c.Nodup := by
  intro L
  induction L with
  | nil => intro _ c hc; cases hc
  | cons c0 rest ih =>
    intro h c hc
    rw [List.flatMap_cons] at h
    rcases List.mem_cons.mp hc with rfl | hc'
    · exact (List.Nodup.of_append_left h : _)
    · exact ih (List.Nodup.of_append_right h) c hc'

theorem cluster_list_singletons (xs : List ℚ) (tol : ℚ) (htol : 0 ≤ tol) (hnd : xs.Nodup)
    (hsep : ∀ a ∈ xs, ∀ b ∈ xs, a < b → qadd a tol < b) :
    ∀ c ∈ cluster_list xs tol, ∃ v, c = [v] := by
  obtain ⟨hne, hflat, hpw, _, hch⟩ := cluster_list_spec xs tol htol hnd
  intro c hc
  have hcnd : c.Nodup := by
    refine nodup_of_flatMap_nodup _ ?_ c hc
    rw [hflat]
    exact sortBy_nodup hnd
  have hmemxs : ∀ v ∈ c, v ∈ xs := by
    intro v hv
    have : v ∈ (cluster_list xs tol).flatMap id := List.mem_flatMap.mpr ⟨c, hc, hv⟩
    rw [hflat] at this
    exact mem_sortBy.mp this
  obtain ⟨v, rest, hc0⟩ : ∃ v rest, c = v :: rest := by
    cases hcc : c with
    | nil => exact absurd hcc (hne c hc)
    | cons v rest => exact ⟨v, rest, rfl⟩
  cases hr : rest with
  | nil => exact ⟨v, by rw [hc0, hr]⟩
  | cons w ws =>
    exfalso
    have hchain := hch c hc
    rw [hc0, hr, List.chain'_cons] at hchain
    have hle : v ≤ w := by
      have hp := hpw c hc
      rw [hc0, hr, List.pairwise_cons] at hp
      exact hp.1 w (by simp)
    have hvmem : v ∈ c := by rw [hc0]; simp
    have hwmem : w ∈ c := by rw [hc0, hr]; simp
    have hvw : v ≠ w := by
      have hcnd' := hcnd
      rw [hc0, hr, List.nodup_cons] at hcnd'
      intro h
      subst h
      exact hcnd'.1 (List.mem_cons_self _ _)
    have hlt : v < w := lt_of_le_of_ne hle hvw
    have := hsep v (hmemxs v hvmem) w (hmemxs w hwmem) hlt
    exact absurd hchain.1 (not_le_of_lt this)

theorem lookup_append_some {κ ν : Type} [BEq κ] {l1 l2 : List (κ × ν)} {k : κ} {v : ν}
    (h : l1.lookup k = some v) : (l1 ++ l2).lookup k = some v := by
  induction l1 with
  | nil => cases h
  | cons kv rest ih =>
    cases hk : (k == kv.1) with
    | true =>
      simp only [List.lookup, hk] at h
      simp only [List.cons_append, List.lookup, hk]
      exact h
    | false =>
      simp only [List.lookup, hk] at h
      simp only [List.cons_append, List.lookup, hk]
      exact ih h

theorem lookup_append_none {κ ν : Type} [BEq κ] {l1 : List (κ × ν)} {k : κ}
    (h : l1.lookup k = none) (l2 : List (κ × ν)) :
    (l1 ++ l2).lookup k = l2.lookup k := by
  induction l1 with
  | nil => rfl
  | cons kv rest ih =>
    cases hk : (k == kv.1) with
    | true =>
      simp only [List.lookup, hk] at h
      exact Option.noConfusion h
    | false =>
      simp only [List.lookup, hk] at h
      simp only [List.cons_append, List.lookup, hk]
      exact ih h

theorem lookup_map_pair_some {c : List ℚ} {v : ℚ} (i : ℕ) (hv : v ∈ c) :
    (c.map (fun x => (x, i))).lookup v = some i := by
  induction c with
  | nil => cases hv
  | cons x rest ih =>
    cases hk : (v == x) with
    | true => simp only [List.map_cons, List.lookup, hk]
    | false =>
      simp only [List.map_cons, List.lookup, hk]
      apply ih
      rcases List.mem_cons.mp hv with rfl | hv'
      · exfalso; simp at hk
      · exact hv'

theorem lookup_map_pair_none {c : List ℚ} {v : ℚ} (i : ℕ) (hv : v ∉ c) :
    (c.map (fun x => (x, i))).lookup v = none := by
  induction c with
  | nil => rfl
  | cons x rest ih =>
    cases hk : (v == x) with
    | true =>
      exfalso
      apply hv
      have : v = x := by simpa using hk
      rw [this]; exact List.mem_cons_self _ _
    | false =>
      simp only [List.map_cons, List.lookup, hk]
      exact ih (fun h => hv (List.mem_cons_of_mem _ h))

theorem lookup_enumFrom_dict :
    ∀ (CL : List (List ℚ)) (n : ℕ) (v : ℚ), v ∈ CL.flatMap id →
      ∃ j cl, CL[j]? = some cl ∧ v ∈ cl
        ∧ ((CL.enumFrom n).flatMap (fun ic => ic.2.map (fun x => (x, ic.1)))).lookup v
            = some (n + j) := by
  intro CL
  induction CL with
  | nil => intro n v hv; cases hv
  | cons c rest ih =>
    intro n v hv
    rw [List.flatMap_cons] at hv
    rw [List.enumFrom_cons, List.flatMap_cons]
    by_cases hvc : v ∈ c
    · refine ⟨0, c, by rw [List.getElem?_cons_zero], hvc, ?_⟩
      rw [lookup_append_some (lookup_map_pair_some n hvc)]
      rfl
    · have hvr : v ∈ rest.flatMap id := by
        rcases List.mem_append.mp hv with h | h
        · exact absurd h hvc
        · exact h
      obtain ⟨j, cl, hget, hmem, hlook⟩ := ih (n + 1) v hvr
      refine ⟨j + 1, cl, by rw [List.getElem?_cons_succ]; exact hget, hmem, ?_⟩
      rw [lookup_append_none (lookup_map_pair_none n hvc) _, hlook]
      congr 1
      omega

theorem lookup_make_cluster_dict {values : List ℚ} {tol : ℚ} {v : ℚ}
    (hv : v ∈ (cluster_list values.dedup tol).flatMap id) :
    ∃ j cl, (cluster_list values.dedup tol)[j]? = some cl ∧ v ∈ cl
      ∧ (make_cluster_dict values tol).lookup v = some j := by
  obtain ⟨j, cl, hget, hmem, hlook⟩ :=
    lookup_enumFrom_dict (cluster_list values.dedup tol) 0 v hv
  refine ⟨j, cl, hget, hmem, ?_⟩
  rw [make_cluster_dict]
  rw [show (cluster_list values.dedup tol).enum
      = (cluster_list values.dedup tol).enumFrom 0 from rfl]
  simpa using hlook

theorem pyGroupBy_flatten {ο κ : Type} [DecidableEq κ] (key : ο → κ) :
    ∀ (l : List ο), (pyGroupBy key l).flatMap (fun kg => kg.2) = l := by
  intro l
  induction l with
  | nil => rfl
  | cons x xs ih =>
    rw [pyGroupBy]
    cases hg : pyGroupBy key xs with
    | nil =>
      rw [hg] at ih
      simp only [List.flatMap_nil] at ih
      simp [← ih]
    | cons p r =>
      obtain ⟨k, g⟩ := p
      rw [hg] at ih
      show ((if key x = k then (k, x :: g) :: r
          else (key x, [x]) :: (k, g) :: r).flatMap (fun kg => kg.2)) = x :: xs
      by_cases hk : key x = k
      · rw [if_pos hk, List.flatMap_cons]
        rw [List.flatMap_cons] at ih
        simp only [List.cons_append]
        rw [ih]
      · rw [if_neg hk, List.flatMap_cons, List.flatMap_cons]
        rw [List.flatMap_cons] at ih
        simp only [List.singleton_append]
        rw [ih]

theorem pyGroupBy_key_eq {ο κ : Type} [DecidableEq κ] (key : ο → κ) :
    ∀ (l : List ο), ∀ kg ∈ pyGroupBy key l, ∀ o ∈ kg.2, key o = kg.1 := by
  intro l
  induction l with
  | nil => intro kg hkg; simp [pyGroupBy] at hkg
  | cons x xs ih =>
    intro kg hkg o ho
    rw [pyGroupBy] at hkg
    cases hg : pyGroupBy key xs with
    | nil =>
      rw [hg] at hkg
      simp only [List.mem_singleton] at hkg
      subst hkg
      rw [List.mem_singleton] at ho
      subst ho
      rfl
    | cons p r =>
      obtain ⟨k, g⟩ := p
      rw [hg] at hkg
      have hkg' : kg ∈ (if key x = k then (k, x :: g) :: r
          else (key x, [x]) :: (k, g) :: r) := hkg
      by_cases hk : key x = k
      · rw [if_pos hk] at hkg'
        rcases List.mem_cons.mp hkg' with h | h
        · subst h
          rcases List.mem_cons.mp ho with rfl | ho'
          · exact hk
          · exact ih (k, g) (by rw [hg]; exact List.mem_cons_self _ _) o ho'
        · exact ih kg (by rw [hg]; exact List.mem_cons_of_mem _ h) o ho
      · rw [if_neg hk] at hkg'
        rcases List.mem_cons.mp hkg' with h | h
        · subst h
          rw [List.mem_singleton] at ho
          subst ho
          rfl
        · exact ih kg (by rw [hg]; exact h) o ho

theorem pyGroupBy_chain_ne {ο κ : Type} [DecidableEq κ] (key : ο → κ) :
    ∀ (l : List ο), (pyGroupBy key l).Chain' (fun a b => a.1 ≠ b.1) := by
  intro l
  induction l with
  | nil => exact List.chain'_nil
  | cons x xs ih =>
    rw [pyGroupBy]
    cases hg : pyGroupBy key xs with
    | nil => exact List.chain'_singleton _
    | cons p r =>
      obtain ⟨k, g⟩ := p
      rw [hg] at ih
      show List.Chain' (fun a b => a.1 ≠ b.1)
        (if key x = k then (k, x :: g) :: r else (key x, [x]) :: (k, g) :: r)
      by_cases hk : key x = k
      · rw [if_pos hk]
        rw [List.chain'_cons'] at ih ⊢
        exact ⟨fun b hb => ih.1 b hb, ih.2⟩
      · rw [if_neg hk]
        rw [List.chain'_cons]
        exact ⟨hk, ih⟩

theorem pyGroupBy_key_witness {ο κ : Type} [DecidableEq κ] (key : ο → κ)
    (l : List ο) : ∀ kg ∈ pyGroupBy key l, ∃ o ∈ l, key o = kg.1 := by
  intro kg hkg
  obtain ⟨o, ho⟩ := List.exists_mem_of_ne_nil kg.2 (pyGroupBy_nonempty key l kg hkg)
  refine ⟨o, ?_, pyGroupBy_key_eq key l kg hkg o ho⟩
  rw [← pyGroupBy_flatten key l]
  exact List.mem_flatMap.mpr ⟨kg, hkg, ho⟩

theorem pyGroupBy_keys_pairwise {ο κ : Type} [DecidableEq κ] (key : ο → κ)
    (R : κ → κ → Prop) :
    ∀ (l : List ο), l.Pairwise (fun a b => R (key a) (key b)) →
      (pyGroupBy key l).Pairwise (fun g g' => R g.1 g'.1) := by
  intro l
  induction l with
  | nil => intro _; simp [pyGroupBy]
  | cons x xs ih =>
    intro hl
    rw [List.pairwise_cons] at hl
    have ihg := ih hl.2
    rw [pyGroupBy]
    cases hg : pyGroupBy key xs with
    | nil => exact List.pairwise_singleton _ _
    | cons p r =>
      obtain ⟨k, g⟩ := p
      rw [hg] at ihg
      have hwit : ∀ kg' ∈ (k, g) :: r, ∃ o ∈ xs, key o = kg'.1 := by
        intro kg' hkg'
        exact pyGroupBy_key_witness key xs kg' (by rw [hg]; exact hkg')
      show List.Pairwise (fun g g' => R g.1 g'.1)
        (if key x = k then (k, x :: g) :: r else (key x, [x]) :: (k, g) :: r)
      by_cases hk : key x = k
      · rw [if_pos hk]
        rw [List.pairwise_cons] at ihg ⊢
        exact ⟨fun b hb => ihg.1 b hb, ihg.2⟩
      · rw [if_neg hk]
        rw [List.pairwise_cons]
        refine ⟨?_, ihg⟩
        intro kg' hkg'
        obtain ⟨o, ho, hko⟩ := hwit kg' hkg'
        rw [← hko]
        exact hl.1 o ho

theorem pyGroupBy_head_key {ο κ : Type} [DecidableEq κ] (key : ο → κ) (t : ο)
    (ts : List ο) : ∃ g r, pyGroupBy key (t :: ts) = (key t, g) :: r := by
  rw [pyGroupBy]
  cases hg : pyGroupBy key ts with
  | nil => exact ⟨[t], [], rfl⟩
  | cons p r =>
    obtain ⟨k, g⟩ := p
    by_cases hk : key t = k
    · refine ⟨t :: g, r, ?_⟩
      show (if key t = k then (k, t :: g) :: r else (key t, [t]) :: (k, g) :: r)
          = (key t, t :: g) :: r
      rw [if_pos hk, hk]
    · refine ⟨[t], (k, g) :: r, ?_⟩
      show (if key t = k then (k, t :: g) :: r else (key t, [t]) :: (k, g) :: r)
          = (key t, [t]) :: (k, g) :: r
      rw [if_neg hk]

theorem pyGroupBy_prepend_run {ο κ : Type} [DecidableEq κ] (key : ο → κ) (k : κ) :
    ∀ (g : List ο), g ≠ [] → (∀ o ∈ g, key o = k) →
      ∀ (tail : List ο), (∀ t, tail.head? = some t → key t ≠ k) →
      pyGroupBy key (g ++ tail) = (k, g) :: pyGroupBy key tail := by
  intro g
  induction g with
  | nil => intro h; exact absurd rfl h
  | cons a g' ih =>
    intro _ hkey tail htail
    have hka : key a = k := hkey a (List.mem_cons_self _ _)
    cases hg' : g' with
    | nil =>
      simp only [List.singleton_append]
      rw [pyGroupBy]
      cases htl : tail with
      | nil =>
        rw [show pyGroupBy key ([] : List ο) = [] from rfl, hka]
      | cons t ts =>
        obtain ⟨g0, r0, hgr⟩ := pyGroupBy_head_key key t ts
        rw [hgr]
        have hne : key a ≠ key t := by
          rw [hka]
          intro h
          exact htail t (by rw [htl]; rfl) h.symm
        show (if key a = key t then (key t, a :: g0) :: r0
            else (key a, [a]) :: (key t, g0) :: r0) = (k, [a]) :: (key t, g0) :: r0
        rw [if_neg hne, hka]
    | cons b g'' =>
      rw [← hg']
      have ihres := ih (by rw [hg']; simp) (fun o ho => hkey o (List.mem_cons_of_mem _ ho))
        tail htail
      simp only [List.cons_append]
      rw [pyGroupBy, ihres]
      have hfirst : ∃ gg, (k, g') = (k, gg) := ⟨g', rfl⟩
      show (if key a = k then (k, a :: g') :: pyGroupBy key tail
          else (key a, [a]) :: (k, g') :: pyGroupBy key tail)
          = (k, a :: g') :: pyGroupBy key tail
      rw [if_pos hka]

theorem pyGroupBy_concat {ο κ : Type} [DecidableEq κ] (key : ο → κ) :
    ∀ (runs : List (κ × List ο)),
      (∀ r ∈ runs, r.2 ≠ [] ∧ ∀ o ∈ r.2, key o = r.1) →
      runs.Chain' (fun r r' => r.1 ≠ r'.1) →
      pyGroupBy key (runs.flatMap (fun r => r.2)) = runs := by
  intro runs
  induction runs with
  | nil => intro _ _; rfl
  | cons kg rest ih =>
    intro hruns hchain
    obtain ⟨k, g⟩ := kg
    rw [List.flatMap_cons]
    have hhead := hruns (k, g) (List.mem_cons_self _ _)
    have htail : ∀ t, (rest.flatMap (fun r => r.2)).head? = some t → key t ≠ k := by
      intro t ht
      cases hrest : rest with
      | nil => rw [hrest] at ht; cases ht
      | cons kg' rest' =>
        obtain ⟨k', g'⟩ := kg'
        have hg' := hruns (k', g') (by rw [hrest]; exact List.mem_cons_of_mem _ (List.mem_cons_self _ _))
        rw [hrest, List.flatMap_cons] at ht
        obtain ⟨a, g'', hgg⟩ : ∃ a g'', g' = a :: g'' := by
          cases hgg : g' with
          | nil => exact absurd hgg hg'.1
          | cons a g'' => exact ⟨a, g'', rfl⟩
        rw [hgg, List.cons_append, List.head?_cons] at ht
        cases ht
        have hka : key t = k' := hg'.2 t (by rw [hgg]; exact List.mem_cons_self _ _)
        rw [hka]
        have := List.chain'_cons.mp (by rw [hrest] at hchain; exact hchain)
        exact fun h => this.1 h.symm
    rw [pyGroupBy_prepend_run key k g hhead.1 hhead.2 _ htail]
    rw [ih (fun r hr => hruns r (List.mem_cons_of_mem _ hr)) hchain.tail]

theorem mapM_except_ok {α β γ : Type} (f : α → Except γ β) (Q : α → β → Prop) :
    ∀ (l : List α), (∀ a ∈ l, ∃ b, f a = .ok b ∧ Q a b) →
      ∃ out, l.mapM f = .ok out ∧ List.Forall₂ Q l out := by
  intro l
  induction l with
  | nil => intro _; exact ⟨[], by rw [List.mapM_nil]; rfl, List.Forall₂.nil⟩
  | cons a l ih =>
    intro h
    obtain ⟨b, hb, hQ⟩ := h a (List.mem_cons_self _ _)
    obtain ⟨out, hout, hF⟩ := ih (fun a' ha' => h a' (List.mem_cons_of_mem _ ha'))
    refine ⟨b :: out, ?_, List.Forall₂.cons hQ hF⟩
    rw [List.mapM_cons, hb, hout]
    rfl

theorem joinFold_spec {getMin getMax : Edge → ℚ} {resize : Edge → ℚ → Except MErr Edge}
    {tol : ℚ} {P : Edge → Prop}
    (hres : ∀ e v, P e → getMin e ≤ getMax e → getMax e < v →
      ∃ e', resize e v = .ok e' ∧ getMin e' = getMin e ∧ getMax e' = v ∧ P e') :
    ∀ (rest : List Edge) (last : Edge) (tail : List Edge),
      (∀ e ∈ last :: tail, P e ∧ getMin e ≤ getMax e) →
      (∀ e ∈ rest, P e ∧ getMin e ≤ getMax e) →
      (∀ e ∈ rest, ∀ a ∈ last :: tail, getMin a ≤ getMin e) →
      rest.Pairwise (fun a b => getMin a ≤ getMin b) →
      (last :: tail).reverse.Pairwise (fun a b => getMin a ≤ getMin b) →
      (last :: tail).reverse.Chain' (fun a b => ¬ (getMin b ≤ qadd (getMax a) tol)) →
      ∃ out, rest.foldlM (joinStep getMin getMax resize tol) (last :: tail) = .ok out
        ∧ out ≠ []
        ∧ (∀ e ∈ out, P e ∧ getMin e ≤ getMax e)
        ∧ out.reverse.Pairwise (fun a b => getMin a ≤ getMin b)
        ∧ out.reverse.Chain' (fun a b => ¬ (getMin b ≤ qadd (getMax a) tol)) := by
  intro rest
  induction rest with
  | nil =>
    intro last tail hacc _ _ _ hrpw hrch
    exact ⟨last :: tail, rfl, by simp, hacc, hrpw, hrch⟩
  | cons e es ih =>
    intro last tail hacc hrest hmins hrestpw hrpw hrch
    have hrest' : ∀ y ∈ es, P y ∧ getMin y ≤ getMax y :=
      fun y h => hrest y (List.mem_cons_of_mem _ h)
    rw [List.pairwise_cons] at hrestpw
    have hlast := hacc last (List.mem_cons_self _ _)
    have he := hrest e (List.mem_cons_self _ _)
    rw [List.foldlM_cons]
    have hstep : joinStep getMin getMax resize tol (last :: tail) e
        = if getMin e ≤ qadd (getMax last) tol then
            if getMax last < getMax e then
              (resize last (getMax e)).bind (fun last' => pure (last' :: tail))
            else pure (last :: tail)
          else pure (e :: last :: tail) := rfl
    by_cases h1 : getMin e ≤ qadd (getMax last) tol
    · by_cases h2 : getMax last < getMax e
      · obtain ⟨e', he', hmin, hmax, hP'⟩ := hres last (getMax e) hlast.1 hlast.2 h2
        rw [hstep, if_pos h1, if_pos h2, he']
        have hacc' : ∀ y ∈ e' :: tail, P y ∧ getMin y ≤ getMax y := by
          intro y hy
          rcases List.mem_cons.mp hy with rfl | hy'
          · exact ⟨hP', by rw [hmin, hmax]; exact hlast.2.trans h2.le⟩
          · exact hacc y (List.mem_cons_of_mem _ hy')
        have hmins' : ∀ y ∈ es, ∀ a ∈ e' :: tail, getMin a ≤ getMin y := by
          intro y hy a ha
          rcases List.mem_cons.mp ha with rfl | ha'
          · rw [hmin]
            exact hmins y (List.mem_cons_of_mem _ hy) last (List.mem_cons_self _ _)
          · exact hmins y (List.mem_cons_of_mem _ hy) a
              (List.mem_cons_of_mem _ ha')
        have hrpw' : (e' :: tail).reverse.Pairwise (fun a b => getMin a ≤ getMin b) := by
          rw [List.reverse_cons] at hrpw ⊢
          rw [List.pairwise_append] at hrpw ⊢
          refine ⟨hrpw.1, List.pairwise_singleton _ _, ?_⟩
          intro a ha b hb
          rw [List.mem_singleton] at hb
          subst hb
          rw [hmin]
          exact hrpw.2.2 a ha last (by simp)
        have hrch' : (e' :: tail).reverse.Chain'
            (fun a b => ¬ (getMin b ≤ qadd (getMax a) tol)) := by
          rw [List.reverse_cons] at hrch ⊢
          rw [List.chain'_append] at hrch ⊢
          refine ⟨hrch.1, List.chain'_singleton _, ?_⟩
          intro x hx y hy
          rw [List.head?_cons, Option.mem_def, Option.some.injEq] at hy
          subst hy
          rw [hmin]
          exact hrch.2.2 x hx last (by rw [List.head?_cons]; rfl)
        obtain ⟨out, hout, hone, htwo, hthree, hfour⟩ :=
          ih e' tail hacc' hrest' hmins' hrestpw.2 hrpw' hrch'
        exact ⟨out, hout, hone, htwo, hthree, hfour⟩
      · rw [hstep, if_pos h1, if_neg h2]
        have hmins' : ∀ y ∈ es, ∀ a ∈ last :: tail, getMin a ≤ getMin y :=
          fun y hy a ha => hmins y (List.mem_cons_of_mem _ hy) a ha
        obtain ⟨out, hout, hone, htwo, hthree, hfour⟩ :=
          ih last tail hacc hrest' hmins' hrestpw.2 hrpw hrch
        exact ⟨out, hout, hone, htwo, hthree, hfour⟩
    · rw [hstep, if_neg h1]
      have hacc' : ∀ y ∈ e :: last :: tail, P y ∧ getMin y ≤ getMax y := by
        intro y hy
        rcases List.mem_cons.mp hy with rfl | hy'
        · exact he
        · exact hacc y hy'
      have hmins' : ∀ y ∈ es, ∀ a ∈ e :: last :: tail, getMin a ≤ getMin y := by
        intro y hy a ha
        rcases List.mem_cons.mp ha with rfl | ha'
        · exact hrestpw.1 y hy
        · exact hmins y (List.mem_cons_of_mem _ hy) a ha'
      have hrpw' : (e :: last :: tail).reverse.Pairwise
          (fun a b => getMin a ≤ getMin b) := by
        rw [List.reverse_cons, List.pairwise_append]
        refine ⟨hrpw, List.pairwise_singleton _ _, ?_⟩
        intro a ha b hb
        rw [List.mem_singleton] at hb
        rw [hb]
        exact hmins e (List.mem_cons_self _ _) a (List.mem_reverse.mp ha)
      have hrch' : (e :: last :: tail).reverse.Chain'
          (fun a b => ¬ (getMin b ≤ qadd (getMax a) tol)) := by
        rw [List.reverse_cons, List.chain'_append]
        refine ⟨hrch, List.chain'_singleton _, ?_⟩
        intro x hx y hy
        rw [List.head?_cons, Option.mem_def, Option.some.injEq] at hy
        subst hy
        rw [List.getLast?_reverse, List.head?_cons, Option.mem_def,
          Option.some.injEq] at hx
        subst hx
        exact h1
      obtain ⟨out, hout, hone, htwo, hthree, hfour⟩ :=
        ih e (last :: tail) hacc' hrest' hmins' hrestpw.2 hrpw' hrch'
      exact ⟨out, hout, hone, htwo, hthree, hfour⟩

theorem resize_object_x1_full (e : Edge) (v : ℚ) (h1 : e.x0 ≤ e.x1) (h2 : e.x1 < v) :
    ∃ e', resize_object_x1 e v = .ok e' ∧ e'.x0 = e.x0 ∧ e'.x1 = v
      ∧ e'.top = e.top ∧ e'.orientation = e.orientation := by
  rw [resize_object_x1, if_pos (h1.trans h2.le)]
  exact ⟨_, rfl, rfl, rfl, rfl, rfl⟩

theorem resize_object_bottom_full (e : Edge) (v : ℚ) (h1 : e.top ≤ e.bottom)
    (h2 : e.bottom < v) :
    ∃ e', resize_object_bottom e v = .ok e' ∧ e'.top = e.top ∧ e'.bottom = v
      ∧ e'.x0 = e.x0 ∧ e'.orientation = e.orientation := by
  rw [resize_object_bottom, if_pos (h1.trans h2.le)]
  exact ⟨_, rfl, rfl, rfl, rfl, rfl⟩

theorem edge_sortx0_pairwise (g : List Edge) :
    (sortBy (fun a b : Edge => decide (a.x0 ≤ b.x0)) g).Pairwise
      (fun a b => a.x0 ≤ b.x0) := by
  have h := @sortBy_pairwise Edge (fun a b : Edge => decide (a.x0 ≤ b.x0))
    (fun a b c h1 h2 => by
      rw [decide_eq_true_eq] at h1 h2 ⊢
      exact le_trans h1 h2)
    (fun a b => by
      rcases le_total a.x0 b.x0 with h | h
      · exact Or.inl (decide_eq_true h)
      · exact Or.inr (decide_eq_true h)) g
  exact h.imp (fun hab => of_decide_eq_true hab)

theorem edge_sorttop_pairwise (g : List Edge) :
    (sortBy (fun a b : Edge => decide (a.top ≤ b.top)) g).Pairwise
      (fun a b => a.top ≤ b.top) := by
  have h := @sortBy_pairwise Edge (fun a b : Edge => decide (a.top ≤ b.top))
    (fun a b c h1 h2 => by
      rw [decide_eq_true_eq] at h1 h2 ⊢
      exact le_trans h1 h2)
    (fun a b => by
      rcases le_total a.top b.top with h | h
      · exact Or.inl (decide_eq_true h)
      · exact Or.inr (decide_eq_true h)) g
  exact h.imp (fun hab => of_decide_eq_true hab)

theorem join_edge_group_h_spec (g : List Edge) (t : ℚ) (tol : ℚ)
    (hne : g ≠ [])
    (hfacts : ∀ e ∈ g, e.orientation = "h" ∧ e.top = t ∧ e.x0 ≤ e.x1) :
    ∃ out, join_edge_group g "h" tol = .ok out ∧ out ≠ []
      ∧ (∀ e ∈ out, e.orientation = "h" ∧ e.top = t ∧ e.x0 ≤ e.x1)
      ∧ out.Pairwise (fun a b => a.x0 ≤ b.x0)
      ∧ out.Chain' (fun a b => ¬ (b.x0 ≤ qadd a.x1 tol)) := by
  rw [join_edge_group, if_pos rfl]
  cases hs : sortBy (fun a b : Edge => decide (a.x0 ≤ b.x0)) g with
  | nil =>
    have hp := sortBy_perm (fun a b : Edge => decide (a.x0 ≤ b.x0)) g
    rw [hs] at hp
    exact absurd hp.symm.eq_nil hne
  | cons e0 rest =>
    have hmem : ∀ e ∈ e0 :: rest, e ∈ g := by
      intro e he
      exact mem_sortBy.mp (hs ▸ he)
    have hspw := edge_sortx0_pairwise g
    rw [hs, List.pairwise_cons] at hspw
    obtain ⟨acc, hacc, hne', hfacts', hrpw, hrch⟩ :=
      @joinFold_spec (fun e => e.x0) (fun e => e.x1) resize_object_x1 tol
        (fun e => e.orientation = "h" ∧ e.top = t)
        (fun e v hP h1 h2 => by
          obtain ⟨e', he', hx0, hx1, htop, hor⟩ := resize_object_x1_full e v h1 h2
          exact ⟨e', he', hx0, hx1, hor.trans hP.1, htop.trans hP.2⟩)
        rest e0 []
        (by
          intro e he
          rw [List.mem_singleton] at he
          subst he
          obtain ⟨h1, h2, h3⟩ := hfacts e (hmem e (List.mem_cons_self _ _))
          exact ⟨⟨h1, h2⟩, h3⟩)
        (by
          intro e he
          obtain ⟨h1, h2, h3⟩ := hfacts e (hmem e (List.mem_cons_of_mem _ he))
          exact ⟨⟨h1, h2⟩, h3⟩)
        (by
          intro y hy a ha
          rw [List.mem_singleton] at ha
          subst ha
          exact hspw.1 y hy)
        hspw.2
        (by simp)
        (by simp)
    refine ⟨acc.reverse, ?_, by simp [hne'], ?_, ?_, ?_⟩
    · show (List.foldlM (joinStep (fun e => e.x0) (fun e => e.x1) resize_object_x1 tol)
          [e0] rest >>= fun a => pure a.reverse) = Except.ok acc.reverse
      rw [hacc]
      rfl
    · intro e he
      rw [List.mem_reverse] at he
      obtain ⟨⟨h1, h2⟩, h3⟩ := hfacts' e he
      exact ⟨h1, h2, h3⟩
    · exact hrpw
    · exact hrch

theorem join_edge_group_v_spec (g : List Edge) (x : ℚ) (o : String) (tol : ℚ)
    (hne : g ≠ []) (ho : o ≠ "h")
    (hfacts : ∀ e ∈ g, e.orientation = o ∧ e.x0 = x ∧ e.top ≤ e.bottom) :
    ∃ out, join_edge_group g "v" tol = .ok out ∧ out ≠ []
      ∧ (∀ e ∈ out, e.orientation = o ∧ e.x0 = x ∧ e.top ≤ e.bottom)
      ∧ out.Pairwise (fun a b => a.top ≤ b.top)
      ∧ out.Chain' (fun a b => ¬ (b.top ≤ qadd a.bottom tol)) := by
  rw [join_edge_group, if_neg (by decide), if_pos rfl]
  cases hs : sortBy (fun a b : Edge => decide (a.top ≤ b.top)) g with
  | nil =>
    have hp := sortBy_perm (fun a b : Edge => decide (a.top ≤ b.top)) g
    rw [hs] at hp
    exact absurd hp.symm.eq_nil hne
  | cons e0 rest =>
    have hmem : ∀ e ∈ e0 :: rest, e ∈ g := by
      intro e he
      exact mem_sortBy.mp (hs ▸ he)
    have hspw := edge_sorttop_pairwise g
    rw [hs, List.pairwise_cons] at hspw
    obtain ⟨acc, hacc, hne', hfacts', hrpw, hrch⟩ :=
      @joinFold_spec (fun e => e.top) (fun e => e.bottom) resize_object_bottom tol
        (fun e => e.orientation = o ∧ e.x0 = x)
        (fun e v hP h1 h2 => by
          obtain ⟨e', he', htop, hbot, hx0, hor⟩ := resize_object_bottom_full e v h1 h2
          exact ⟨e', he', htop, hbot, hor.trans hP.1, hx0.trans hP.2⟩)
        rest e0 []
        (by
          intro e he
          rw [List.mem_singleton] at he
          subst he
          obtain ⟨h1, h2, h3⟩ := hfacts e (hmem e (List.mem_cons_self _ _))
          exact ⟨⟨h1, h2⟩, h3⟩)
        (by
          intro e he
          obtain ⟨h1, h2, h3⟩ := hfacts e (hmem e (List.mem_cons_of_mem _ he))
          exact ⟨⟨h1, h2⟩, h3⟩)
        (by
          intro y hy a ha
          rw [List.mem_singleton] at ha
          subst ha
          exact hspw.1 y hy)
        hspw.2
        (by simp)
        (by simp)
    refine ⟨acc.reverse, ?_, by simp [hne'], ?_, ?_, ?_⟩
    · show (List.foldlM (joinStep (fun e => e.top) (fun e => e.bottom)
          resize_object_bottom tol) [e0] rest >>= fun a => pure a.reverse)
          = Except.ok acc.reverse
      rw [hacc]
      rfl
    · intro e he
      rw [List.mem_reverse] at he
      obtain ⟨⟨h1, h2⟩, h3⟩ := hfacts' e he
      exact ⟨h1, h2, h3⟩
    · exact hrpw
    · exact hrch

theorem joinFold_separated {getMin getMax : Edge → ℚ}
    {resize : Edge → ℚ → Except MErr Edge} {tol : ℚ} :
    ∀ (rest : List Edge) (last : Edge) (tail : List Edge),
      List.Chain' (fun a b => ¬ (getMin b ≤ qadd (getMax a) tol)) (last :: rest) →
      rest.foldlM (joinStep getMin getMax resize tol) (last :: tail)
        = .ok (rest.reverse ++ last :: tail) := by
  intro rest
  induction rest with
  | nil =>
    intro last tail _
    rfl
  | cons e es ih =>
    intro last tail hch
    rw [List.chain'_cons] at hch
    rw [List.foldlM_cons]
    have hstep : joinStep getMin getMax resize tol (last :: tail) e
        = if getMin e ≤ qadd (getMax last) tol then
            if getMax last < getMax e then
              (resize last (getMax e)).bind (fun last' => pure (last' :: tail))
            else pure (last :: tail)
          else pure (e :: last :: tail) := rfl
    rw [hstep, if_neg hch.1]
    rw [show ((pure (e :: last :: tail) : Except MErr (List Edge))
        >>= fun acc => es.foldlM (joinStep getMin getMax resize tol) acc)
        = es.foldlM (joinStep getMin getMax resize tol) (e :: last :: tail) from rfl]
    rw [ih e (last :: tail) hch.2]
    simp [List.append_assoc]

theorem join_edge_group_h_id (g : List Edge) (tol : ℚ) (hne : g ≠ [])
    (hpw : g.Pairwise (fun a b => a.x0 ≤ b.x0))
    (hch : g.Chain' (fun a b => ¬ (b.x0 ≤ qadd a.x1 tol))) :
    join_edge_group g "h" tol = .ok g := by
  rw [join_edge_group, if_pos rfl]
  have hsort : sortBy (fun a b : Edge => decide (a.x0 ≤ b.x0)) g = g :=
    sortBy_eq_self (hpw.imp (fun hab => decide_eq_true hab))
  rw [hsort]
  obtain ⟨e0, rest, rfl⟩ : ∃ e0 rest, g = e0 :: rest := by
    cases hg : g with
    | nil => exact absurd hg hne
    | cons e0 rest => exact ⟨e0, rest, rfl⟩
  show (List.foldlM (joinStep (fun e => e.x0) (fun e => e.x1) resize_object_x1 tol)
      [e0] rest >>= fun a => pure a.reverse) = Except.ok (e0 :: rest)
  rw [show ([e0] : List Edge) = e0 :: ([] : List Edge) from rfl]
  rw [joinFold_separated rest e0 [] hch]
  show Except.ok ((rest.reverse ++ [e0]).reverse) = Except.ok (e0 :: rest)
  rw [List.reverse_append, List.reverse_reverse]
  rfl

theorem join_edge_group_v_id (g : List Edge) (tol : ℚ) (hne : g ≠ [])
    (hpw : g.Pairwise (fun a b => a.top ≤ b.top))
    (hch : g.Chain' (fun a b => ¬ (b.top ≤ qadd a.bottom tol))) :
    join_edge_group g "v" tol = .ok g := by
  rw [join_edge_group, if_neg (by decide), if_pos rfl]
  have hsort : sortBy (fun a b : Edge => decide (a.top ≤ b.top)) g = g :=
    sortBy_eq_self (hpw.imp (fun hab => decide_eq_true hab))
  rw [hsort]
  obtain ⟨e0, rest, rfl⟩ : ∃ e0 rest, g = e0 :: rest := by
    cases hg : g with
    | nil => exact absurd hg hne
    | cons e0 rest => exact ⟨e0, rest, rfl⟩
  show (List.foldlM (joinStep (fun e => e.top) (fun e => e.bottom)
      resize_object_bottom tol) [e0] rest >>= fun a => pure a.reverse)
      = Except.ok (e0 :: rest)
  rw [show ([e0] : List Edge) = e0 :: ([] : List Edge) from rfl]
  rw [joinFold_separated rest e0 [] hch]
  show Except.ok ((rest.reverse ++ [e0]).reverse) = Except.ok (e0 :: rest)
  rw [List.reverse_append, List.reverse_reverse]
  rfl

theorem qadd_qsub_cancel (a b : ℚ) : qadd b (qsub a b) = a := by
  rw [qadd_eq, qsub_eq]
  ring

theorem pairwise_of_chain'_trans {α : Type} {R : α → α → Prop}
    (tr : ∀ a b c, R a b → R b c → R a c) :
    ∀ {l : List α}, l.Chain' R → l.Pairwise R := by
  intro l
  induction l with
  | nil => intro _; exact List.Pairwise.nil
  | cons a l ih =>
    intro h
    rw [List.chain'_cons'] at h
    have hpl := ih h.2
    rw [List.pairwise_cons]
    refine ⟨?_, hpl⟩
    intro b hb
    cases hl : l with
    | nil => rw [hl] at hb; cases hb
    | cons c l' =>
      have hac : R a c := h.1 c (by rw [hl]; rfl)
      rw [hl] at hb hpl
      rcases List.mem_cons.mp hb with rfl | hb'
      · exact hac
      · rw [List.pairwise_cons] at hpl
        exact tr a c b hac (hpl.1 b hb')

theorem chain'_and_pairwise {α : Type} {R S : α → α → Prop} :
    ∀ {l : List α}, l.Chain' R → l.Pairwise S →
      l.Chain' (fun a b => R a b ∧ S a b) := by
  intro l
  induction l with
  | nil => intro _ _; exact List.chain'_nil
  | cons a l ih =>
    intro hch hpw
    rw [List.chain'_cons'] at hch ⊢
    rw [List.pairwise_cons] at hpw
    refine ⟨?_, ih hch.2 hpw.2⟩
    intro b hb
    exact ⟨hch.1 b hb, hpw.1 b (List.mem_of_mem_head? hb)⟩

theorem zip_self_map {α β : Type} (f : α → β) :
    ∀ (l : List α), l.zip (l.map f) = l.map (fun a => (a, f a)) := by
  intro l
  induction l with
  | nil => rfl
  | cons a l ih => simp only [List.map_cons, List.zip_cons_cons, ih]

theorem pairwise_getElem?_of_lt {α : Type} {R : α → α → Prop} {l : List α}
    (h : l.Pairwise R) {i j : ℕ} {a b : α} (hij : i < j)
    (ha : l[i]? = some a) (hb : l[j]? = some b) : R a b := by
  rw [List.getElem?_eq_some] at ha hb
  obtain ⟨hi, hia⟩ := ha
  obtain ⟨hj, hjb⟩ := hb
  rw [← hia, ← hjb]
  exact List.pairwise_iff_getElem.mp h i j hi hj hij

/-- The sorted `(object, cluster index)` tuples built inside `cluster_objects`. -/
def clusterTuples (objs : List Edge) (attr : Edge → ℚ) (tol : ℚ) : List (Edge × ℕ) :=
  sortBy (fun a b : Edge × ℕ => decide (a.2 ≤ b.2))
    (objs.map (fun o => (o, lookupD (make_cluster_dict (objs.map attr) tol) (attr o) 0)))

/-- The `itertools.groupby` pass inside `cluster_objects`. -/
def clusterGroups (objs : List Edge) (attr : Edge → ℚ) (tol : ℚ) :
    List (ℕ × List (Edge × ℕ)) :=
  pyGroupBy (fun t : Edge × ℕ => t.2) (clusterTuples objs attr tol)

theorem cluster_objects_eq (objs : List Edge) (attr : Edge → ℚ) (tol : ℚ) :
    cluster_objects objs attr tol
      = (clusterGroups objs attr tol).map (fun g => g.2.map Prod.fst) := rfl

theorem tuple_sort_pairwise (l : List (Edge × ℕ)) :
    (sortBy (fun a b : Edge × ℕ => decide (a.2 ≤ b.2)) l).Pairwise
      (fun a b => a.2 ≤ b.2) := by
  have h := @sortBy_pairwise (Edge × ℕ) (fun a b => decide (a.2 ≤ b.2))
    (fun a b c h1 h2 => by
      rw [decide_eq_true_eq] at h1 h2 ⊢
      exact le_trans h1 h2)
    (fun a b => by
      rcases le_total a.2 b.2 with h | h
      · exact Or.inl (decide_eq_true h)
      · exact Or.inr (decide_eq_true h)) l
  exact h.imp (fun hab => of_decide_eq_true hab)

theorem tuple_entry_spec (objs : List Edge) (attr : Edge → ℚ) (tol : ℚ)
    (htol : 0 ≤ tol) :
    ∀ t ∈ clusterTuples objs attr tol,
      ∃ cl, (cluster_list (objs.map attr).dedup tol)[t.2]? = some cl
        ∧ attr t.1 ∈ cl := by
  intro t ht
  rw [clusterTuples, mem_sortBy] at ht
  rcases List.mem_map.mp ht with ⟨o, ho, rfl⟩
  have hv : attr o ∈ (objs.map attr).dedup :=
    List.mem_dedup.mpr (List.mem_map.mpr ⟨o, ho, rfl⟩)
  have hvf : attr o ∈ (cluster_list (objs.map attr).dedup tol).flatMap id := by
    rw [(cluster_list_spec (objs.map attr).dedup tol htol (List.nodup_dedup _)).2.1]
    exact mem_sortBy.mpr hv
  obtain ⟨j, cl, hget, hmem, hlook⟩ := lookup_make_cluster_dict hvf
  refine ⟨cl, ?_, hmem⟩
  have hD : lookupD (make_cluster_dict (objs.map attr) tol) (attr o) 0 = j := by
    rw [lookupD, hlook]
  rw [show ((o, lookupD (make_cluster_dict (objs.map attr) tol) (attr o) 0) :
      Edge × ℕ).2 = lookupD (make_cluster_dict (objs.map attr) tol) (attr o) 0 from rfl]
  rw [hD]
  exact hget

theorem cluster_groups_spec (objs : List Edge) (attr : Edge → ℚ) (tol : ℚ)
    (htol : 0 ≤ tol) :
    ∀ kg ∈ clusterGroups objs attr tol,
      ∃ cl, (cluster_list (objs.map attr).dedup tol)[kg.1]? = some cl
        ∧ ∀ t ∈ kg.2, attr t.1 ∈ cl := by
  intro kg hkg
  have hne := pyGroupBy_nonempty _ _ kg hkg
  obtain ⟨t0, ht0⟩ := List.exists_mem_of_ne_nil kg.2 hne
  have hmem : ∀ t ∈ kg.2, t ∈ clusterTuples objs attr tol := by
    intro t ht
    rw [← pyGroupBy_flatten (fun t : Edge × ℕ => t.2) (clusterTuples objs attr tol)]
    exact List.mem_flatMap.mpr ⟨kg, hkg, ht⟩
  have hkey : ∀ t ∈ kg.2, t.2 = kg.1 :=
    fun t ht => pyGroupBy_key_eq _ _ kg hkg t ht
  obtain ⟨cl0, hget0, hmem0⟩ := tuple_entry_spec objs attr tol htol t0 (hmem t0 ht0)
  refine ⟨cl0, by rw [← hkey t0 ht0]; exact hget0, ?_⟩
  intro t ht
  obtain ⟨cl, hget, hm⟩ := tuple_entry_spec objs attr tol htol t (hmem t ht)
  have : cl = cl0 := by
    rw [hkey t ht] at hget
    rw [hkey t0 ht0] at hget0
    rw [hget] at hget0
    exact (Option.some.injEq _ _ ▸ hget0 : _)
  rw [← this]
  exact hm

theorem cluster_objects_nonempty' (objs : List Edge) (attr : Edge → ℚ) (tol : ℚ) :
    ∀ c ∈ cluster_objects objs attr tol, c ≠ [] := by
  intro c hc
  rw [cluster_objects_eq] at hc
  rcases List.mem_map.mp hc with ⟨g, hg, rfl⟩
  have := pyGroupBy_nonempty _ _ g hg
  intro h
  exact this (List.map_eq_nil.mp h)

theorem cluster_objects_avg_pairwise (objs : List Edge) (attr : Edge → ℚ) (tol : ℚ)
    (htol : 0 ≤ tol) :
    (cluster_objects objs attr tol).Pairwise
      (fun c c' => qadd (clusterAvg attr c) tol < clusterAvg attr c') := by
  rw [cluster_objects_eq, List.pairwise_map]
  have h1 : (clusterTuples objs attr tol).Pairwise (fun a b => a.2 ≤ b.2) := by
    rw [clusterTuples]
    exact tuple_sort_pairwise _
  have h2 : (clusterGroups objs attr tol).Pairwise (fun g g' => g.1 ≤ g'.1) :=
    pyGroupBy_keys_pairwise _ (· ≤ ·) _ h1
  have h3 : (clusterGroups objs attr tol).Chain' (fun g g' => g.1 ≠ g'.1) :=
    pyGroupBy_chain_ne _ _
  have h4 : (clusterGroups objs attr tol).Pairwise (fun g g' => g.1 < g'.1) := by
    refine pairwise_of_chain'_trans
      (fun (a b c : ℕ × List (Edge × ℕ)) (h1 : a.1 < b.1) (h2 : b.1 < c.1) =>
        lt_trans h1 h2) ?_
    exact (chain'_and_pairwise h3 h2).imp (fun a b h => lt_of_le_of_ne h.2 h.1)
  have hCL := cluster_list_spec (objs.map attr).dedup tol htol (List.nodup_dedup _)
  refine h4.imp_of_mem ?_
  intro g g' hg hg' hlt
  obtain ⟨cl, hget, hcl⟩ := cluster_groups_spec objs attr tol htol g hg
  obtain ⟨cl', hget', hcl'⟩ := cluster_groups_spec objs attr tol htol g' hg'
  have hsep : ∀ a ∈ cl, ∀ b ∈ cl', qadd a tol < b :=
    pairwise_getElem?_of_lt hCL.2.2.2.1 hlt hget hget'
  have hne : g.2.map Prod.fst ≠ [] := by
    intro h
    exact pyGroupBy_nonempty _ _ g hg (List.map_eq_nil.mp h)
  have hne' : g'.2.map Prod.fst ≠ [] := by
    intro h
    exact pyGroupBy_nonempty _ _ g' hg' (List.map_eq_nil.mp h)
  obtain ⟨_, ⟨o2, ho2, hup⟩⟩ := clusterAvg_bounds attr (g.2.map Prod.fst) hne
  obtain ⟨⟨o1, ho1, hlo⟩, _⟩ := clusterAvg_bounds attr (g'.2.map Prod.fst) hne'
  rcases List.mem_map.mp ho2 with ⟨t2, ht2, rfl⟩
  rcases List.mem_map.mp ho1 with ⟨t1, ht1, rfl⟩
  have hin2 : attr t2.1 ∈ cl := hcl t2 ht2
  have hin1 : attr t1.1 ∈ cl' := hcl' t1 ht1
  have hsep12 := hsep _ hin2 _ hin1
  rw [qadd_eq] at hsep12 ⊢
  linarith

theorem snap_objects_eq (objs : List Edge) (attr : Edge → ℚ) (axis : String) (tol : ℚ) :
    snap_objects objs attr axis tol
      = ((cluster_objects objs attr tol).map
          (fun c => c.map (fun o =>
            move_object o axis (qsub (clusterAvg attr c) (attr o))))).flatten := by
  show (((cluster_objects objs attr tol).zip
      ((cluster_objects objs attr tol).map (fun c => clusterAvg attr c))).map
      (fun ca => ca.1.map (fun o => move_object o axis (qsub ca.2 (attr o))))).flatten = _
  rw [zip_self_map, List.map_map]
  rfl

theorem snap_objects_members (objs : List Edge) (attr : Edge → ℚ) (axis : String)
    (tol : ℚ) :
    ∀ y ∈ snap_objects objs attr axis tol,
      ∃ c ∈ cluster_objects objs attr tol, ∃ o ∈ c,
        y = move_object o axis (qsub (clusterAvg attr c) (attr o)) := by
  intro y hy
  rw [snap_objects_eq] at hy
  rw [List.mem_flatten] at hy
  obtain ⟨s, hs, hys⟩ := hy
  rcases List.mem_map.mp hs with ⟨c, hc, rfl⟩
  rcases List.mem_map.mp hys with ⟨o, ho, rfl⟩
  exact ⟨c, hc, o, ho, rfl⟩

theorem snap_objects_attr_eq (objs : List Edge) (attr : Edge → ℚ) (axis : String)
    (tol : ℚ)
    (hmove : ∀ o v, attr (move_object o axis v) = qadd (attr o) v) :
    ∀ y ∈ snap_objects objs attr axis tol,
      ∃ c ∈ cluster_objects objs attr tol, attr y = clusterAvg attr c := by
  intro y hy
  obtain ⟨c, hc, o, ho, rfl⟩ := snap_objects_members objs attr axis tol y hy
  refine ⟨c, hc, ?_⟩
  rw [hmove, qadd_qsub_cancel]

theorem snap_objects_attr_sep (objs : List Edge) (attr : Edge → ℚ) (axis : String)
    (tol : ℚ) (htol : 0 ≤ tol)
    (hmove : ∀ o v, attr (move_object o axis v) = qadd (attr o) v) :
    ∀ y ∈ snap_objects objs attr axis tol, ∀ z ∈ snap_objects objs attr axis tol,
      attr y < attr z → qadd (attr y) tol < attr z := by
  intro y hy z hz hlt
  obtain ⟨c, hc, hyc⟩ := snap_objects_attr_eq objs attr axis tol hmove y hy
  obtain ⟨c', hc', hzc⟩ := snap_objects_attr_eq objs attr axis tol hmove z hz
  have hpw : (cluster_objects objs attr tol).Pairwise
      (fun a b => qadd (clusterAvg attr a) tol < clusterAvg attr b
        ∨ qadd (clusterAvg attr b) tol < clusterAvg attr a) :=
    (cluster_objects_avg_pairwise objs attr tol htol).imp (fun h => Or.inl h)
  by_cases hcc : c = c'
  · exfalso
    rw [hyc, hzc, hcc] at hlt
    exact lt_irrefl _ hlt
  · have hQ := hpw.forall (fun a b h => h.symm) hc hc' hcc
    rcases hQ with h | h
    · rw [hyc, hzc]
      exact h
    · exfalso
      rw [← hyc, ← hzc, qadd_eq] at h
      have : attr z < attr y := by linarith
      exact lt_asymm hlt this


theorem snap_objects_id (objs : List Edge) (attr : Edge → ℚ) (axis : String) (tol : ℚ)
    (htol : 0 ≤ tol)
    (hsorted : objs.Pairwise (fun a b => attr a ≤ attr b))
    (hsep : ∀ a ∈ objs, ∀ b ∈ objs, attr a < attr b → qadd (attr a) tol < attr b) :
    snap_objects objs attr axis tol = objs := by
  have hvpw : (objs.map attr).Pairwise (· ≤ ·) := List.pairwise_map.mpr hsorted
  have hxpw : (objs.map attr).dedup.Pairwise (· ≤ ·) :=
    hvpw.sublist (List.dedup_sublist _)
  have hxnd : (objs.map attr).dedup.Nodup := List.nodup_dedup _
  have hxsep : ∀ a ∈ (objs.map attr).dedup, ∀ b ∈ (objs.map attr).dedup,
      a < b → qadd a tol < b := by
    intro a ha b hb hab
    rcases List.mem_map.mp (List.mem_dedup.mp ha) with ⟨o, ho, rfl⟩
    rcases List.mem_map.mp (List.mem_dedup.mp hb) with ⟨o', ho', rfl⟩
    exact hsep o ho o' ho' hab
  have hCL := cluster_list_spec (objs.map attr).dedup tol htol hxnd
  have hsingle := cluster_list_singletons (objs.map attr).dedup tol htol hxnd hxsep
  have hmemflat : ∀ o ∈ objs,
      attr o ∈ (cluster_list (objs.map attr).dedup tol).flatMap id := by
    intro o ho
    rw [hCL.2.1]
    exact mem_sortBy.mpr (List.mem_dedup.mpr (List.mem_map.mpr ⟨o, ho, rfl⟩))
  have hidxD : ∀ o ∈ objs, ∃ j,
      lookupD (make_cluster_dict (objs.map attr) tol) (attr o) 0 = j
      ∧ (cluster_list (objs.map attr).dedup tol)[j]? = some [attr o] := by
    intro o ho
    obtain ⟨j, cl, hget, hmem, hlook⟩ := lookup_make_cluster_dict (hmemflat o ho)
    obtain ⟨v, rfl⟩ := hsingle cl (by
      rw [List.getElem?_eq_some] at hget
      obtain ⟨hj, hcl⟩ := hget
      rw [← hcl]
      exact List.getElem_mem hj)
    rw [List.mem_singleton] at hmem
    subst hmem
    exact ⟨j, by rw [lookupD, hlook], hget⟩
  have hidx_mono : ∀ o ∈ objs, ∀ o' ∈ objs, attr o ≤ attr o' →
      lookupD (make_cluster_dict (objs.map attr) tol) (attr o) 0
        ≤ lookupD (make_cluster_dict (objs.map attr) tol) (attr o') 0 := by
    intro o ho o' ho' hle
    obtain ⟨j, hDj, hgetj⟩ := hidxD o ho
    obtain ⟨j', hDj', hgetj'⟩ := hidxD o' ho'
    rw [hDj, hDj']
    by_contra hcon
    push_neg at hcon
    have hsepj := pairwise_getElem?_of_lt hCL.2.2.2.1 hcon hgetj' hgetj
    have h1 := hsepj (attr o') (by simp) (attr o) (by simp)
    rw [qadd_eq] at h1
    have h2 : attr o' < attr o := by linarith
    exact absurd hle (not_le_of_lt h2)
  have htuppw : (objs.map (fun o =>
      (o, lookupD (make_cluster_dict (objs.map attr) tol) (attr o) 0))).Pairwise
      (fun a b : Edge × ℕ => decide (a.2 ≤ b.2) = true) := by
    rw [List.pairwise_map]
    refine hsorted.imp_of_mem ?_
    intro a b ha hb hab
    exact decide_eq_true (hidx_mono a ha b hb hab)
  have htuples : clusterTuples objs attr tol = objs.map (fun o =>
      (o, lookupD (make_cluster_dict (objs.map attr) tol) (attr o) 0)) := by
    rw [clusterTuples]
    exact sortBy_eq_self htuppw
  have hgroupmem : ∀ g ∈ clusterGroups objs attr tol, ∀ o ∈ g.2.map Prod.fst,
      o ∈ objs
      ∧ lookupD (make_cluster_dict (objs.map attr) tol) (attr o) 0 = g.1 := by
    intro g hg o ho
    rcases List.mem_map.mp ho with ⟨t, ht, rfl⟩
    have htt : t ∈ clusterTuples objs attr tol := by
      rw [← pyGroupBy_flatten (fun t : Edge × ℕ => t.2) (clusterTuples objs attr tol)]
      exact List.mem_flatMap.mpr ⟨g, hg, ht⟩
    rw [htuples] at htt
    rcases List.mem_map.mp htt with ⟨o', ho', hto⟩
    have hkey := pyGroupBy_key_eq (fun t : Edge × ℕ => t.2) _ g hg t ht
    refine ⟨?_, ?_⟩
    · rw [← hto]
      exact ho'
    · rw [← hto] at hkey ⊢
      exact hkey
  have hmapc : ∀ c ∈ cluster_objects objs attr tol,
      c.map (fun o => move_object o axis (qsub (clusterAvg attr c) (attr o))) = c := by
    intro c hc
    have hcne := cluster_objects_nonempty' objs attr tol c hc
    rw [cluster_objects_eq] at hc
    rcases List.mem_map.mp hc with ⟨g, hg, rfl⟩
    obtain ⟨o0, ho0⟩ := List.exists_mem_of_ne_nil _ hcne
    have hconst : ∀ o ∈ g.2.map Prod.fst, attr o = attr o0 := by
      intro o ho
      obtain ⟨homem, hokey⟩ := hgroupmem g hg o ho
      obtain ⟨h0mem, h0key⟩ := hgroupmem g hg o0 ho0
      obtain ⟨j, hDj, hgetj⟩ := hidxD o homem
      obtain ⟨j0, hDj0, hgetj0⟩ := hidxD o0 h0mem
      have hjj : j = j0 := by
        rw [← hDj, ← hDj0, hokey, h0key]
      rw [hjj] at hgetj
      rw [hgetj] at hgetj0
      have h3 := Option.some.inj hgetj0
      exact (List.cons.inj h3).1
    have havg : clusterAvg attr (g.2.map Prod.fst) = attr o0 :=
      clusterAvg_const attr _ hcne (attr o0) hconst
    rw [show (g.2.map Prod.fst).map (fun o => move_object o axis
        (qsub (clusterAvg attr (g.2.map Prod.fst)) (attr o)))
        = (g.2.map Prod.fst).map (fun o => o) from
      List.map_congr_left (by
        intro o ho
        rw [havg, hconst o ho, qsub_self, move_object_zero])]
    rw [List.map_id']
  have hflatten : ((cluster_objects objs attr tol).map (fun c => c)).flatten = objs := by
    rw [List.map_id']
    rw [cluster_objects_eq]
    rw [show ((clusterGroups objs attr tol).map (fun g => g.2.map Prod.fst)).flatten
        = (clusterGroups objs attr tol).flatMap (fun g => g.2.map Prod.fst) from by
      rw [List.flatMap_def]]
    rw [show (clusterGroups objs attr tol).flatMap (fun g => g.2.map Prod.fst)
        = ((clusterGroups objs attr tol).flatMap (fun g => g.2)).map Prod.fst from by
      rw [List.map_flatMap]]
    rw [show clusterGroups objs attr tol
        = pyGroupBy (fun t : Edge × ℕ => t.2) (clusterTuples objs attr tol) from rfl]
    rw [pyGroupBy_flatten, htuples, List.map_map]
    rw [show (Prod.fst ∘ fun o : Edge =>
        (o, lookupD (make_cluster_dict (objs.map attr) tol) (attr o) 0)) = id from rfl]
    rw [List.map_id]
  rw [snap_objects_eq]
  rw [List.map_congr_left hmapc]
  exact hflatten

theorem get_group_cases (e : Edge) :
    (e.orientation = "h" ∧ get_group e = ("h", e.top))
    ∨ (e.orientation ≠ "h" ∧ get_group e = ("v", e.x0)) := by
  by_cases h : e.orientation = "h"
  · exact Or.inl ⟨h, by rw [get_group, if_pos h]⟩
  · exact Or.inr ⟨h, by rw [get_group, if_neg h]⟩

theorem groupLe_hh (a b : ℚ) : groupLe ("h", a) ("h", b) = decide (a ≤ b) := by
  rw [groupLe, if_pos rfl]

theorem groupLe_vv (a b : ℚ) : groupLe ("v", a) ("v", b) = decide (a ≤ b) := by
  rw [groupLe, if_pos rfl]

theorem groupLe_hv (a b : ℚ) : groupLe ("h", a) ("v", b) = true := by
  rw [groupLe, if_neg (show ("h" : String) ≠ "v" from by decide)]
  rfl

theorem groupLe_vh (a b : ℚ) : groupLe ("v", a) ("h", b) = false := by
  rw [groupLe, if_neg (show ("v" : String) ≠ "h" from by decide)]
  rfl

/-- The sort relation used by `merge_edges`. -/
def edgeKeyLe (a b : Edge) : Bool := groupLe (get_group a) (get_group b)

theorem edgeKeyLe_trans : ∀ a b c : Edge, edgeKeyLe a b = true → edgeKeyLe b c = true →
    edgeKeyLe a c = true := by
  intro a b c h1 h2
  rw [edgeKeyLe] at h1 h2 ⊢
  rcases get_group_cases a with ⟨_, ha⟩ | ⟨_, ha⟩ <;>
    rcases get_group_cases b with ⟨_, hb⟩ | ⟨_, hb⟩ <;>
    rcases get_group_cases c with ⟨_, hc⟩ | ⟨_, hc⟩ <;>
    rw [ha, hb] at h1 <;> rw [hb, hc] at h2 <;> rw [ha, hc]
  · rw [groupLe_hh] at h1 h2 ⊢
    rw [decide_eq_true_eq] at h1 h2 ⊢
    exact le_trans h1 h2
  · rw [groupLe_hv]
  · rw [groupLe_vh] at h2
    cases h2
  · rw [groupLe_hv]
  · rw [groupLe_vh] at h1
    cases h1
  · rw [groupLe_vh] at h1
    cases h1
  · rw [groupLe_vh] at h2
    cases h2
  · rw [groupLe_vv] at h1 h2 ⊢
    rw [decide_eq_true_eq] at h1 h2 ⊢
    exact le_trans h1 h2

theorem edgeKeyLe_total : ∀ a b : Edge, edgeKeyLe a b = true ∨ edgeKeyLe b a = true := by
  intro a b
  rw [edgeKeyLe, edgeKeyLe]
  rcases get_group_cases a with ⟨_, ha⟩ | ⟨_, ha⟩ <;>
    rcases get_group_cases b with ⟨_, hb⟩ | ⟨_, hb⟩ <;> rw [ha, hb]
  · rw [groupLe_hh, groupLe_hh]
    rcases le_total a.top b.top with h | h
    · exact Or.inl (decide_eq_true h)
    · exact Or.inr (decide_eq_true h)
  · rw [groupLe_hv]
    exact Or.inl rfl
  · rw [groupLe_hv]
    exact Or.inr rfl
  · rw [groupLe_vv, groupLe_vv]
    rcases le_total a.x0 b.x0 with h | h
    · exact Or.inl (decide_eq_true h)
    · exact Or.inr (decide_eq_true h)

theorem groupLe_antisym (p q : String × ℚ)
    (hp : p.1 = "h" ∨ p.1 = "v") (hq : q.1 = "h" ∨ q.1 = "v")
    (h1 : groupLe p q = true) (h2 : groupLe q p = true) : p = q := by
  obtain ⟨p1, p2⟩ := p
  obtain ⟨q1, q2⟩ := q
  simp only at hp hq
  rcases hp with rfl | rfl <;> rcases hq with rfl | rfl
  · rw [groupLe_hh, decide_eq_true_eq] at h1 h2
    rw [le_antisymm h1 h2]
  · rw [groupLe_vh] at h2
    cases h2
  · rw [groupLe_vh] at h1
    cases h1
  · rw [groupLe_vv, decide_eq_true_eq] at h1 h2
    rw [le_antisymm h1 h2]

theorem pairwise_of_all {α : Type} {R : α → α → Prop} :
    ∀ {l : List α}, (∀ a ∈ l, ∀ b ∈ l, R a b) → l.Pairwise R := by
  intro l
  induction l with
  | nil => intro _; exact List.Pairwise.nil
  | cons x xs ih =>
    intro h
    rw [List.pairwise_cons]
    refine ⟨fun b hb => h x (List.mem_cons_self _ _) b (List.mem_cons_of_mem _ hb), ?_⟩
    exact ih (fun a ha b hb => h a (List.mem_cons_of_mem _ ha) b (List.mem_cons_of_mem _ hb))

theorem flatMap_blocks_pairwise (blocks : List (ℚ × List Edge)) (f : Edge → ℚ)
    (hkeys : (blocks.map Prod.fst).Pairwise (· < ·))
    (hconst : ∀ b ∈ blocks, ∀ e ∈ b.2, f e = b.1) :
    (blocks.flatMap (fun b => b.2)).Pairwise (fun a c => f a ≤ f c) := by
  induction blocks with
  | nil => exact List.Pairwise.nil
  | cons b rest ih =>
    rw [List.map_cons, List.pairwise_cons] at hkeys
    rw [List.flatMap_cons, List.pairwise_append]
    refine ⟨?_, ?_, ?_⟩
    · refine pairwise_of_all ?_
      intro a ha c hc
      rw [hconst b (List.mem_cons_self _ _) a ha,
        hconst b (List.mem_cons_self _ _) c hc]
    · exact ih hkeys.2 (fun b' hb' => hconst b' (List.mem_cons_of_mem _ hb'))
    · intro a ha c hc
      rcases List.mem_flatMap.mp hc with ⟨b', hb', hcb'⟩
      rw [hconst b (List.mem_cons_self _ _) a ha,
        hconst b' (List.mem_cons_of_mem _ hb') c hcb']
      exact le_of_lt (hkeys.1 b'.1 (List.mem_map.mpr ⟨b', hb', rfl⟩))

theorem sorted_prefix_split {α : Type} (p : α → Prop) [DecidablePred p]
    {R : α → α → Prop} :
    ∀ (l : List α), l.Pairwise R → (∀ a b, p a → ¬ p b → ¬ R b a) →
      ∃ A B, l = A ++ B ∧ (∀ a ∈ A, p a) ∧ (∀ b ∈ B, ¬ p b) := by
  intro l
  induction l with
  | nil => intro _ _; exact ⟨[], [], rfl, by simp, by simp⟩
  | cons x xs ih =>
    intro hpw hpR
    rw [List.pairwise_cons] at hpw
    obtain ⟨A, B, hAB, hA, hB⟩ := ih hpw.2 hpR
    by_cases hx : p x
    · refine ⟨x :: A, B, ?_, ?_, hB⟩
      · rw [hAB]
        rfl
      · intro a ha
        rcases List.mem_cons.mp ha with rfl | ha'
        · exact hx
        · exact hA a ha'
    · refine ⟨[], x :: (A ++ B), ?_, by simp, ?_⟩
      · rw [hAB]
        rfl
      · intro b hb
        rcases List.mem_cons.mp hb with rfl | hb'
        · exact hx
        · rcases List.mem_append.mp hb' with hb'' | hb''
          · intro hpb
            exact hpR b x hpb hx
              (hpw.1 b (by rw [hAB]; exact List.mem_append_left _ hb''))
          · exact hB b hb''

theorem forall₂_zip_spec {α β : Type} {Q : α → β → Prop} :
    ∀ {l : List α} {out : List β}, List.Forall₂ Q l out →
      (∀ pq ∈ l.zip out, Q pq.1 pq.2)
      ∧ (l.zip out).map Prod.fst = l ∧ (l.zip out).map Prod.snd = out := by
  intro l out h
  induction h with
  | nil => exact ⟨(by intro pq hpq; cases hpq), rfl, rfl⟩
  | cons hab htail ih =>
    refine ⟨?_, ?_, ?_⟩
    · intro pq hpq
      rw [List.zip_cons_cons] at hpq
      rcases List.mem_cons.mp hpq with rfl | hpq'
      · exact hab
      · exact ih.1 pq hpq'
    · rw [List.zip_cons_cons, List.map_cons, ih.2.1]
    · rw [List.zip_cons_cons, List.map_cons, ih.2.2]

theorem forall₂_append_split {α β : Type} {Q : α → β → Prop} :
    ∀ (A B : List α) (out : List β), List.Forall₂ Q (A ++ B) out →
      ∃ oA oB, out = oA ++ oB ∧ List.Forall₂ Q A oA ∧ List.Forall₂ Q B oB := by
  intro A
  induction A with
  | nil =>
    intro B out h
    exact ⟨[], out, rfl, List.Forall₂.nil, h⟩
  | cons a A' ih =>
    intro B out h
    rw [List.cons_append] at h
    cases h with
    | cons hab htail =>
      obtain ⟨oA, oB, rfl, hA, hB⟩ := ih B _ htail
      exact ⟨_ :: oA, oB, rfl, List.Forall₂.cons hab hA, hB⟩

theorem flatMap_of_map {α β γ : Type} (f : α → β) (g : β → List γ) :
    ∀ (l : List α), (l.map f).flatMap g = l.flatMap (fun x => g (f x)) := by
  intro l
  induction l with
  | nil => rfl
  | cons x xs ih => simp only [List.map_cons, List.flatMap_cons, ih]

theorem except_bind_ok {ε α β : Type} (a : α) (f : α → Except ε β) :
    (Except.ok a : Except ε α) >>= f = f a := rfl

theorem except_pure_bind {ε α β : Type} (a : α) (f : α → Except ε β) :
    (pure a : Except ε α) >>= f = f a := rfl

theorem forall₂_eq_map {α β : Type} {f : α → β} :
    ∀ {l : List α} {out : List β}, List.Forall₂ (fun a b => b = f a) l out →
      out = l.map f := by
  intro l out h
  induction h with
  | nil => rfl
  | cons hab htail ih => rw [List.map_cons, ih, hab]

/-- The structural invariant of `merge_edges` output: a block of horizontal
edges grouped by strictly increasing tops, then a block of vertical edges
grouped by strictly increasing x0, each group non-empty, well formed,
sorted and separated by the join tolerance; when snapping is active the
group keys are additionally separated by the snap tolerances. -/
def MergedForm (out : List Edge) (sx sy jx jy : ℚ) : Prop :=
  ∃ hb vb : List (ℚ × List Edge),
    out = (hb.flatMap (fun b => b.2)) ++ (vb.flatMap (fun b => b.2))
    ∧ (hb.map Prod.fst).Pairwise (· < ·)
    ∧ (vb.map Prod.fst).Pairwise (· < ·)
    ∧ (∀ b ∈ hb, b.2 ≠ [] ∧ ∀ e ∈ b.2,
        e.orientation = "h" ∧ e.top = b.1 ∧ e.x0 ≤ e.x1)
    ∧ (∀ b ∈ vb, b.2 ≠ [] ∧ ∀ e ∈ b.2,
        e.orientation = "v" ∧ e.x0 = b.1 ∧ e.top ≤ e.bottom)
    ∧ (∀ b ∈ hb, b.2.Pairwise (fun a c => a.x0 ≤ c.x0)
        ∧ b.2.Chain' (fun a c => ¬ (c.x0 ≤ qadd a.x1 jx)))
    ∧ (∀ b ∈ vb, b.2.Pairwise (fun a c => a.top ≤ c.top)
        ∧ b.2.Chain' (fun a c => ¬ (c.top ≤ qadd a.bottom jy)))
    ∧ ((0 < sx ∨ 0 < sy) →
        (∀ t ∈ hb.map Prod.fst, ∀ t' ∈ hb.map Prod.fst, t < t' → qadd t sy < t')
        ∧ (∀ x ∈ vb.map Prod.fst, ∀ x' ∈ vb.map Prod.fst, x < x' → qadd x sx < x'))

theorem merge_edges_id_of_form (out : List Edge) (sx sy jx jy : ℚ)
    (hsx : 0 ≤ sx) (hsy : 0 ≤ sy)
    (hform : MergedForm out sx sy jx jy) :
    merge_edges out sx sy jx jy = .ok out := by
  obtain ⟨hb, vb, hout, hkh, hkv, hbh, hbv, hjh, hjv, hsepk⟩ := hform
  have hHfacts : ∀ e ∈ hb.flatMap (fun b => b.2),
      e.orientation = "h" ∧ e.x0 ≤ e.x1 ∧ ∃ b ∈ hb, e.top = b.1 := by
    intro e he
    rcases List.mem_flatMap.mp he with ⟨b, hbm, heb⟩
    obtain ⟨h1, h2, h3⟩ := (hbh b hbm).2 e heb
    exact ⟨h1, h3, b, hbm, h2⟩
  have hVfacts : ∀ e ∈ vb.flatMap (fun b => b.2),
      e.orientation = "v" ∧ e.top ≤ e.bottom ∧ ∃ b ∈ vb, e.x0 = b.1 := by
    intro e he
    rcases List.mem_flatMap.mp he with ⟨b, hbm, heb⟩
    obtain ⟨h1, h2, h3⟩ := (hbv b hbm).2 e heb
    exact ⟨h1, h3, b, hbm, h2⟩
  have hHkey : ∀ e ∈ hb.flatMap (fun b => b.2), get_group e = ("h", e.top) :=
    fun e he => by rw [get_group, if_pos (hHfacts e he).1]
  have hVkey : ∀ e ∈ vb.flatMap (fun b => b.2), get_group e = ("v", e.x0) :=
    fun e he => by
      rw [get_group, if_neg]
      rw [(hVfacts e he).1]
      decide
  have hHpw_top : (hb.flatMap (fun b => b.2)).Pairwise (fun a c => a.top ≤ c.top) :=
    flatMap_blocks_pairwise hb (fun e => e.top) hkh
      (fun b hbm e he => ((hbh b hbm).2 e he).2.1)
  have hVpw_x0 : (vb.flatMap (fun b => b.2)).Pairwise (fun a c => a.x0 ≤ c.x0) :=
    flatMap_blocks_pairwise vb (fun e => e.x0) hkv
      (fun b hbm e he => ((hbv b hbm).2 e he).2.1)
  have hHpw_key : (hb.flatMap (fun b => b.2)).Pairwise
      (fun a c => groupLe (get_group a) (get_group c) = true) := by
    refine hHpw_top.imp_of_mem ?_
    intro a c ha hc hle
    rw [hHkey a ha, hHkey c hc, groupLe_hh]
    exact decide_eq_true hle
  have hVpw_key : (vb.flatMap (fun b => b.2)).Pairwise
      (fun a c => groupLe (get_group a) (get_group c) = true) := by
    refine hVpw_x0.imp_of_mem ?_
    intro a c ha hc hle
    rw [hVkey a ha, hVkey c hc, groupLe_vv]
    exact decide_eq_true hle
  have hcross_true : ∀ a ∈ hb.flatMap (fun b => b.2),
      ∀ c ∈ vb.flatMap (fun b => b.2),
      groupLe (get_group a) (get_group c) = true := by
    intro a ha c hc
    rw [hHkey a ha, hVkey c hc, groupLe_hv]
  have hcross_false : ∀ a ∈ vb.flatMap (fun b => b.2),
      ∀ c ∈ hb.flatMap (fun b => b.2),
      groupLe (get_group a) (get_group c) = false := by
    intro a ha c hc
    rw [hVkey a ha, hHkey c hc, groupLe_vh]
  have hsortHV : sortBy (fun a b : Edge => groupLe (get_group a) (get_group b))
      (hb.flatMap (fun b => b.2) ++ vb.flatMap (fun b => b.2))
      = hb.flatMap (fun b => b.2) ++ vb.flatMap (fun b => b.2) := by
    refine sortBy_eq_self ?_
    rw [List.pairwise_append]
    exact ⟨hHpw_key, hVpw_key, hcross_true⟩
  have hsortVH : sortBy (fun a b : Edge => groupLe (get_group a) (get_group b))
      (vb.flatMap (fun b => b.2) ++ hb.flatMap (fun b => b.2))
      = hb.flatMap (fun b => b.2) ++ vb.flatMap (fun b => b.2) :=
    sortBy_append_swap hVpw_key hHpw_key hcross_false
  have hruns : pyGroupBy get_group
      (hb.flatMap (fun b => b.2) ++ vb.flatMap (fun b => b.2))
      = hb.map (fun b => (("h", b.1), b.2)) ++ vb.map (fun b => (("v", b.1), b.2)) := by
    have hflat : (hb.map (fun b => ((("h", b.1) : String × ℚ), b.2))
        ++ vb.map (fun b => ((("v", b.1) : String × ℚ), b.2))).flatMap
          (fun r => r.2)
        = hb.flatMap (fun b => b.2) ++ vb.flatMap (fun b => b.2) := by
      rw [List.flatMap_append, flatMap_of_map, flatMap_of_map]
    rw [← hflat]
    refine pyGroupBy_concat get_group _ ?_ ?_
    · intro r hr
      rcases List.mem_append.mp hr with hr | hr
      · rcases List.mem_map.mp hr with ⟨b, hbm, rfl⟩
        refine ⟨(hbh b hbm).1, ?_⟩
        intro o ho
        have hto := ((hbh b hbm).2 o ho).2.1
        rw [hHkey o (List.mem_flatMap.mpr ⟨b, hbm, ho⟩), hto]
      · rcases List.mem_map.mp hr with ⟨b, hbm, rfl⟩
        refine ⟨(hbv b hbm).1, ?_⟩
        intro o ho
        have hto := ((hbv b hbm).2 o ho).2.1
        rw [hVkey o (List.mem_flatMap.mpr ⟨b, hbm, ho⟩), hto]
    · rw [List.chain'_append]
      refine ⟨?_, ?_, ?_⟩
      · rw [List.chain'_map]
        refine List.Chain'.imp ?_ ((List.pairwise_map.mp hkh).chain')
        intro a c h
        intro hcon
        rw [Prod.mk.injEq] at hcon
        exact absurd hcon.2 (ne_of_lt h)
      · rw [List.chain'_map]
        refine List.Chain'.imp ?_ ((List.pairwise_map.mp hkv).chain')
        intro a c h
        intro hcon
        rw [Prod.mk.injEq] at hcon
        exact absurd hcon.2 (ne_of_lt h)
      · intro x hx y hy
        have hxm := List.mem_of_mem_getLast? hx
        have hym := List.mem_of_mem_head? hy
        rcases List.mem_map.mp hxm with ⟨b, _, rfl⟩
        rcases List.mem_map.mp hym with ⟨b', _, rfl⟩
        intro hcon
        rw [Prod.mk.injEq] at hcon
        exact absurd hcon.1 (by decide)
  have hjoins : ∀ kg ∈ hb.map (fun b => ((("h", b.1) : String × ℚ), b.2))
      ++ vb.map (fun b => ((("v", b.1) : String × ℚ), b.2)),
      ∃ bl, join_edge_group kg.2 kg.1.1 (if kg.1.1 = "h" then jx else jy) = .ok bl
        ∧ bl = kg.2 := by
    intro kg hkg
    rcases List.mem_append.mp hkg with hkg | hkg
    · rcases List.mem_map.mp hkg with ⟨b, hbm, rfl⟩
      refine ⟨b.2, ?_, rfl⟩
      rw [show ((("h", b.1) : String × ℚ), b.2).1.1 = "h" from rfl, if_pos rfl]
      exact join_edge_group_h_id b.2 jx (hbh b hbm).1 (hjh b hbm).1 (hjh b hbm).2
    · rcases List.mem_map.mp hkg with ⟨b, hbm, rfl⟩
      refine ⟨b.2, ?_, rfl⟩
      rw [show ((("v", b.1) : String × ℚ), b.2).1.1 = "v" from rfl,
        if_neg (show ("v" : String) ≠ "h" from by decide)]
      exact join_edge_group_v_id b.2 jy (hbv b hbm).1 (hjv b hbm).1 (hjv b hbm).2
  obtain ⟨parts, hparts, hF⟩ := mapM_except_ok
    (fun kg : (String × ℚ) × List Edge =>
      join_edge_group kg.2 kg.1.1 (if kg.1.1 = "h" then jx else jy))
    (fun kg bl => bl = kg.2)
    (hb.map (fun b => ((("h", b.1) : String × ℚ), b.2))
      ++ vb.map (fun b => ((("v", b.1) : String × ℚ), b.2))) hjoins
  have hpartseq : parts = (hb.map (fun b => ((("h", b.1) : String × ℚ), b.2))
      ++ vb.map (fun b => ((("v", b.1) : String × ℚ), b.2))).map (fun kg => kg.2) :=
    forall₂_eq_map hF
  have hflatten : parts.flatten = out := by
    rw [hpartseq, ← List.flatMap_def, List.flatMap_append, flatMap_of_map,
      flatMap_of_map, hout]
  by_cases hcond : 0 < sx ∨ 0 < sy
  · have hsnapid : snap_edges out sx sy
        = .ok (vb.flatMap (fun b => b.2) ++ hb.flatMap (fun b => b.2)) := by
      rw [snap_edges, if_pos ?hall]
      case hall =>
        rw [List.all_eq_true]
        intro e he
        rw [hout] at he
        rcases List.mem_append.mp he with he | he
        · rw [(hHfacts e he).1]
          decide
        · rw [(hVfacts e he).1]
          decide
      have hfiltv : out.filter (fun e => decide (e.orientation = "v"))
          = vb.flatMap (fun b => b.2) := by
        rw [hout, List.filter_append]
        rw [List.filter_eq_nil.mpr (by
          intro e he
          rw [Bool.not_eq_true, decide_eq_false_iff_not]
          rw [(hHfacts e he).1]
          decide)]
        rw [List.filter_eq_self.mpr (by
          intro e he
          exact decide_eq_true (hVfacts e he).1)]
        rfl
      have hfilth : out.filter (fun e => decide (e.orientation = "h"))
          = hb.flatMap (fun b => b.2) := by
        rw [hout, List.filter_append]
        rw [show (hb.flatMap (fun b => b.2)).filter
            (fun e => decide (e.orientation = "h")) = hb.flatMap (fun b => b.2) from
          List.filter_eq_self.mpr (by
            intro e he
            exact decide_eq_true (hHfacts e he).1)]
        rw [show (vb.flatMap (fun b => b.2)).filter
            (fun e => decide (e.orientation = "h")) = [] from
          List.filter_eq_nil.mpr (by
            intro e he
            rw [Bool.not_eq_true, decide_eq_false_iff_not]
            rw [(hVfacts e he).1]
            decide)]
        rw [List.append_nil]
      rw [hfiltv, hfilth]
      have hsnapV : snap_objects (vb.flatMap (fun b => b.2)) (fun e => e.x0) "h" sx
          = vb.flatMap (fun b => b.2) := by
        refine snap_objects_id _ _ _ _ hsx hVpw_x0 ?_
        intro a ha c hc hlt
        obtain ⟨ba, hba, hxa⟩ := (hVfacts a ha).2.2
        obtain ⟨bc, hbc, hxc⟩ := (hVfacts c hc).2.2
        rw [hxa, hxc] at hlt ⊢
        exact (hsepk hcond).2 ba.1 (List.mem_map.mpr ⟨ba, hba, rfl⟩)
          bc.1 (List.mem_map.mpr ⟨bc, hbc, rfl⟩) hlt
      have hsnapH : snap_objects (hb.flatMap (fun b => b.2)) (fun e => e.top) "v" sy
          = hb.flatMap (fun b => b.2) := by
        refine snap_objects_id _ _ _ _ hsy hHpw_top ?_
        intro a ha c hc hlt
        obtain ⟨ba, hba, hta⟩ := (hHfacts a ha).2.2
        obtain ⟨bc, hbc, htc⟩ := (hHfacts c hc).2.2
        rw [hta, htc] at hlt ⊢
        exact (hsepk hcond).1 ba.1 (List.mem_map.mpr ⟨ba, hba, rfl⟩)
          bc.1 (List.mem_map.mpr ⟨bc, hbc, rfl⟩) hlt
      rw [hsnapV, hsnapH]
    rw [merge_edges, if_pos hcond, hsnapid]
    simp only [except_bind_ok]
    rw [hsortVH, hruns, hparts]
    simp only [except_bind_ok]
    rw [hflatten]
    rfl
  · rw [merge_edges, if_neg hcond]
    simp only [except_pure_bind]
    rw [show sortBy (fun a b : Edge => groupLe (get_group a) (get_group b)) out
        = hb.flatMap (fun b => b.2) ++ vb.flatMap (fun b => b.2) from by
      rw [hout]; exact hsortHV]
    rw [hruns, hparts]
    simp only [except_bind_ok]
    rw [hflatten]
    rfl

theorem chain'_attach_valid {α : Type} {P : α → Prop} {R : α → α → Prop} :
    ∀ {l : List α}, (∀ a ∈ l, P a) → l.Chain' R →
      l.Chain' (fun a b => P a ∧ P b ∧ R a b) := by
  intro l
  induction l with
  | nil => intro _ _; exact List.chain'_nil
  | cons a l ih =>
    intro hP hch
    rw [List.chain'_cons'] at hch ⊢
    refine ⟨?_, ih (fun x hx => hP x (List.mem_cons_of_mem _ hx)) hch.2⟩
    intro b hb
    exact ⟨hP a (List.mem_cons_self _ _),
      hP b (List.mem_cons_of_mem _ (List.mem_of_mem_head? hb)), hch.1 b hb⟩

theorem cluster_objects_subset (objs : List Edge) (attr : Edge → ℚ) (tol : ℚ) :
    ∀ c ∈ cluster_objects objs attr tol, ∀ o ∈ c, o ∈ objs := by
  intro c hc o ho
  rw [cluster_objects_eq] at hc
  rcases List.mem_map.mp hc with ⟨g, hg, rfl⟩
  rcases List.mem_map.mp ho with ⟨t, ht, rfl⟩
  have htt : t ∈ clusterTuples objs attr tol := by
    rw [← pyGroupBy_flatten (fun t : Edge × ℕ => t.2) (clusterTuples objs attr tol)]
    exact List.mem_flatMap.mpr ⟨g, hg, ht⟩
  rw [clusterTuples, mem_sortBy] at htt
  rcases List.mem_map.mp htt with ⟨o', ho', hto⟩
  rw [← hto]
  exact ho'

theorem snap_objects_v_facts (objs : List Edge) (sx : ℚ)
    (hfacts : ∀ o ∈ objs, o.orientation = "v" ∧ o.x0 ≤ o.x1 ∧ o.top ≤ o.bottom) :
    ∀ y ∈ snap_objects objs (fun e => e.x0) "h" sx,
      y.orientation = "v" ∧ y.x0 ≤ y.x1 ∧ y.top ≤ y.bottom := by
  intro y hy
  obtain ⟨c, hc, o, ho, rfl⟩ := snap_objects_members objs (fun e => e.x0) "h" sx y hy
  have homem := cluster_objects_subset objs (fun e => e.x0) sx c hc o ho
  obtain ⟨h1, h2, h3⟩ := hfacts o homem
  obtain ⟨hx0, hx1, htop, hbot, hor⟩ := move_object_h_fields o
    (qsub (clusterAvg (fun e => e.x0) c) o.x0)
  refine ⟨by rw [hor]; exact h1, ?_, by rw [htop, hbot]; exact h3⟩
  rw [hx0, hx1, qadd_eq, qadd_eq]
  exact add_le_add_right h2 _

theorem snap_objects_h_facts (objs : List Edge) (sy : ℚ)
    (hfacts : ∀ o ∈ objs, o.orientation = "h" ∧ o.x0 ≤ o.x1 ∧ o.top ≤ o.bottom) :
    ∀ y ∈ snap_objects objs (fun e => e.top) "v" sy,
      y.orientation = "h" ∧ y.x0 ≤ y.x1 ∧ y.top ≤ y.bottom := by
  intro y hy
  obtain ⟨c, hc, o, ho, rfl⟩ := snap_objects_members objs (fun e => e.top) "v" sy y hy
  have homem := cluster_objects_subset objs (fun e => e.top) sy c hc o ho
  obtain ⟨h1, h2, h3⟩ := hfacts o homem
  obtain ⟨hx0, hx1, htop, hbot, hor⟩ := move_object_v_fields o
    (qsub (clusterAvg (fun e => e.top) c) o.top)
  refine ⟨by rw [hor]; exact h1, by rw [hx0, hx1]; exact h2, ?_⟩
  rw [htop, hbot, qadd_eq, qadd_eq]
  exact add_le_add_right h3 _

theorem groupLe_trans_valid (p q r : String × ℚ)
    (hp : p.1 = "h" ∨ p.1 = "v") (hq : q.1 = "h" ∨ q.1 = "v")
    (hr : r.1 = "h" ∨ r.1 = "v")
    (h1 : groupLe p q = true) (h2 : groupLe q r = true) : groupLe p r = true := by
  obtain ⟨p1, p2⟩ := p
  obtain ⟨q1, q2⟩ := q
  obtain ⟨r1, r2⟩ := r
  simp only at hp hq hr
  rcases hp with rfl | rfl <;> rcases hq with rfl | rfl <;> rcases hr with rfl | rfl
  · rw [groupLe_hh, decide_eq_true_eq] at h1 h2 ⊢
    exact le_trans h1 h2
  · rw [groupLe_hv]
  · rw [groupLe_vh] at h2
    cases h2
  · rw [groupLe_hv]
  · rw [groupLe_vh] at h1
    cases h1
  · rw [groupLe_vh] at h1
    cases h1
  · rw [groupLe_vh] at h2
    cases h2
  · rw [groupLe_vv, decide_eq_true_eq] at h1 h2 ⊢
    exact le_trans h1 h2

theorem merge_core_form (S : List Edge) (sx sy jx jy : ℚ)
    (hSor : ∀ e ∈ S, e.orientation = "v" ∨ e.orientation = "h")
    (hSwf : ∀ e ∈ S, e.x0 ≤ e.x1 ∧ e.top ≤ e.bottom)
    (hsepv : (0 < sx ∨ 0 < sy) → ∀ a ∈ S, ∀ b ∈ S, a.orientation = "v" →
      b.orientation = "v" → a.x0 < b.x0 → qadd a.x0 sx < b.x0)
    (hseph : (0 < sx ∨ 0 < sy) → ∀ a ∈ S, ∀ b ∈ S, a.orientation = "h" →
      b.orientation = "h" → a.top < b.top → qadd a.top sy < b.top) :
    ∃ parts, (pyGroupBy get_group (sortBy (fun a b : Edge =>
        groupLe (get_group a) (get_group b)) S)).mapM (fun kg =>
        join_edge_group kg.2 kg.1.1 (if kg.1.1 = "h" then jx else jy)) = .ok parts
      ∧ MergedForm parts.flatten sx sy jx jy := by
  have hspw : (sortBy (fun a b : Edge => groupLe (get_group a) (get_group b)) S).Pairwise
      (fun a b => groupLe (get_group a) (get_group b) = true) :=
    @sortBy_pairwise Edge (fun a b : Edge => groupLe (get_group a) (get_group b))
      edgeKeyLe_trans edgeKeyLe_total S
  have hsmem : ∀ e ∈ sortBy (fun a b : Edge =>
      groupLe (get_group a) (get_group b)) S, e ∈ S := fun e he => mem_sortBy.mp he
  have hg_ne := pyGroupBy_nonempty get_group
    (sortBy (fun a b : Edge => groupLe (get_group a) (get_group b)) S)
  have hg_key := pyGroupBy_key_eq get_group
    (sortBy (fun a b : Edge => groupLe (get_group a) (get_group b)) S)
  have hg_mem : ∀ kg ∈ pyGroupBy get_group (sortBy (fun a b : Edge =>
      groupLe (get_group a) (get_group b)) S), ∀ e ∈ kg.2, e ∈ S := by
    intro kg hkg e he
    refine hsmem e ?_
    rw [← pyGroupBy_flatten get_group (sortBy (fun a b : Edge =>
      groupLe (get_group a) (get_group b)) S)]
    exact List.mem_flatMap.mpr ⟨kg, hkg, he⟩
  have hg_wit : ∀ kg ∈ pyGroupBy get_group (sortBy (fun a b : Edge =>
      groupLe (get_group a) (get_group b)) S),
      ∃ o ∈ S, get_group o = kg.1 := by
    intro kg hkg
    obtain ⟨o, ho, hko⟩ := pyGroupBy_key_witness get_group _ kg hkg
    exact ⟨o, hsmem o ho, hko⟩
  have hg_valid : ∀ kg ∈ pyGroupBy get_group (sortBy (fun a b : Edge =>
      groupLe (get_group a) (get_group b)) S), kg.1.1 = "h" ∨ kg.1.1 = "v" := by
    intro kg hkg
    obtain ⟨o, _, hko⟩ := hg_wit kg hkg
    rcases get_group_cases o with ⟨_, hgo⟩ | ⟨_, hgo⟩
    · left
      rw [← hko, hgo]
    · right
      rw [← hko, hgo]
  have hkeys_le : (pyGroupBy get_group (sortBy (fun a b : Edge =>
      groupLe (get_group a) (get_group b)) S)).Pairwise
      (fun g g' => groupLe g.1 g'.1 = true) :=
    pyGroupBy_keys_pairwise get_group (fun k k' => groupLe k k' = true) _ hspw
  have hkeys_ne : (pyGroupBy get_group (sortBy (fun a b : Edge =>
      groupLe (get_group a) (get_group b)) S)).Chain' (fun g g' => g.1 ≠ g'.1) :=
    pyGroupBy_chain_ne get_group _
  have hkeys_lt : (pyGroupBy get_group (sortBy (fun a b : Edge =>
      groupLe (get_group a) (get_group b)) S)).Pairwise
      (fun g g' => (g.1.1 = "h" ∨ g.1.1 = "v") ∧ (g'.1.1 = "h" ∨ g'.1.1 = "v")
        ∧ groupLe g.1 g'.1 = true ∧ g.1 ≠ g'.1) := by
    have hchT := chain'_attach_valid hg_valid (chain'_and_pairwise hkeys_ne hkeys_le)
    refine (pairwise_of_chain'_trans ?_ hchT).imp ?_
    · intro a b c h1 h2
      refine ⟨h1.1, h2.2.1, ?_, ?_⟩
      · intro hac
        have hba : groupLe b.1 a.1 = true := by
          rw [hac]
          exact h2.2.2.2
        have heq := groupLe_antisym a.1 b.1 h1.1 h1.2.1 h1.2.2.2 hba
        exact h1.2.2.1 heq
      · exact groupLe_trans_valid a.1 b.1 c.1 h1.1 h1.2.1 h2.2.1 h1.2.2.2 h2.2.2.2
    · intro a b h
      exact ⟨h.1, h.2.1, h.2.2.2, h.2.2.1⟩
  obtain ⟨hgroups, vgroups, hgsplit, hHfst, hVfst'⟩ :=
    sorted_prefix_split (fun g : (String × ℚ) × List Edge => g.1.1 = "h")
      (pyGroupBy get_group (sortBy (fun a b : Edge =>
        groupLe (get_group a) (get_group b)) S)) hkeys_lt
      (by
        intro a b hpa hpb hR
        have hbv : b.1.1 = "v" := hR.1.resolve_left hpb
        have hle := hR.2.2.1
        have hb1 : b.1 = ("v", b.1.2) := by
          rw [← hbv]
        have ha1 : a.1 = ("h", a.1.2) := by
          rw [← hpa]
        rw [hb1, ha1, groupLe_vh] at hle
        cases hle)
  have hVfst : ∀ g ∈ vgroups, g.1.1 = "v" := by
    intro g hg
    refine (hg_valid g ?_).resolve_left (hVfst' g hg)
    rw [hgsplit]
    exact List.mem_append_right _ hg
  have hjoins : ∀ kg ∈ pyGroupBy get_group (sortBy (fun a b : Edge =>
      groupLe (get_group a) (get_group b)) S),
      ∃ bl, join_edge_group kg.2 kg.1.1 (if kg.1.1 = "h" then jx else jy) = .ok bl
        ∧ (bl ≠ []
          ∧ ((kg.1.1 = "h"
              ∧ (∀ e ∈ bl, e.orientation = "h" ∧ e.top = kg.1.2 ∧ e.x0 ≤ e.x1)
              ∧ bl.Pairwise (fun a c => a.x0 ≤ c.x0)
              ∧ bl.Chain' (fun a c => ¬ (c.x0 ≤ qadd a.x1 jx)))
            ∨ (kg.1.1 = "v"
              ∧ (∀ e ∈ bl, e.orientation = "v" ∧ e.x0 = kg.1.2 ∧ e.top ≤ e.bottom)
              ∧ bl.Pairwise (fun a c => a.top ≤ c.top)
              ∧ bl.Chain' (fun a c => ¬ (c.top ≤ qadd a.bottom jy))))) := by
    intro kg hkg
    rcases hg_valid kg hkg with hkh | hkv
    · have hk1 : kg.1 = ("h", kg.1.2) := by rw [← hkh]
      have hfacts : ∀ e ∈ kg.2, e.orientation = "h" ∧ e.top = kg.1.2 ∧ e.x0 ≤ e.x1 := by
        intro e he
        have hge := hg_key kg hkg e he
        rcases get_group_cases e with ⟨hoe, hgg⟩ | ⟨_, hgg⟩
        · rw [hgg, hk1] at hge
          rw [Prod.mk.injEq] at hge
          exact ⟨hoe, hge.2, (hSwf e (hg_mem kg hkg e he)).1⟩
        · exfalso
          rw [hgg, hk1] at hge
          rw [Prod.mk.injEq] at hge
          exact absurd hge.1 (by decide)
      obtain ⟨bl, hbl, hne, hf, hpw, hch⟩ :=
        join_edge_group_h_spec kg.2 kg.1.2 jx (hg_ne kg hkg) hfacts
      refine ⟨bl, ?_, hne, Or.inl ⟨hkh, hf, hpw, hch⟩⟩
      rw [hkh, if_pos rfl]
      exact hbl
    · have hk1 : kg.1 = ("v", kg.1.2) := by rw [← hkv]
      have hfacts : ∀ e ∈ kg.2, e.orientation = "v" ∧ e.x0 = kg.1.2 ∧ e.top ≤ e.bottom := by
        intro e he
        have hge := hg_key kg hkg e he
        rcases get_group_cases e with ⟨_, hgg⟩ | ⟨hoe, hgg⟩
        · exfalso
          rw [hgg, hk1] at hge
          rw [Prod.mk.injEq] at hge
          exact absurd hge.1 (by decide)
        · rw [hgg, hk1] at hge
          rw [Prod.mk.injEq] at hge
          have hov : e.orientation = "v" :=
            (hSor e (hg_mem kg hkg e he)).resolve_right hoe
          exact ⟨hov, hge.2, (hSwf e (hg_mem kg hkg e he)).2⟩
      obtain ⟨bl, hbl, hne, hf, hpw, hch⟩ :=
        join_edge_group_v_spec kg.2 kg.1.2 "v" jy (hg_ne kg hkg)
          (by decide) hfacts
      refine ⟨bl, ?_, hne, Or.inr ⟨hkv, hf, hpw, hch⟩⟩
      rw [hkv, if_neg (show ("v" : String) ≠ "h" from by decide)]
      exact hbl
  obtain ⟨parts, hparts, hF⟩ := mapM_except_ok
    (fun kg : (String × ℚ) × List Edge =>
      join_edge_group kg.2 kg.1.1 (if kg.1.1 = "h" then jx else jy)) _ _ hjoins
  refine ⟨parts, hparts, ?_⟩
  rw [hgsplit] at hF
  obtain ⟨hparts', vparts', rfl, hFH, hFV⟩ := forall₂_append_split _ _ _ hF
  obtain ⟨hQH, hfstH, hsndH⟩ := forall₂_zip_spec hFH
  obtain ⟨hQV, hfstV, hsndV⟩ := forall₂_zip_spec hFV
  have hkeys_lt' := hkeys_lt
  rw [hgsplit, List.pairwise_append] at hkeys_lt'
  refine ⟨(hgroups.zip hparts').map (fun gp => (gp.1.1.2, gp.2)),
    (vgroups.zip vparts').map (fun gp => (gp.1.1.2, gp.2)), ?_, ?_, ?_, ?_, ?_, ?_, ?_, ?_⟩
  · rw [List.flatten_append, flatMap_of_map, flatMap_of_map]
    rw [show (fun gp : ((String × ℚ) × List Edge) × List Edge => gp.2)
        = Prod.snd from rfl]
    rw [List.flatMap_def, List.flatMap_def, hsndH, hsndV]
  · rw [List.map_map]
    rw [show (Prod.fst ∘ fun gp : ((String × ℚ) × List Edge) × List Edge
        => (gp.1.1.2, gp.2)) = (fun g => g.1.2) ∘ Prod.fst from rfl]
    rw [← List.map_map, hfstH, List.pairwise_map]
    refine hkeys_lt'.1.imp_of_mem ?_
    intro a b ha hb hab
    have ha1 : a.1 = ("h", a.1.2) := by rw [← hHfst a ha]
    have hb1 : b.1 = ("h", b.1.2) := by rw [← hHfst b hb]
    have hle := hab.2.2.1
    rw [ha1, hb1, groupLe_hh, decide_eq_true_eq] at hle
    refine lt_of_le_of_ne hle ?_
    intro hcon
    apply hab.2.2.2
    rw [ha1, hb1, hcon]
  · rw [List.map_map]
    rw [show (Prod.fst ∘ fun gp : ((String × ℚ) × List Edge) × List Edge
        => (gp.1.1.2, gp.2)) = (fun g => g.1.2) ∘ Prod.fst from rfl]
    rw [← List.map_map, hfstV, List.pairwise_map]
    refine hkeys_lt'.2.1.imp_of_mem ?_
    intro a b ha hb hab
    have ha1 : a.1 = ("v", a.1.2) := by rw [← hVfst a ha]
    have hb1 : b.1 = ("v", b.1.2) := by rw [← hVfst b hb]
    have hle := hab.2.2.1
    rw [ha1, hb1, groupLe_vv, decide_eq_true_eq] at hle
    refine lt_of_le_of_ne hle ?_
    intro hcon
    apply hab.2.2.2
    rw [ha1, hb1, hcon]
  · intro b hbm
    rcases List.mem_map.mp hbm with ⟨gp, hgp, rfl⟩
    have hQ := hQH gp hgp
    have hgfst : gp.1 ∈ hgroups := by
      rw [← hfstH]
      exact List.mem_map.mpr ⟨gp, hgp, rfl⟩
    have hh := hHfst gp.1 hgfst
    rcases hQ.2 with ⟨_, hf, _, _⟩ | ⟨hv, _, _, _⟩
    · exact ⟨hQ.1, hf⟩
    · exfalso
      rw [hh] at hv
      exact absurd hv (by decide)
  · intro b hbm
    rcases List.mem_map.mp hbm with ⟨gp, hgp, rfl⟩
    have hQ := hQV gp hgp
    have hgfst : gp.1 ∈ vgroups := by
      rw [← hfstV]
      exact List.mem_map.mpr ⟨gp, hgp, rfl⟩
    have hh := hVfst gp.1 hgfst
    rcases hQ.2 with ⟨hv, _, _, _⟩ | ⟨_, hf, _, _⟩
    · exfalso
      rw [hh] at hv
      exact absurd hv (by decide)
    · exact ⟨hQ.1, hf⟩
  · intro b hbm
    rcases List.mem_map.mp hbm with ⟨gp, hgp, rfl⟩
    have hQ := hQH gp hgp
    have hgfst : gp.1 ∈ hgroups := by
      rw [← hfstH]
      exact List.mem_map.mpr ⟨gp, hgp, rfl⟩
    have hh := hHfst gp.1 hgfst
    rcases hQ.2 with ⟨_, _, hpw, hch⟩ | ⟨hv, _, _, _⟩
    · exact ⟨hpw, hch⟩
    · exfalso
      rw [hh] at hv
      exact absurd hv (by decide)
  · intro b hbm
    rcases List.mem_map.mp hbm with ⟨gp, hgp, rfl⟩
    have hQ := hQV gp hgp
    have hgfst : gp.1 ∈ vgroups := by
      rw [← hfstV]
      exact List.mem_map.mpr ⟨gp, hgp, rfl⟩
    have hh := hVfst gp.1 hgfst
    rcases hQ.2 with ⟨hv, _, _, _⟩ | ⟨_, _, hpw, hch⟩
    · exfalso
      rw [hh] at hv
      exact absurd hv (by decide)
    · exact ⟨hpw, hch⟩
  · intro hcond
    constructor
    · intro t ht t' ht' hlt
      rw [List.map_map] at ht ht'
      rw [show (Prod.fst ∘ fun gp : ((String × ℚ) × List Edge) × List Edge
          => (gp.1.1.2, gp.2)) = (fun g => g.1.2) ∘ Prod.fst from rfl] at ht ht'
      rw [← List.map_map, hfstH] at ht ht'
      rcases List.mem_map.mp ht with ⟨g, hgm, rfl⟩
      rcases List.mem_map.mp ht' with ⟨g', hgm', rfl⟩
      have hgg : g ∈ pyGroupBy get_group (sortBy (fun a b : Edge =>
          groupLe (get_group a) (get_group b)) S) := by
        rw [hgsplit]
        exact List.mem_append_left _ hgm
      have hgg' : g' ∈ pyGroupBy get_group (sortBy (fun a b : Edge =>
          groupLe (get_group a) (get_group b)) S) := by
        rw [hgsplit]
        exact List.mem_append_left _ hgm'
      obtain ⟨o, hoS, hko⟩ := hg_wit g hgg
      obtain ⟨o', hoS', hko'⟩ := hg_wit g' hgg'
      have hgo : o.orientation = "h" ∧ o.top = g.1.2 := by
        rcases get_group_cases o with ⟨hoe, hgg0⟩ | ⟨_, hgg0⟩
        · rw [hgg0] at hko
          refine ⟨hoe, ?_⟩
          rw [← hko]
        · exfalso
          rw [hgg0] at hko
          have hthis := congrArg Prod.fst hko
          simp only at hthis
          have hgf := hHfst g hgm
          rw [← hthis] at hgf
          exact absurd hgf (by decide)
      have hgo' : o'.orientation = "h" ∧ o'.top = g'.1.2 := by
        rcases get_group_cases o' with ⟨hoe, hgg0⟩ | ⟨_, hgg0⟩
        · rw [hgg0] at hko'
          refine ⟨hoe, ?_⟩
          rw [← hko']
        · exfalso
          rw [hgg0] at hko'
          have hthis := congrArg Prod.fst hko'
          simp only at hthis
          have hgf := hHfst g' hgm'
          rw [← hthis] at hgf
          exact absurd hgf (by decide)
      rw [← hgo.2, ← hgo'.2] at hlt ⊢
      exact hseph hcond o hoS o' hoS' hgo.1 hgo'.1 hlt
    · intro t ht t' ht' hlt
      rw [List.map_map] at ht ht'
      rw [show (Prod.fst ∘ fun gp : ((String × ℚ) × List Edge) × List Edge
          => (gp.1.1.2, gp.2)) = (fun g => g.1.2) ∘ Prod.fst from rfl] at ht ht'
      rw [← List.map_map, hfstV] at ht ht'
      rcases List.mem_map.mp ht with ⟨g, hgm, rfl⟩
      rcases List.mem_map.mp ht' with ⟨g', hgm', rfl⟩
      have hgg : g ∈ pyGroupBy get_group (sortBy (fun a b : Edge =>
          groupLe (get_group a) (get_group b)) S) := by
        rw [hgsplit]
        exact List.mem_append_right _ hgm
      have hgg' : g' ∈ pyGroupBy get_group (sortBy (fun a b : Edge =>
          groupLe (get_group a) (get_group b)) S) := by
        rw [hgsplit]
        exact List.mem_append_right _ hgm'
      obtain ⟨o, hoS, hko⟩ := hg_wit g hgg
      obtain ⟨o', hoS', hko'⟩ := hg_wit g' hgg'
      have hgo : o.orientation = "v" ∧ o.x0 = g.1.2 := by
        rcases get_group_cases o with ⟨_, hgg0⟩ | ⟨hoe, hgg0⟩
        · exfalso
          rw [hgg0] at hko
          have hthis := congrArg Prod.fst hko
          simp only at hthis
          have hgf := hVfst g hgm
          rw [← hthis] at hgf
          exact absurd hgf (by decide)
        · rw [hgg0] at hko
          refine ⟨(hSor o hoS).resolve_right hoe, ?_⟩
          rw [← hko]
      have hgo' : o'.orientation = "v" ∧ o'.x0 = g'.1.2 := by
        rcases get_group_cases o' with ⟨_, hgg0⟩ | ⟨hoe, hgg0⟩
        · exfalso
          rw [hgg0] at hko'
          have hthis := congrArg Prod.fst hko'
          simp only at hthis
          have hgf := hVfst g' hgm'
          rw [← hthis] at hgf
          exact absurd hgf (by decide)
        · rw [hgg0] at hko'
          refine ⟨(hSor o' hoS').resolve_right hoe, ?_⟩
          rw [← hko']
      rw [← hgo.2, ← hgo'.2] at hlt ⊢
      exact hsepv hcond o hoS o' hoS' hgo.1 hgo'.1 hlt

theorem merge_edges_form (edges : List Edge) (sx sy jx jy : ℚ)
    (hsx : 0 ≤ sx) (hsy : 0 ≤ sy)
    (hor : ∀ e ∈ edges, e.orientation = "v" ∨ e.orientation = "h")
    (hwf : ∀ e ∈ edges, e.x0 ≤ e.x1 ∧ e.top ≤ e.bottom)
    (out : List Edge) (hout : merge_edges edges sx sy jx jy = .ok out) :
    MergedForm out sx sy jx jy := by
  by_cases hcond : 0 < sx ∨ 0 < sy
  · have hall : edges.all (fun e => decide (e.orientation = "v")
        || decide (e.orientation = "h")) = true := by
      rw [List.all_eq_true]
      intro e he
      rcases hor e he with h | h
      · rw [h]
        decide
      · rw [h]
        decide
    have hsnapEq : snap_edges edges sx sy
        = .ok (snap_objects (edges.filter (fun e => decide (e.orientation = "v")))
            (fun e => e.x0) "h" sx
          ++ snap_objects (edges.filter (fun e => decide (e.orientation = "h")))
            (fun e => e.top) "v" sy) := by
      rw [snap_edges, if_pos hall]
    have hfiltv : ∀ o ∈ edges.filter (fun e => decide (e.orientation = "v")),
        o.orientation = "v" ∧ o.x0 ≤ o.x1 ∧ o.top ≤ o.bottom := by
      intro o ho
      obtain ⟨hom, hod⟩ := List.mem_filter.mp ho
      exact ⟨of_decide_eq_true hod, (hwf o hom).1, (hwf o hom).2⟩
    have hfilth : ∀ o ∈ edges.filter (fun e => decide (e.orientation = "h")),
        o.orientation = "h" ∧ o.x0 ≤ o.x1 ∧ o.top ≤ o.bottom := by
      intro o ho
      obtain ⟨hom, hod⟩ := List.mem_filter.mp ho
      exact ⟨of_decide_eq_true hod, (hwf o hom).1, (hwf o hom).2⟩
    have hVs := snap_objects_v_facts _ sx hfiltv
    have hHs := snap_objects_h_facts _ sy hfilth
    have hSor : ∀ e ∈ snap_objects (edges.filter (fun e => decide (e.orientation = "v")))
          (fun e => e.x0) "h" sx
        ++ snap_objects (edges.filter (fun e => decide (e.orientation = "h")))
          (fun e => e.top) "v" sy,
        e.orientation = "v" ∨ e.orientation = "h" := by
      intro e he
      rcases List.mem_append.mp he with he | he
      · exact Or.inl (hVs e he).1
      · exact Or.inr (hHs e he).1
    have hSwf : ∀ e ∈ snap_objects (edges.filter (fun e => decide (e.orientation = "v")))
          (fun e => e.x0) "h" sx
        ++ snap_objects (edges.filter (fun e => decide (e.orientation = "h")))
          (fun e => e.top) "v" sy,
        e.x0 ≤ e.x1 ∧ e.top ≤ e.bottom := by
      intro e he
      rcases List.mem_append.mp he with he | he
      · exact ⟨(hVs e he).2.1, (hVs e he).2.2⟩
      · exact ⟨(hHs e he).2.1, (hHs e he).2.2⟩
    have hsepv : (0 < sx ∨ 0 < sy) →
        ∀ a ∈ snap_objects (edges.filter (fun e => decide (e.orientation = "v")))
            (fun e => e.x0) "h" sx
          ++ snap_objects (edges.filter (fun e => decide (e.orientation = "h")))
            (fun e => e.top) "v" sy,
        ∀ b ∈ snap_objects (edges.filter (fun e => decide (e.orientation = "v")))
            (fun e => e.x0) "h" sx
          ++ snap_objects (edges.filter (fun e => decide (e.orientation = "h")))
            (fun e => e.top) "v" sy,
        a.orientation = "v" → b.orientation = "v" → a.x0 < b.x0 →
          qadd a.x0 sx < b.x0 := by
      intro _ a ha b hb hav hbv hlt
      have haV : a ∈ snap_objects (edges.filter (fun e => decide (e.orientation = "v")))
          (fun e => e.x0) "h" sx := by
        rcases List.mem_append.mp ha with h | h
        · exact h
        · exfalso
          have := (hHs a h).1
          rw [hav] at this
          exact absurd this (by decide)
      have hbV : b ∈ snap_objects (edges.filter (fun e => decide (e.orientation = "v")))
          (fun e => e.x0) "h" sx := by
        rcases List.mem_append.mp hb with h | h
        · exact h
        · exfalso
          have := (hHs b h).1
          rw [hbv] at this
          exact absurd this (by decide)
      exact snap_objects_attr_sep _ (fun e => e.x0) "h" sx hsx
        (fun o v => (move_object_h_fields o v).1) a haV b hbV hlt
    have hseph : (0 < sx ∨ 0 < sy) →
        ∀ a ∈ snap_objects (edges.filter (fun e => decide (e.orientation = "v")))
            (fun e => e.x0) "h" sx
          ++ snap_objects (edges.filter (fun e => decide (e.orientation = "h")))
            (fun e => e.top) "v" sy,
        ∀ b ∈ snap_objects (edges.filter (fun e => decide (e.orientation = "v")))
            (fun e => e.x0) "h" sx
          ++ snap_objects (edges.filter (fun e => decide (e.orientation = "h")))
            (fun e => e.top) "v" sy,
        a.orientation = "h" → b.orientation = "h" → a.top < b.top →
          qadd a.top sy < b.top := by
      intro _ a ha b hb hav hbv hlt
      have haH : a ∈ snap_objects (edges.filter (fun e => decide (e.orientation = "h")))
          (fun e => e.top) "v" sy := by
        rcases List.mem_append.mp ha with h | h
        · exfalso
          have := (hVs a h).1
          rw [hav] at this
          exact absurd this (by decide)
        · exact h
      have hbH : b ∈ snap_objects (edges.filter (fun e => decide (e.orientation = "h")))
          (fun e => e.top) "v" sy := by
        rcases List.mem_append.mp hb with h | h
        · exfalso
          have := (hVs b h).1
          rw [hbv] at this
          exact absurd this (by decide)
        · exact h
      exact snap_objects_attr_sep _ (fun e => e.top) "v" sy hsy
        (fun o v => (move_object_v_fields o v).2.2.1) a haH b hbH hlt
    obtain ⟨parts, hparts, hform⟩ := merge_core_form _ sx sy jx jy hSor hSwf hsepv hseph
    rw [merge_edges, if_pos hcond, hsnapEq] at hout
    simp only [except_bind_ok] at hout
    rw [hparts] at hout
    simp only [except_bind_ok] at hout
    have hfin : parts.flatten = out := Except.ok.inj hout
    rw [← hfin]
    exact hform
  · obtain ⟨parts, hparts, hform⟩ := merge_core_form edges sx sy jx jy hor hwf
      (fun hc => absurd hc hcond) (fun hc => absurd hc hcond)
    rw [merge_edges, if_neg hcond] at hout
    simp only [except_pure_bind] at hout
    rw [hparts] at hout
    simp only [except_bind_ok] at hout
    have hfin : parts.flatten = out := Except.ok.inj hout
    rw [← hfin]
    exact hform

/-- C7: for every list of edges with Python-well-formed fields (orientation
`"v"` or `"h"`, `x0 ≤ x1` and `top ≤ bottom`, as produced by the edge
extraction) and non-negative snap and join tolerances, `merge_edges` is
idempotent: whenever it succeeds, running it again with the same tolerances
on its own output returns that output unchanged. -/
theorem C7_merge_edges_idempotent (edges : List Edge) (sx sy jx jy : ℚ)
    (hsx : 0 ≤ sx) (hsy : 0 ≤ sy) (hjx : 0 ≤ jx) (hjy : 0 ≤ jy)
    (hor : ∀ e ∈ edges, e.orientation = "v" ∨ e.orientation = "h")
    (hwf : ∀ e ∈ edges, e.x0 ≤ e.x1 ∧ e.top ≤ e.bottom) :
    ∀ out, merge_edges edges sx sy jx jy = .ok out →
      merge_edges out sx sy jx jy = .ok out := by
  intro out hout
  exact merge_edges_id_of_form out sx sy jx jy hsx hsy
    (merge_edges_form edges sx sy jx jy hsx hsy hor hwf out hout)

deriving instance DecidableEq for Except

/-- A concrete four-edge input for the idempotence witness: two horizontal
edges snapped together (tops `10` and `21/2`) and joined (`x0` ranges
`[0,5]` and `[4,9]`), and two vertical edges snapped (`x0` values `20` and
`41/2`) and joined (`top` ranges `[0,8]` and `[7,15]`). -/
def C7edges : List Edge := [
  ⟨0, 10, 5, 10, 5, 0, "h", none, none, none⟩,
  ⟨4, mkRat 21 2, 9, mkRat 21 2, 5, 0, "h", none, none, none⟩,
  ⟨20, 0, 20, 8, 0, 8, "v", none, none, none⟩,
  ⟨mkRat 41 2, 7, mkRat 41 2, 15, 0, 8, "v", none, none, none⟩ ]

/-- The merged output of `C7edges` with all four tolerances `1`. -/
def C7out : List Edge := [
  ⟨0, mkRat 41 4, 9, mkRat 41 4, 9, 0, "h", none, none, none⟩,
  ⟨mkRat 81 4, 0, mkRat 81 4, 15, 0, 15, "v", none, none, none⟩ ]

theorem C7_merge_edges_idempotent_witness :
    merge_edges C7out 1 1 1 1 = .ok C7out :=
  C7_merge_edges_idempotent C7edges 1 1 1 1 (by decide) (by decide) (by decide)
    (by decide) (by decide) (by decide) C7out (by decide)
